import Mathlib

/-!
Verification of arduino-go: board configuration, download integrity and
incremental build.

A shallow embedding of the parts of the repository that decide the behaviour of
`Board.GetBuildProperties` (arduino/cores/board.go), of the cached-archive
checks of `DownloadResource` (arduino/resources), of the incremental
compilation helpers (legacy/builder/builder_utils/utils.go), of the header
resolver (arduino/libraries/librariesresolver/cpp.go), of the release lookup
of the package manager (arduino/cores/packagemanager/download.go) and of the
writers of the command-line feedback (cli/feedback/feedback.go), followed by
the theorems that relate the code to its specification.

Go strings are embedded as Lean strings; every string primitive is written by
structural recursion over the list of characters.
-/

set_option autoImplicit false

/-! ## Go string primitives used by the sources -/

namespace strings

/-- Go `strings.HasPrefix(s, prefix)`. -/
def HasPrefix (s pre : String) : Bool :=
  pre.data.isPrefixOf s.data

/-- Go `strings.HasSuffix(s, suffix)`. -/
def HasSuffix (s suf : String) : Bool :=
  suf.data.reverse.isPrefixOf s.data.reverse

/-- Go slice expression `s[n:]`. -/
def sliceFrom (s : String) (n : Nat) : String :=
  String.mk (s.data.drop n)

/-- Go slice expression `s[:len(s)-n]`. -/
def dropLast (s : String) (n : Nat) : String :=
  String.mk (s.data.take (s.data.length - n))

/-- Splits a character list at the first occurrence of the separator
character: `none` when the separator does not occur. -/
def cutChars (sep : Char) : List Char → Option (List Char × List Char)
  | [] => none
  | c :: cs =>
    if c = sep then some ([], cs)
    else match cutChars sep cs with
      | none => none
      | some (a, b) => some (c :: a, b)

/-- Go `strings.SplitN(s, sep, 2)` for a one-character separator: the string
itself when the separator is absent, otherwise the parts before and after its
first occurrence. -/
def SplitN2 (s : String) (sep : Char) : List String :=
  match cutChars sep s.data with
  | none => [s]
  | some (a, b) => [String.mk a, String.mk b]

/-- Go `strings.SplitN(s, sep, 2)[0]`. -/
def firstField (s : String) (sep : Char) : String :=
  match cutChars sep s.data with
  | none => s
  | some (a, _) => String.mk a

end strings

/-! ## The ordered property map (go-properties-orderedmap)

`properties.Map` keeps a hash map `kv` and the slice `o` of its keys in
insertion order.  It is embedded as the list of its key/value pairs in the order
of `o`; the keys of a map built through the API are pairwise distinct. -/

namespace properties

/-- An ordered property map: the key/value pairs in insertion order. -/
abbrev Map := List (String × String)

namespace Map

/-- The representation invariant of `properties.Map`: no key occurs twice. -/
def WF (m : Map) : Prop := (m.map Prod.fst).Nodup

instance (m : Map) : Decidable (WF m) := by unfold WF; infer_instance

/-- `properties.NewMap()`. -/
def NewMap : Map := []

/-- `Map.GetOk(key)`: the value and whether the key is set. -/
def GetOk : Map → String → Option String
  | [], _ => none
  | (k, v) :: rest, key => if k = key then some v else GetOk rest key

/-- `Map.Get(key)`: the value, the empty string when the key is not set. -/
def Get (m : Map) (key : String) : String :=
  (GetOk m key).getD ""

/-- `Map.ContainsKey(key)`. -/
def ContainsKey (m : Map) (key : String) : Bool :=
  (GetOk m key).isSome

/-- `Map.Remove(key)`: deletes the key from `kv` and its first occurrence from
the order slice. -/
def Remove : Map → String → Map
  | [], _ => []
  | (k, v) :: rest, key => if k = key then rest else (k, v) :: Remove rest key

/-- `Map.Set(key, value)`: an existing key is removed first, then the pair is
appended at the end of the order. -/
def Set (m : Map) (key value : String) : Map :=
  (if ContainsKey m key then Remove m key else m) ++ [(key, value)]

/-- `Map.Merge(source)`: sets every pair of the source, in the source order. -/
def Merge (m : Map) (source : Map) : Map :=
  source.foldl (fun acc kv => Set acc kv.1 kv.2) m

/-- `Map.Clone()`: a new map into which the receiver is merged. -/
def Clone (m : Map) : Map :=
  Merge NewMap m

/-- `Map.Keys()`: the keys in insertion order. -/
def Keys (m : Map) : List String :=
  m.map Prod.fst

/-- `Map.SubTree(rootKey)`: the pairs whose key starts with `rootKey + "."`,
with that prefix cut off, set one after the other into a new map. -/
def SubTree (m : Map) (rootKey : String) : Map :=
  let root := rootKey ++ "."
  m.foldl (fun newMap kv =>
    if strings.HasPrefix kv.1 root then
      Set newMap (strings.sliceFrom kv.1 root.data.length) kv.2
    else newMap) NewMap

/-- The loop of `Map.FirstLevelKeys()`: appends to `res` the first field of
every key that was not taken before. -/
def firstLevelKeysLoop : List String → List String → List String
  | [], res => res
  | k :: ks, res =>
    let first := strings.firstField k '.'
    if first ∈ res then firstLevelKeysLoop ks res
    else firstLevelKeysLoop ks (res ++ [first])

/-- `Map.FirstLevelKeys()`: the distinct first dot-separated fields of the
keys, in order of first appearance. -/
def FirstLevelKeys (m : Map) : List String :=
  firstLevelKeysLoop (Keys m) []

end Map
end properties

/-! ## Board configuration (arduino/cores/board.go) -/

namespace cores

open properties

/-- The ways `Board.GetBuildProperties` ends without a property map. -/
inductive BuildError where
  /-- `invalid value '%s' for option '%s'`. -/
  | invalidValue (value option : String)
  /-- `invalid empty option found`. -/
  | invalidEmptyOption
  /-- `invalid option '%s'`. -/
  | invalidOption (option : String)
  deriving DecidableEq, Repr

/-- Outcome of a Go call that returns `(value, error)` and may also stop in a
run-time panic. -/
inductive Outcome (α : Type) where
  | ok (value : α)
  | error (e : BuildError)
  | panic
  deriving DecidableEq, Repr

/-- The fields of `Board` that `GetBuildProperties` reads. -/
structure Board where
  BoardID : String
  Properties : Map
  deriving DecidableEq, Repr

namespace Board

/-- `Board.GetConfigOptionValues(option)`: the first-level keys of the option
subtree that carry a label, with their labels. -/
def GetConfigOptionValues (b : Board) (option : String) : Map :=
  let menu := (Map.SubTree b.Properties "menu").SubTree option
  menu.FirstLevelKeys.foldl (fun res value =>
    match menu.GetOk value with
    | some label => res.Set value label
    | none => res) Map.NewMap

/-- The first loop of `GetBuildProperties`: for every option in turn, takes
the user value (removing it from the working copy) or the default, and merges
the subtree of the value into the build properties. -/
def optionsLoop (menu : Map) : List String → Map → Map → Outcome (Map × Map)
  | [], userConfigs, buildProperties => .ok (userConfigs, buildProperties)
  | option :: rest, userConfigs, buildProperties =>
    let optionMenu := menu.SubTree option
    match userConfigs.GetOk option with
    | some userValue =>
      let userConfigs := userConfigs.Remove option
      if !optionMenu.ContainsKey userValue then
        .error (.invalidValue userValue option)
      else
        optionsLoop menu rest userConfigs (buildProperties.Merge (optionMenu.SubTree userValue))
    | none =>
      -- apply default: `optionMenu.FirstLevelKeys()[0]`
      match optionMenu.FirstLevelKeys with
      | [] => .panic
      | userValue :: _ =>
        optionsLoop menu rest userConfigs (buildProperties.Merge (optionMenu.SubTree userValue))

/-- The second loop of `GetBuildProperties`: the first residual key of the
working copy decides the error. -/
def residualCheck (userConfigs : Map) (buildProperties : Map) : Outcome Map :=
  match userConfigs.Keys with
  | [] => .ok buildProperties
  | invalidOption :: _ =>
    if invalidOption = "" then .error .invalidEmptyOption
    else .error (.invalidOption invalidOption)

/-- `Board.GetBuildProperties(userConfigs)`. -/
def GetBuildProperties (b : Board) (userConfigs : Map) : Outcome Map :=
  let userConfigs := userConfigs.Clone
  let buildProperties := b.Properties.Clone
  let menu := b.Properties.SubTree "menu"
  match optionsLoop menu menu.FirstLevelKeys userConfigs buildProperties with
  | .ok (userConfigs, buildProperties) => residualCheck userConfigs buildProperties
  | .error e => .error e
  | .panic => .panic

end Board
end cores

/-! ## The specification of the board configuration, in the spec's words -/

namespace BoardSpec

open properties cores

/-- The menu of a board: the `menu` subtree of its properties. -/
def menuOf (b : Board) : Map := b.Properties.SubTree "menu"

/-- The menu options of a board, in declaration order. -/
def optionsOf (b : Board) : List String := (menuOf b).FirstLevelKeys

/-- The value chosen for an option: the user-supplied value if the config has
one, otherwise the first declared value of the option. -/
def chosenValue (b : Board) (userConfig : Map) (option : String) : Option String :=
  match userConfig.GetOk option with
  | some v => some v
  | none => ((menuOf b).SubTree option).FirstLevelKeys.head?

/-- Merges into `acc` the property subtree of the value chosen for `option`. -/
def mergeChosen (b : Board) (userConfig : Map) (acc : Map) (option : String) : Map :=
  match chosenValue b userConfig option with
  | some v => acc.Merge (((menuOf b).SubTree option).SubTree v)
  | none => acc

/-- The resolved build properties as the spec words them: a clone of the base
properties into which the subtree of every chosen value is merged, in the
declaration order of the options. -/
def resolved (b : Board) (userConfig : Map) : Map :=
  (optionsOf b).foldl (mergeChosen b userConfig) b.Properties.Clone

/-- The resolved build properties when every option takes its first declared
value. -/
def resolvedDefaults (b : Board) : Map :=
  (optionsOf b).foldl (fun acc option =>
    match ((menuOf b).SubTree option).FirstLevelKeys.head? with
    | some v => acc.Merge (((menuOf b).SubTree option).SubTree v)
    | none => acc) b.Properties.Clone

/-- The keys of the config that are not menu options of the board, in config
order. -/
def unrecognizedKeys (b : Board) (userConfig : Map) : List String :=
  userConfig.Keys.filter (fun k => decide (k ∉ optionsOf b))

/-- Every supplied value is accepted by the validation of `GetBuildProperties`:
it is a key of the menu subtree of its option. -/
def suppliedValuesAccepted (b : Board) (userConfig : Map) : Prop :=
  ∀ option ∈ optionsOf b, ∀ v, userConfig.GetOk option = some v →
    ((menuOf b).SubTree option).ContainsKey v = true

/-- Every supplied value is a declared value of its option in the sense of
`GetConfigOptionValues`. -/
def suppliedValuesDeclared (b : Board) (userConfig : Map) : Prop :=
  ∀ option ∈ optionsOf b, ∀ v, userConfig.GetOk option = some v →
    (b.GetConfigOptionValues option).ContainsKey v = true

/-- Every supplied value is a first-level key of the menu subtree of its
option. -/
def suppliedValuesFirstLevel (b : Board) (userConfig : Map) : Prop :=
  ∀ option ∈ optionsOf b, ∀ v, userConfig.GetOk option = some v →
    v ∈ ((menuOf b).SubTree option).FirstLevelKeys

/-- Every option the config leaves unset has at least one value to default
to. -/
def unsetOptionsHaveDefault (b : Board) (userConfig : Map) : Prop :=
  ∀ option ∈ optionsOf b, userConfig.GetOk option = none →
    ((menuOf b).SubTree option).FirstLevelKeys ≠ []

/-- The board of Scenario A: option `cpu` with the values `16MHz` and `8MHz`
declared in that order. -/
def uno : Board :=
  { BoardID := "uno"
    Properties := [("name", "Arduino Uno"), ("build.core", "arduino"),
      ("menu.cpu.16MHz", "16 MHz"), ("menu.cpu.16MHz.build.f_cpu", "16000000L"),
      ("menu.cpu.8MHz", "8 MHz"), ("menu.cpu.8MHz.build.f_cpu", "8000000L")] }

end BoardSpec

/-! ## Operating-system results shared by the file-system models -/

namespace os

/-- The fields of `os.FileInfo` the sources read: size and modification time. -/
structure FileInfo where
  Size : Int
  ModTime : Nat
  deriving DecidableEq, Repr

/-- Result of `os.Stat`: the file info, an error for which `os.IsNotExist`
holds, or any other error. -/
inductive StatResult where
  | info (fi : FileInfo)
  | notExist (err : String)
  | failed (err : String)
  deriving DecidableEq, Repr

/-- Result of opening a file and copying its whole content: the bytes, the
error of `os.Open`, or the error met while reading. -/
inductive ReadResult where
  | content (bytes : List Nat)
  | openFailed (err : String)
  | readFailed (err : String)
  deriving DecidableEq, Repr

end os

/-! ## Hexadecimal decoding (encoding/hex) -/

namespace hex

/-- The two errors of `hex.DecodeString`. -/
inductive DecodeError where
  | invalidByte (c : Char)
  | errLength
  deriving DecidableEq, Repr

/-- Go `fromHexChar`: the value of a hexadecimal digit of either case. -/
def fromHexChar (c : Char) : Option Nat :=
  if 48 ≤ c.toNat ∧ c.toNat ≤ 57 then some (c.toNat - 48)
  else if 97 ≤ c.toNat ∧ c.toNat ≤ 102 then some (c.toNat - 97 + 10)
  else if 65 ≤ c.toNat ∧ c.toNat ≤ 70 then some (c.toNat - 65 + 10)
  else none

/-- Go `hex.Decode` over the characters: pairs of digits give one byte each; an
invalid digit is reported before an odd length. -/
def decodeChars : List Char → Except DecodeError (List Nat)
  | [] => .ok []
  | [a] =>
    match fromHexChar a with
    | none => .error (.invalidByte a)
    | some _ => .error .errLength
  | a :: b :: rest =>
    match fromHexChar a with
    | none => .error (.invalidByte a)
    | some x =>
      match fromHexChar b with
      | none => .error (.invalidByte b)
      | some y =>
        match decodeChars rest with
        | .ok bytes => .ok ((x * 16 + y) :: bytes)
        | .error e => .error e

/-- Go `hex.DecodeString`. -/
def DecodeString (s : String) : Except DecodeError (List Nat) :=
  decodeChars s.data

end hex

/-! ## Download resources (arduino/resources) -/

namespace resources

/-- The hash algorithms `TestLocalArchiveChecksum` knows. -/
inductive Algo where
  | SHA256
  | SHA1
  | MD5
  deriving DecidableEq, Repr

/-- The algorithm token of each hash algorithm in a checksum string. -/
def Algo.token : Algo → String
  | .SHA256 => "SHA-256"
  | .SHA1 => "SHA-1"
  | .MD5 => "MD5"

/-- The errors built by the functions of the package, each named after its
message; a cause is the wrapped error. -/
inductive Error where
  /-- `invalid checksum format: %s`. -/
  | invalidChecksumFormat (checksum : String)
  /-- `invalid hash '%s': %s`. -/
  | invalidHash (hexDigits : String) (cause : hex.DecodeError)
  /-- `unsupported hash algorithm: %s`. -/
  | unsupportedHashAlgorithm (algo : String)
  /-- `getting archive path: %s`. -/
  | gettingArchivePath (cause : String)
  /-- `opening archive file: %s`. -/
  | openingArchiveFile (cause : String)
  /-- `computing hash: %s`. -/
  | computingHash (cause : String)
  /-- `getting archive info: %s`. -/
  | gettingArchiveInfo (cause : String)
  /-- `testing if archive is cached: %s`. -/
  | testingIfArchiveIsCached (cause : Error)
  /-- `teting archive size: %s`. -/
  | testingArchiveSize (cause : Error)
  /-- `testing archive checksum: %s`. -/
  | testingArchiveChecksum (cause : Error)
  /-- `testing local archive integrity: %s`. -/
  | testingLocalArchiveIntegrity (cause : Error)
  /-- `removing corrupted archive file: %s`. -/
  | removingCorruptedArchiveFile (cause : String)
  /-- `getting archive file info: %s`. -/
  | gettingArchiveFileInfo (cause : String)
  /-- The error returned by `downloader.DownloadWithConfig`. -/
  | downloadFailed (cause : String)
  deriving DecidableEq, Repr

/-- The collaborators of the package: path joining, the file system as the
functions find it, the hash functions and the downloader library. -/
structure World where
  /-- `paths.Path.Join`. -/
  join : String → String → String
  /-- `paths.Path.MkdirAll`: the error, if any. -/
  mkdirAll : String → Option String
  /-- `paths.Path.Stat`. -/
  stat : String → os.StatResult
  /-- `os.Open` followed by `io.Copy` of the whole file. -/
  readAll : String → os.ReadResult
  /-- The digest of a byte sequence under an algorithm. -/
  digest : Algo → List Nat → List Nat
  /-- `paths.Path.Remove`: the error, if any. -/
  remove : String → Option String
  /-- `downloader.DownloadWithConfig` for a path and a URL: the error, if any. -/
  startDownload : String → String → Option String

/-- The fields of `DownloadResource`. -/
structure DownloadResource where
  URL : String
  ArchiveFileName : String
  Checksum : String
  Size : Int
  CachePath : String
  deriving DecidableEq, Repr

/-- The transfer handle `*downloader.Downloader`. -/
structure Downloader where
  path : String
  url : String
  deriving DecidableEq, Repr

/-- What a call does to the outside: removing a file, asking the downloader
for a transfer. -/
inductive Effect where
  | removed (path : String)
  | transferRequested (path url : String)
  deriving DecidableEq, Repr

namespace DownloadResource

/-- `DownloadResource.ArchivePath(downloadDir)`. -/
def ArchivePath (w : World) (r : DownloadResource) (downloadDir : String) :
    Except String String :=
  let staging := w.join downloadDir r.CachePath
  match w.mkdirAll staging with
  | some err => .error err
  | none => .ok (w.join staging r.ArchiveFileName)

/-- `paths.Path.Exist()`: the path can be stat-ed. -/
def Exist (w : World) (path : String) : Bool :=
  match w.stat path with
  | .info _ => true
  | _ => false

/-- `DownloadResource.IsCached(downloadDir)`. -/
def IsCached (w : World) (r : DownloadResource) (downloadDir : String) :
    Except Error Bool :=
  match ArchivePath w r downloadDir with
  | .error err => .error (.gettingArchivePath err)
  | .ok archivePath => .ok (Exist w archivePath)

/-- `DownloadResource.TestLocalArchiveChecksum(downloadDir)`. -/
def TestLocalArchiveChecksum (w : World) (r : DownloadResource) (downloadDir : String) :
    Except Error Bool :=
  match strings.SplitN2 r.Checksum ':' with
  | [algoToken, hexDigits] =>
    match hex.DecodeString hexDigits with
    | .error err => .error (.invalidHash hexDigits err)
    | .ok digest =>
      let algo : Option Algo :=
        if algoToken = "SHA-256" then some .SHA256
        else if algoToken = "SHA-1" then some .SHA1
        else if algoToken = "MD5" then some .MD5
        else none
      match algo with
      | none => .error (.unsupportedHashAlgorithm algoToken)
      | some algo =>
        match ArchivePath w r downloadDir with
        | .error err => .error (.gettingArchivePath err)
        | .ok filePath =>
          match w.readAll filePath with
          | .openFailed err => .error (.openingArchiveFile err)
          | .readFailed err => .error (.computingHash err)
          | .content bytes => .ok (decide (w.digest algo bytes = digest))
  | _ => .error (.invalidChecksumFormat r.Checksum)

/-- `DownloadResource.TestLocalArchiveSize(downloadDir)`. -/
def TestLocalArchiveSize (w : World) (r : DownloadResource) (downloadDir : String) :
    Except Error Bool :=
  match ArchivePath w r downloadDir with
  | .error err => .error (.gettingArchivePath err)
  | .ok filePath =>
    match w.stat filePath with
    | .info fi => .ok (decide (fi.Size = r.Size))
    | .notExist err => .error (.gettingArchiveInfo err)
    | .failed err => .error (.gettingArchiveInfo err)

/-- `DownloadResource.TestLocalArchiveIntegrity(downloadDir)`. -/
def TestLocalArchiveIntegrity (w : World) (r : DownloadResource) (downloadDir : String) :
    Except Error Bool :=
  match IsCached w r downloadDir with
  | .error err => .error (.testingIfArchiveIsCached err)
  | .ok false => .ok false
  | .ok true =>
    match TestLocalArchiveSize w r downloadDir with
    | .error err => .error (.testingArchiveSize err)
    | .ok false => .ok false
    | .ok true =>
      match TestLocalArchiveChecksum w r downloadDir with
      | .error err => .error (.testingArchiveChecksum err)
      | .ok ok => .ok ok

/-- The two return values of `Download` together with what the call did. -/
structure DownloadReturn where
  downloader : Option Downloader
  err : Option Error
  effects : List Effect
  deriving DecidableEq, Repr

/-- The last statement of `Download`: the call of the downloader library. -/
def requestTransfer (w : World) (r : DownloadResource) (path : String)
    (effects : List Effect) : DownloadReturn :=
  match w.startDownload path r.URL with
  | some err =>
    { downloader := none, err := some (.downloadFailed err),
      effects := effects ++ [.transferRequested path r.URL] }
  | none =>
    { downloader := some ⟨path, r.URL⟩, err := none,
      effects := effects ++ [.transferRequested path r.URL] }

/-- `DownloadResource.Download(downloadDir, downloaderHeaders)`. -/
def Download (w : World) (r : DownloadResource) (downloadDir : String) : DownloadReturn :=
  match TestLocalArchiveIntegrity w r downloadDir with
  | .error err =>
    { downloader := none, err := some (.testingLocalArchiveIntegrity err), effects := [] }
  | .ok true => { downloader := none, err := none, effects := [] }
  | .ok false =>
    match ArchivePath w r downloadDir with
    | .error err => { downloader := none, err := some (.gettingArchivePath err), effects := [] }
    | .ok path =>
      match w.stat path with
      | .notExist _ => requestTransfer w r path []
      | .info stats =>
        if stats.Size > r.Size then
          match w.remove path with
          | some err =>
            { downloader := none, err := some (.removingCorruptedArchiveFile err), effects := [] }
          | none => requestTransfer w r path [.removed path]
        else requestTransfer w r path []
      | .failed err =>
        { downloader := none, err := some (.gettingArchiveFileInfo err), effects := [] }

end DownloadResource
end resources

/-! ## The integrity check of a cached archive, in the spec's words -/

namespace ResourceSpec

open resources resources.DownloadResource

/-- The checksum string of the resource is `ALGO:HEX` for the algorithm, and
`HEX` decodes to the digest. -/
def declares (r : DownloadResource) (algo : Algo) (digest : List Nat) : Prop :=
  ∃ hexDigits : String,
    r.Checksum = algo.token ++ ":" ++ hexDigits ∧ hex.DecodeString hexDigits = .ok digest

/-- The cached archive file exists. -/
def archiveExists (w : World) (r : DownloadResource) (downloadDir : String) : Prop :=
  ∃ path fi, ArchivePath w r downloadDir = .ok path ∧ w.stat path = .info fi

/-- The size of the cached archive equals the expected size of the resource. -/
def sizeMatches (w : World) (r : DownloadResource) (downloadDir : String) : Prop :=
  ∃ path fi, ArchivePath w r downloadDir = .ok path ∧ w.stat path = .info fi ∧ fi.Size = r.Size

/-- The digest of the cached archive equals the declared checksum of the
resource. -/
def checksumMatches (w : World) (r : DownloadResource) (downloadDir : String) : Prop :=
  ∃ path algo digest bytes, ArchivePath w r downloadDir = .ok path ∧ declares r algo digest ∧
    w.readAll path = .content bytes ∧ w.digest algo bytes = digest

/-- The algorithm token of a checksum string: what stands before the first
colon. -/
def algorithmToken (checksum : String) : String :=
  strings.firstField checksum ':'

/-- The supported algorithm tokens. -/
def supportedTokens : List String := ["SHA-256", "SHA-1", "MD5"]

/-- A world with one cached archive `/dl/pkg/a.zip` of three bytes, whose
digest under every algorithm is the byte sequence itself. -/
def sampleWorld : World :=
  { join := fun a b => a ++ "/" ++ b
    mkdirAll := fun _ => none
    stat := fun p => if p = "/dl/pkg/a.zip" then .info ⟨3, 10⟩ else .notExist "no such file"
    readAll := fun p =>
      if p = "/dl/pkg/a.zip" then .content [1, 2, 3] else .openFailed "no such file"
    digest := fun _ bytes => bytes
    remove := fun _ => none
    startDownload := fun _ _ => none }

/-- A resource cached in `sampleWorld` with a matching size and checksum. -/
def sampleResource : DownloadResource :=
  { URL := "http://example.com/a.zip", ArchiveFileName := "a.zip",
    Checksum := "MD5:010203", Size := 3, CachePath := "pkg" }

end ResourceSpec

/-! ## Further Go string primitives -/

namespace unicode

/-- Go `unicode.IsSpace`. -/
def IsSpace (c : Char) : Bool :=
  let n := c.toNat
  decide (n = 0x09 ∨ n = 0x0A ∨ n = 0x0B ∨ n = 0x0C ∨ n = 0x0D ∨ n = 0x20 ∨ n = 0x85 ∨
    n = 0xA0 ∨ n = 0x1680 ∨ (0x2000 ≤ n ∧ n ≤ 0x200A) ∨ n = 0x2028 ∨ n = 0x2029 ∨
    n = 0x202F ∨ n = 0x205F ∨ n = 0x3000)

end unicode

namespace strings

/-- Go `strings.TrimSpace(s)`. -/
def TrimSpace (s : String) : String :=
  String.mk ((s.data.dropWhile unicode.IsSpace).reverse.dropWhile unicode.IsSpace).reverse

/-- The scan of `strings.Replace(s, old, new, -1)` for a non-empty `old`: at
every position where `old` starts it is replaced and the scan goes on behind
it. The first argument bounds the number of steps. -/
def replaceChars (old new : List Char) : Nat → List Char → List Char
  | 0, s => s
  | _ + 1, [] => []
  | n + 1, c :: cs =>
    if old.isPrefixOf (c :: cs) then new ++ replaceChars old new n ((c :: cs).drop old.length)
    else c :: replaceChars old new n cs

/-- Go `strings.Replace(s, old, new, -1)` for a non-empty `old`. -/
def Replace (s old new : String) : String :=
  String.mk (replaceChars old.data new.data s.data.length s.data)

/-- Go `strings.Join(elems, sep)`. -/
def Join : List String → String → String
  | [], _ => ""
  | [a], _ => a
  | a :: b :: rest, sep => a ++ sep ++ Join (b :: rest) sep

end strings

/-! ## Paths (go-paths-helper) -/

namespace paths

/-- Byte-wise comparison `a <= b` of two strings, over their characters. -/
def leChars : List Char → List Char → Bool
  | [], _ => true
  | _ :: _, [] => false
  | a :: as, b :: bs =>
    if a.toNat < b.toNat then true
    else if b.toNat < a.toNat then false
    else leChars as bs

/-- The order `PathList.Sort` sorts by: `Less(i, j)` is `p[i].path < p[j].path`,
so a sorted list has `a <= b` for every element `a` before an element `b`. -/
def LE (a b : String) : Prop := leChars a.data b.data = true

instance : DecidableRel LE := fun a b => by unfold LE; infer_instance

/-- `PathList.Sort()`: the list in ascending order of the path strings. -/
def PathList.Sort (p : List String) : List String :=
  p.insertionSort LE

end paths

/-! ## The incremental build helpers (legacy/builder/builder_utils/utils.go) -/

namespace builder_utils

open properties

/-- The constants of `legacy/builder/constants` the functions use. -/
structure Constants where
  BUILD_PROPERTIES_ARCHIVE_FILE : String
  BUILD_PROPERTIES_ARCHIVE_FILE_PATH : String
  BUILD_PROPERTIES_OBJECT_FILE : String
  BUILD_PROPERTIES_SOURCE_FILE : String
  BUILD_PROPERTIES_INCLUDES : String
  BUILD_PROPERTIES_COMPILER_WARNING_FLAGS : String
  RECIPE_AR_PATTERN : String
  SPACE : String
  EMPTY_STRING : String

/-- A prepared command, `*exec.Cmd`. -/
structure Command where
  Args : List String
  Dir : String
  deriving DecidableEq, Repr

/-- The errors the functions return. -/
inductive Error where
  /-- An error of the operating system or of a library, wrapped by
  `i18n.WrapError`. -/
  | wrapped (cause : String)
  /-- `i18n.ErrorfWithLogger(logger, constants.MSG_PATTERN_MISSING, recipe)`. -/
  | patternMissing (recipe : String)
  deriving DecidableEq, Repr

/-- What a call does to the outside. -/
inductive Event where
  /-- A file was removed. -/
  | removed (path : String)
  /-- `ExecRecipe` ran the command of a recipe with these build properties. -/
  | executed (recipe : String) (buildProperties : Map)
  deriving DecidableEq, Repr

/-- The fields of `types.Context` that decide results (logging and progress
reporting are left out). -/
structure Context where
  Jobs : Int
  WarningsLevel : String
  deriving DecidableEq, Repr

/-- The collaborators of the build helpers: constants, path arithmetic, the
file system as a snapshot, the property expansion and the command runner. -/
structure Env where
  constants : Constants
  /-- `paths.Path.Clean`. -/
  clean : String → String
  /-- `paths.Path.Join`. -/
  join : String → String → String
  /-- `paths.Path.Base`. -/
  base : String → String
  /-- `paths.Path.Parent`. -/
  parent : String → String
  /-- `sourcePath.RelTo(source)`. -/
  relTo : String → String → Except String String
  /-- `paths.Path.MkdirAll`: the error, if any. -/
  mkdirAll : String → Option String
  /-- `os.Stat`. -/
  stat : String → os.StatResult
  /-- `paths.Path.ReadFileAsLines`. -/
  readFileAsLines : String → Except String (List String)
  /-- `paths.Path.Remove`: the error, if any. -/
  remove : String → Option String
  /-- `properties.Map.ExpandPropsInString`. -/
  expandPropsInString : Map → String → String
  /-- `properties.DeleteUnexpandedPropsFromString`. -/
  deleteUnexpandedPropsFromString : String → String
  /-- `utils.PrepareCommand(pattern, logger, relativePath)`. -/
  prepareCommand : String → String → Except String Command
  /-- `utils.ExecCommand`: the error, if any. -/
  execCommand : Command → Option String
  /-- `runtime.NumCPU()`. -/
  numCPU : Nat

/-- `unescapeDep`. -/
def unescapeDep (s : String) : String :=
  let s := strings.Replace s "\\ " " "
  let s := strings.Replace s "\\\t" "\t"
  let s := strings.Replace s "\\#" "#"
  let s := strings.Replace s "$$" "$"
  let s := strings.Replace s "\\\\" "\\"
  s

/-- `removeEndingBackSlash`. -/
def removeEndingBackSlash (s : String) : String :=
  if strings.HasSuffix s "\\" then strings.dropLast s 1 else s

/-- `nonEmptyString`, with `constants.EMPTY_STRING` given. -/
def nonEmptyString (emptyString : String) (s : String) : Bool :=
  s != emptyString

/-- The rows `ObjFileIsUpToDate` works on: every line without its ending
backslash, trimmed and unescaped, the empty ones filtered out. -/
def dependencyRows (env : Env) (rows : List String) : List String :=
  let rows := rows.map removeEndingBackSlash
  let rows := rows.map strings.TrimSpace
  let rows := rows.map unescapeDep
  rows.filter (nonEmptyString env.constants.EMPTY_STRING)

/-- The last loop of `ObjFileIsUpToDate`: every listed dependency can be
stat-ed and is not newer than the object. -/
def dependenciesUpToDate (env : Env) (objectModTime : Nat) : List String → Bool
  | [] => true
  | row :: rows =>
    match env.stat row with
    | .failed _ => false
    | .notExist _ => false
    | .info depStat =>
      if depStat.ModTime > objectModTime then false
      else dependenciesUpToDate env objectModTime rows

/-- `ObjFileIsUpToDate(ctx, sourceFile, objectFile, dependencyFile)`: the
boolean with a nil error, or the error (returned with `false`). The object and
dependency paths may be nil. -/
def ObjFileIsUpToDate (env : Env) (sourceFile : String)
    (objectFile dependencyFile : Option String) : Except Error Bool :=
  match objectFile, dependencyFile with
  | some objectFile, some dependencyFile =>
    let sourceFile := env.clean sourceFile
    match env.stat sourceFile with
    | .notExist err => .error (.wrapped err)
    | .failed err => .error (.wrapped err)
    | .info sourceFileStat =>
      let objectFile := env.clean objectFile
      match env.stat objectFile with
      | .notExist _ => .ok false
      | .failed err => .error (.wrapped err)
      | .info objectFileStat =>
        let dependencyFile := env.clean dependencyFile
        match env.stat dependencyFile with
        | .notExist _ => .ok false
        | .failed err => .error (.wrapped err)
        | .info dependencyFileStat =>
          if sourceFileStat.ModTime > objectFileStat.ModTime then .ok false
          else if sourceFileStat.ModTime > dependencyFileStat.ModTime then .ok false
          else
            match env.readFileAsLines dependencyFile with
            | .error err => .error (.wrapped err)
            | .ok rows =>
              match dependencyRows env rows with
              | [] => .ok true
              | firstRow :: rows =>
                if !strings.HasSuffix firstRow ":" then .ok false
                else
                  let objFileInDepFile := strings.dropLast firstRow 1
                  if objFileInDepFile != objectFile then .ok false
                  else .ok (dependenciesUpToDate env objectFileStat.ModTime rows)
  | _, _ => .ok false

/-- The command-line length above which the working directory is used. -/
def COMMANDLINE_LIMIT : Nat := 30000

/-- `PrepareCommandForRecipe(ctx, buildProperties, recipe, removeUnsetProperties)`. -/
def PrepareCommandForRecipe (env : Env) (buildProperties : Map) (recipe : String)
    (removeUnsetProperties : Bool) : Except Error Command :=
  let pattern := buildProperties.Get recipe
  if pattern = "" then .error (.patternMissing recipe)
  else
    let commandLine := env.expandPropsInString buildProperties pattern
    let commandLine :=
      if removeUnsetProperties then env.deleteUnexpandedPropsFromString commandLine
      else commandLine
    let relativePath :=
      if commandLine.utf8ByteSize > COMMANDLINE_LIMIT then buildProperties.Get "build.path"
      else ""
    match env.prepareCommand commandLine relativePath with
    | .error err => .error (.wrapped err)
    | .ok command => .ok command

/-- `ExecRecipe(ctx, buildProperties, recipe, removeUnsetProperties, stdout,
stderr)`: the returned error and what was run. -/
def ExecRecipe (env : Env) (buildProperties : Map) (recipe : String)
    (removeUnsetProperties : Bool) : Option Error × List Event :=
  match PrepareCommandForRecipe env buildProperties recipe removeUnsetProperties with
  | .error err => (some err, [])
  | .ok command =>
    ((env.execCommand command).map Error.wrapped, [.executed recipe buildProperties])

/-- The first loop of `ArchiveCompiledFiles`: some object file cannot be
stat-ed or is newer than the archive. -/
def rebuildArchive (env : Env) (archiveModTime : Nat) : List String → Bool
  | [] => false
  | objectFile :: rest =>
    match env.stat objectFile with
    | .info objectFileStat =>
      if objectFileStat.ModTime > archiveModTime then true
      else rebuildArchive env archiveModTime rest
    | _ => true

/-- The build properties `ArchiveCompiledFiles` hands to the archive recipe
for one object file. -/
def archiveProperties (env : Env) (archiveFilePath : String) (buildProperties : Map)
    (objectFile : String) : Map :=
  let properties := buildProperties.Clone
  let properties :=
    properties.Set env.constants.BUILD_PROPERTIES_ARCHIVE_FILE (env.base archiveFilePath)
  let properties :=
    properties.Set env.constants.BUILD_PROPERTIES_ARCHIVE_FILE_PATH archiveFilePath
  properties.Set env.constants.BUILD_PROPERTIES_OBJECT_FILE objectFile

/-- The second loop of `ArchiveCompiledFiles`: the archive recipe for every
object file in turn, stopping at the first error. -/
def archiveLoop (env : Env) (archiveFilePath : String) (buildProperties : Map) :
    List String → Option Error × List Event
  | [] => (none, [])
  | objectFile :: rest =>
    match ExecRecipe env (archiveProperties env archiveFilePath buildProperties objectFile)
        env.constants.RECIPE_AR_PATTERN false with
    | (some err, events) => (some err, events)
    | (none, events) =>
      let (err, later) := archiveLoop env archiveFilePath buildProperties rest
      (err, events ++ later)

/-- The end of `ArchiveCompiledFiles`: the archive loop and the return. -/
def archiveAll (env : Env) (archiveFilePath : String) (buildProperties : Map)
    (objectFilesToArchive : List String) (before : List Event) :
    Except Error String × List Event :=
  match archiveLoop env archiveFilePath buildProperties objectFilesToArchive with
  | (some err, events) => (.error err, before ++ events)
  | (none, events) => (.ok archiveFilePath, before ++ events)

/-- `ArchiveCompiledFiles(ctx, buildPath, archiveFile, objectFilesToArchive,
buildProperties)`: the returned path or error, and what was done. -/
def ArchiveCompiledFiles (env : Env) (buildPath archiveFile : String)
    (objectFilesToArchive : List String) (buildProperties : Map) :
    Except Error String × List Event :=
  let archiveFilePath := env.join buildPath archiveFile
  match env.stat archiveFilePath with
  | .info archiveFileStat =>
    if rebuildArchive env archiveFileStat.ModTime objectFilesToArchive then
      match env.remove archiveFilePath with
      | some err => (.error (.wrapped err), [])
      | none =>
        archiveAll env archiveFilePath buildProperties objectFilesToArchive
          [.removed archiveFilePath]
    else (.ok archiveFilePath, [])
  | _ => archiveAll env archiveFilePath buildProperties objectFilesToArchive []

/-- The build properties `compileFileWithRecipe` hands to the recipe. -/
def compileProperties (env : Env) (ctx : Context) (source : String) (buildProperties : Map)
    (includes : List String) (objectFile : String) : Map :=
  let properties := buildProperties.Clone
  let properties := properties.Set env.constants.BUILD_PROPERTIES_COMPILER_WARNING_FLAGS
    (properties.Get
      (env.constants.BUILD_PROPERTIES_COMPILER_WARNING_FLAGS ++ "." ++ ctx.WarningsLevel))
  let properties := properties.Set env.constants.BUILD_PROPERTIES_INCLUDES
    (strings.Join includes env.constants.SPACE)
  let properties := properties.Set env.constants.BUILD_PROPERTIES_SOURCE_FILE source
  properties.Set env.constants.BUILD_PROPERTIES_OBJECT_FILE objectFile

/-- `compileFileWithRecipe(ctx, sourcePath, source, buildPath, buildProperties,
includes, recipe)`: the object path or the error, and what was run. -/
def compileFileWithRecipe (env : Env) (ctx : Context) (sourcePath source buildPath : String)
    (buildProperties : Map) (includes : List String) (recipe : String) :
    Except Error String × List Event :=
  match env.relTo sourcePath source with
  | .error err => (.error (.wrapped err), [])
  | .ok relativeSource =>
    let depsFile := env.join buildPath (relativeSource ++ ".d")
    let objectFile := env.join buildPath (relativeSource ++ ".o")
    let properties := compileProperties env ctx source buildProperties includes objectFile
    match env.mkdirAll (env.parent objectFile) with
    | some err => (.error (.wrapped err), [])
    | none =>
      match ObjFileIsUpToDate env source (some objectFile) (some depsFile) with
      | .error err => (.error err, [])
      | .ok true => (.ok objectFile, [])
      | .ok false =>
        match ExecRecipe env properties recipe false with
        | (some err, events) => (.error err, events)
        | (none, events) => (.ok objectFile, events)

end builder_utils

/-! ## The staleness and archiving decisions, in the spec's words -/

namespace BuilderSpec

open builder_utils properties

/-- The modification time of a path that can be stat-ed. -/
def modTimeOf (env : Env) (path : String) : Option Nat :=
  match env.stat path with
  | .info fi => some fi.ModTime
  | _ => none

/-- Every dependency path of the list exists and is not newer than the object. -/
def listedUpToDate (env : Env) (objectModTime : Nat) (listed : List String) : Bool :=
  listed.all fun d =>
    match modTimeOf env d with
    | some t => decide (¬ t > objectModTime)
    | none => false

/-- The staleness decision as the spec words it: the object exists; the
dependency file exists and is not older than the source; its first non-empty
(trimmed, unescaped) line is the object path followed by a colon; every
dependency listed after that line exists and is not newer than the object. -/
def upToDate (env : Env) (sourceFile objectFile dependencyFile : String) : Bool :=
  match modTimeOf env (env.clean sourceFile), modTimeOf env (env.clean objectFile),
      modTimeOf env (env.clean dependencyFile) with
  | some src, some obj, some dep =>
    decide (¬ dep < src) &&
    (match env.readFileAsLines (env.clean dependencyFile) with
      | .ok lines =>
        (match dependencyRows env lines with
          | first :: listed =>
            decide (first = env.clean objectFile ++ ":") && listedUpToDate env obj listed
          | [] => false)
      | .error _ => false)
  | _, _, _ => false

/-- Some object file of the list cannot be stat-ed or is newer than the
archive. -/
def someObjectNewer (env : Env) (archiveModTime : Nat) (objectFiles : List String) : Prop :=
  ∃ o ∈ objectFiles, ∀ fi, env.stat o = .info fi → fi.ModTime > archiveModTime

/-- Some object file of the list exists and is newer than the archive. -/
def someObjectStrictlyNewer (env : Env) (archiveModTime : Nat) (objectFiles : List String) :
    Prop :=
  ∃ o ∈ objectFiles, ∃ fi, env.stat o = .info fi ∧ fi.ModTime > archiveModTime

/-- The object path the spec gives a source: the build path joined with the
path of the source relative to the source root, plus `.o`. -/
def objectPathOf (env : Env) (sourcePath buildPath source : String) : String :=
  match env.relTo sourcePath source with
  | .ok relativeSource => env.join buildPath (relativeSource ++ ".o")
  | .error _ => ""

/-- The usual values of the constants. -/
def sampleConstants : Constants :=
  { BUILD_PROPERTIES_ARCHIVE_FILE := "archive_file"
    BUILD_PROPERTIES_ARCHIVE_FILE_PATH := "archive_file_path"
    BUILD_PROPERTIES_OBJECT_FILE := "object_file"
    BUILD_PROPERTIES_SOURCE_FILE := "source_file"
    BUILD_PROPERTIES_INCLUDES := "includes"
    BUILD_PROPERTIES_COMPILER_WARNING_FLAGS := "compiler.warning_flags"
    RECIPE_AR_PATTERN := "recipe.ar.pattern"
    SPACE := " "
    EMPTY_STRING := "" }

/-- `os.Stat` over a table of existing files with their modification times;
the paths of the second table exist but cannot be stat-ed. -/
def statOf (files : List (String × Nat)) (broken : List String) (path : String) :
    os.StatResult :=
  if path ∈ broken then .failed "permission denied"
  else
    match files.lookup path with
    | some t => .info ⟨0, t⟩
    | none => .notExist "no such file or directory"

/-- Reading over a table of file contents; other files cannot be read. -/
def linesOf (contents : List (String × List String)) (path : String) :
    Except String (List String) :=
  match contents.lookup path with
  | some lines => .ok lines
  | none => .error "permission denied"

/-- An environment over tables of files: paths are joined with a slash, a
path is relative to a root it starts with, every command can be prepared and
succeeds. -/
def sampleEnv (files : List (String × Nat)) (broken : List String)
    (contents : List (String × List String)) : Env :=
  { constants := sampleConstants
    clean := fun p => p
    join := fun a b => a ++ "/" ++ b
    base := fun p => p
    parent := fun p => p
    relTo := fun root p =>
      if strings.HasPrefix p (root ++ "/") then .ok (strings.sliceFrom p (root.data.length + 1))
      else .error "can't make relative"
    mkdirAll := fun _ => none
    stat := statOf files broken
    readFileAsLines := linesOf contents
    remove := fun _ => none
    expandPropsInString := fun _ s => s
    deleteUnexpandedPropsFromString := fun s => s
    prepareCommand := fun line dir => .ok ⟨[line], dir⟩
    execCommand := fun _ => none
    numCPU := 2 }

/-- A source newer than its object, with a dependency file that names the
object and lists an old header. -/
def staleEnv : Env :=
  sampleEnv [("a.c", 5), ("a.o", 3), ("a.d", 6), ("a.h", 1)] []
    [("a.d", ["a.o: \\", " a.h"])]

/-- An object with an empty dependency file. -/
def emptyDepEnv : Env :=
  sampleEnv [("a.c", 1), ("a.o", 3), ("a.d", 2)] [] [("a.d", [""])]

/-- An up-to-date object: the dependency file names it and lists the source
and a header, both older than the object. -/
def freshEnv : Env :=
  sampleEnv [("a.c", 1), ("a.h", 1), ("a.d", 2), ("a.o", 3)] []
    [("a.d", ["a.o: \\", " a.c \\", " a.h", ""])]

/-- An object whose dependency file exists and cannot be read. -/
def unreadableDepEnv : Env :=
  sampleEnv [("a.c", 1), ("a.o", 3), ("a.d", 2)] [] []

/-- An object that exists and cannot be stat-ed. -/
def brokenObjectEnv : Env :=
  sampleEnv [("a.c", 1), ("a.o", 3), ("a.d", 2)] ["a.o"] [("a.d", ["a.o:"])]

end BuilderSpec

/-! ## Recipes that succeed, and an archive with a missing object -/

namespace BuilderSpec

open builder_utils properties

/-- The recipe can be prepared from the build properties and its command runs
without error. -/
def recipeSucceeds (env : Env) (buildProperties : Map) (recipe : String) : Prop :=
  ∃ command, PrepareCommandForRecipe env buildProperties recipe false = .ok command ∧
    env.execCommand command = none

/-- An archive `build/core.a` that exists, with no object file on disk. -/
def archiveEnv : Env :=
  sampleEnv [("build/core.a", 10)] [] []

/-- Build properties holding an archive recipe. -/
def archiveRecipeProperties : Map :=
  [("recipe.ar.pattern", "ar rcs")]

end BuilderSpec

/-! ## The worker pool of `compileFilesWithRecipe`

The goroutines of `compileFilesWithRecipe` are embedded as a transition system:
the feeder loop, and per worker the receipt of a source from the unbuffered
queue and the end of its job. A schedule is the order in which these steps
happen; the function returns once the queue is closed and every worker is
idle. -/

namespace builder_utils

open properties

/-- The state shared by the feeder and the workers. -/
structure PoolState where
  /-- The sources the feeder has not sent yet. -/
  pending : List String
  /-- The feeder has read `gotError` as false and waits in `queue <- source`. -/
  feederChecked : Bool
  /-- `close(queue)` was executed. -/
  closed : Bool
  /-- Per worker, the source it compiles, if any. -/
  workers : List (Option String)
  /-- `objectFiles`, in the order the jobs added to it. -/
  objectFiles : List String
  /-- `errors`, in the order the jobs added to it. -/
  errors : List Error
  /-- What the jobs did, in the order they ended. -/
  events : List Event

/-- One step of one goroutine. -/
inductive PoolStep where
  /-- The feeder: the head of its loop (leaving the loop when the sources are
  used up or an error was recorded, and then closing the queue). -/
  | feeder
  /-- An idle worker receives the source the feeder sends. -/
  | receive (worker : Nat)
  /-- A worker ends its job and records the object file or the error. -/
  | finish (worker : Nat)
  deriving DecidableEq, Repr

/-- The step of the pool, if it is enabled in the state. -/
def PoolState.step (job : String → Except Error String × List Event) (s : PoolState) :
    PoolStep → Option PoolState
  | .feeder =>
    if s.closed || s.feederChecked then none
    else
      match s.pending with
      | [] => some { s with closed := true }
      | _ :: _ =>
        if s.errors.length > 0 then some { s with closed := true }
        else some { s with feederChecked := true }
  | .receive i =>
    if !s.feederChecked then none
    else
      match s.pending, s.workers.get? i with
      | source :: rest, some none =>
        some { s with pending := rest, feederChecked := false,
                      workers := s.workers.set i (some source) }
      | _, _ => none
  | .finish i =>
    match s.workers.get? i with
    | some (some source) =>
      match job source with
      | (.error err, events) =>
        some { s with workers := s.workers.set i none, errors := s.errors ++ [err],
                      events := s.events ++ events }
      | (.ok objectFile, events) =>
        some { s with workers := s.workers.set i none,
                      objectFiles := s.objectFiles ++ [objectFile],
                      events := s.events ++ events }
    | _ => none

/-- The steps of a schedule one after the other; `none` when a step is not
enabled. -/
def PoolState.run (job : String → Except Error String × List Event) :
    PoolState → List PoolStep → Option PoolState
  | s, [] => some s
  | s, step :: rest =>
    match s.step job step with
    | none => none
    | some s' => PoolState.run job s' rest

/-- `wg.Wait()` returns: the queue is closed and every worker is idle. -/
def PoolState.finished (s : PoolState) : Bool :=
  s.closed && s.workers.all Option.isNone

/-- What `compileFilesWithRecipe` returns after `wg.Wait()`. -/
def PoolState.result (s : PoolState) : Except Error (List String) :=
  match s.errors with
  | err :: _ => .error err
  | [] => .ok (paths.PathList.Sort s.objectFiles)

/-- The number of workers spawned: `ctx.Jobs`, or the number of CPUs when it
is zero. -/
def workerCount (env : Env) (ctx : Context) : Nat :=
  let jobs : Int := if ctx.Jobs = 0 then (env.numCPU : Int) else ctx.Jobs
  jobs.toNat

/-- `compileFilesWithRecipe(ctx, sourcePath, sources, buildPath,
buildProperties, includes, recipe)` under a schedule of its goroutines: what
it returns and what was run, or `none` when the schedule is no complete run of
the function. -/
def compileFilesWithRecipe (env : Env) (ctx : Context) (sourcePath : String)
    (sources : List String) (buildPath : String) (buildProperties : Map)
    (includes : List String) (recipe : String) (schedule : List PoolStep) :
    Option (Except Error (List String) × List Event) :=
  if sources.length = 0 then some (.ok [], [])
  else
    let job := fun source =>
      compileFileWithRecipe env ctx sourcePath source buildPath buildProperties includes recipe
    let start : PoolState :=
      { pending := sources, feederChecked := false, closed := false,
        workers := List.replicate (workerCount env ctx) none,
        objectFiles := [], errors := [], events := [] }
    match PoolState.run job start schedule with
    | none => none
    | some s => if s.finished then some (s.result, s.events) else none

/-- The schedule that hands every source to the first worker and lets it end
before the next source is sent. -/
def sequentialSchedule (sources : List String) : List PoolStep :=
  (sources.flatMap fun _ => [.feeder, .receive 0, .finish 0]) ++ [.feeder]

end builder_utils

namespace BuilderSpec

open builder_utils properties

/-- Two sources without object files, and build properties with a recipe. -/
def compileEnv : Env :=
  sampleEnv [("src/b.c", 1), ("src/a.c", 1)] [] []

/-- Build properties holding a compile recipe. -/
def compileRecipeProperties : Map :=
  [("recipe.c.o.pattern", "gcc -c")]

end BuilderSpec

/-! ## The invariant of the worker pool when every job succeeds -/

namespace BuilderSpec

open builder_utils

/-- While every job succeeds: no error is recorded, a closed queue has no
pending source, and the sources already compiled (whose object files are in
`objectFiles`, in that order), being compiled and still pending are together
the sources of the call. -/
def PoolInvariant (objectOf : String → String) (sources : List String) (s : PoolState) : Prop :=
  s.errors = [] ∧ (s.closed = true → s.pending = []) ∧
    ∃ compiled : List String, s.objectFiles = compiled.map objectOf ∧
      List.Perm (compiled ++ (s.workers.filterMap id ++ s.pending)) sources

end BuilderSpec

/-! ## The job and the first state of the worker pool -/

namespace builder_utils

open properties

/-- The closure `job` of `compileFilesWithRecipe`, without its bookkeeping:
the compilation of one source. -/
def compileJob (env : Env) (ctx : Context) (sourcePath buildPath : String)
    (buildProperties : Map) (includes : List String) (recipe : String) :
    String → Except Error String × List Event :=
  fun source =>
    compileFileWithRecipe env ctx sourcePath source buildPath buildProperties includes recipe

/-- The state of the pool when the feeder enters its loop. -/
def poolStart (env : Env) (ctx : Context) (sources : List String) : PoolState :=
  { pending := sources, feederChecked := false, closed := false,
    workers := List.replicate (workerCount env ctx) none,
    objectFiles := [], errors := [], events := [] }

end builder_utils

/-! ## File-name and string helpers of the library resolver -/

namespace filepath

/-- The scan of `filepath.Ext` from the end of the path: the characters read
so far are kept in `acc`; the scan stops at a path separator. -/
def extScan : List Char → List Char → List Char
  | [], _ => []
  | c :: cs, acc =>
    if c = '/' then []
    else if c = '.' then '.' :: acc
    else extScan cs (c :: acc)

/-- Go `filepath.Ext(path)` with the Unix separator: the suffix beginning at
the final dot in the final element of the path, empty if there is no dot. -/
def Ext (path : String) : String :=
  String.mk (extScan path.data.reverse [])

end filepath

namespace strings

/-- Go `strings.TrimSuffix(s, suffix)`. -/
def TrimSuffix (s suffix : String) : String :=
  if HasSuffix s suffix then dropLast s suffix.data.length else s

/-- The scan of `strings.Contains`: the substring starts at some position. -/
def containsChars (sub : List Char) : List Char → Bool
  | [] => sub.isPrefixOf []
  | c :: cs => sub.isPrefixOf (c :: cs) || containsChars sub cs

/-- Go `strings.Contains(s, substr)`. -/
def Contains (s substr : String) : Bool :=
  containsChars substr.data s.data

end strings

/-! ## Libraries and the C++ header resolver
(arduino/libraries/librarieslist.go, arduino/libraries/librariesresolver/cpp.go) -/

namespace libraries

/-- A `*libraries.Library`: the address, which is the identity of the library
in a list, and the fields the resolver reads. -/
structure Library where
  Ptr : Nat
  Name : String
  SourceDir : String
  deriving DecidableEq, Repr

/-- `List.Contains(lib)` on a `libraries.List`. -/
def Contains (list : List Library) (lib : Library) : Bool :=
  list.any fun l => decide (l = lib)

/-- `List.Add(lib)` on a `libraries.List`. -/
def Add (list : List Library) (lib : Library) : List Library :=
  list ++ [lib]

end libraries

namespace librariesresolver

open libraries

/-- The collaborators of the resolver that are not in the sources read. -/
structure Env where
  /-- `utils.SanitizeName`. -/
  sanitizeName : String → String
  /-- `strings.ToLower`. -/
  toLower : String → String
  /-- `Library.PriorityForArchitecture(arch)`, of type `uint8`: the value is
  taken modulo 256. -/
  priorityForArchitecture : Library → String → Nat
  /-- `closestmatch.New(words, []int{2}).Closest(name)`. -/
  closest : List String → String → String
  /-- `paths.Path.ReadDir`. -/
  readDir : String → Except String (List String)
  /-- `paths.Path.Base`. -/
  base : String → String

/-- `Cpp`: the header index, a map from a header file name to the list of the
libraries providing it (the nil list for a header that is no key). -/
structure Cpp where
  headers : String → List Library

/-- `NewCppResolver()`. -/
def NewCppResolver : Cpp :=
  { headers := fun _ => [] }

/-- `PathList.FilterSuffix(".h", ".hpp", ".hh")`. -/
def filterHeaderSuffix (cppHeaders : List String) : List String :=
  cppHeaders.filter fun p =>
    strings.HasSuffix p ".h" || strings.HasSuffix p ".hpp" || strings.HasSuffix p ".hh"

/-- The body of the loop of `ScanLibrary`: the library is added to the list
of the header. -/
def addHeader (env : Env) (lib : Library) (resolver : Cpp) (cppHeaderPath : String) : Cpp :=
  let cppHeader := env.base cppHeaderPath
  let l := Add (resolver.headers cppHeader) lib
  { headers := fun h => if h = cppHeader then l else resolver.headers h }

/-- `Cpp.ScanLibrary(lib)`: the resolver after the call and the error, if
any (`reading lib src dir: %s`). -/
def ScanLibrary (env : Env) (resolver : Cpp) (lib : Library) : Cpp × Option String :=
  match env.readDir lib.SourceDir with
  | .error err => (resolver, some ("reading lib src dir: " ++ err))
  | .ok cppHeaders => ((filterHeaderSuffix cppHeaders).foldl (addHeader env lib) resolver, none)

/-- The libraries scanned one after the other, the errors dropped as in
`ScanFromLibrariesManager`. -/
def scanLibraries (env : Env) (resolver : Cpp) (libs : List Library) : Cpp :=
  libs.foldl (fun r lib => (ScanLibrary env r lib).1) resolver

/-- `simplify(name)`. -/
def simplify (env : Env) (name : String) : String :=
  env.toLower (env.sanitizeName name)

/-- `computePriority(lib, header, arch)`. -/
def computePriority (env : Env) (lib : Library) (header arch : String) : Nat :=
  let header := strings.TrimSuffix header (filepath.Ext header)
  let header := simplify env header
  let name := simplify env lib.Name
  let priority := env.priorityForArchitecture lib arch % 256
  if name = header then priority + 0x500
  else if name = header ++ "-master" then priority + 0x400
  else if strings.HasPrefix name header then priority + 0x300
  else if strings.HasSuffix name header then priority + 0x200
  else if strings.Contains name header then priority + 0x100
  else priority

/-- `findLibraryWithNameBestDistance(name, libs)`. -/
def findLibraryWithNameBestDistance (env : Env) (name : String) (libs : List Library) :
    Option Library :=
  let wordsToTest := libs.map fun lib => simplify env lib.Name
  let closestName := env.closest wordsToTest name
  libs.find? fun lib => closestName == simplify env lib.Name

/-- The loop of `ResolveFor` over the libraries of the header: `found` (nil
before the first library) and `foundPriority`. -/
def resolveLoop (env : Env) (header architecture : String) :
    List Library → Option (List Library) → Nat → Option (List Library) × Nat
  | [], found, foundPriority => (found, foundPriority)
  | lib :: rest, found, foundPriority =>
    let libPriority := computePriority env lib header architecture
    match found with
    | none => resolveLoop env header architecture rest (some (Add [] lib)) libPriority
    | some l =>
      if foundPriority < libPriority then
        resolveLoop env header architecture rest (some (Add [] lib)) libPriority
      else if foundPriority = libPriority then
        resolveLoop env header architecture rest (some (Add l lib)) foundPriority
      else resolveLoop env header architecture rest (some l) foundPriority

/-- `Cpp.ResolveFor(header, architecture)`: the library, or nil. -/
def ResolveFor (env : Env) (resolver : Cpp) (header architecture : String) : Option Library :=
  match (resolveLoop env header architecture (resolver.headers header) none 0).1 with
  | none => none
  | some [lib] => some lib
  | some found => findLibraryWithNameBestDistance env header found

end librariesresolver

/-! ## The scoring of the resolver, in the spec's words -/

namespace ResolverSpec

open librariesresolver libraries

/-- The normalized header base name: the extension stripped, then
normalized like a library name. -/
def normalizedHeader (env : Env) (header : String) : String :=
  simplify env (strings.TrimSuffix header (filepath.Ext header))

/-- The architecture priority of a library, in 0..255. -/
def archPriority (env : Env) (lib : Library) (arch : String) : Nat :=
  env.priorityForArchitecture lib arch % 256

/-- The tier of a library for a header, the first that matches: 5 for an exact
match of the normalized names, 4 for the name-master match, 3 when the name
starts with the header name, 2 when it ends with it, 1 when it contains it,
0 otherwise. -/
def tierOf (env : Env) (lib : Library) (header : String) : Nat :=
  let name := simplify env lib.Name
  let h := normalizedHeader env header
  if name = h then 5
  else if name = h ++ "-master" then 4
  else if strings.HasPrefix name h then 3
  else if strings.HasSuffix name h then 2
  else if strings.Contains name h then 1
  else 0

/-- The header file names a scan of the library records: the base names of
the entries of its source directory that end in `.h`, `.hpp` or `.hh`. -/
def headerNames (env : Env) (lib : Library) : List String :=
  match env.readDir lib.SourceDir with
  | .error _ => []
  | .ok cppHeaders => (filterHeaderSuffix cppHeaders).map env.base

/-- Lower case of the ASCII letters, a stand-in for `strings.ToLower`. -/
def asciiLower (s : String) : String :=
  String.mk (s.data.map fun c =>
    if 65 ≤ c.toNat ∧ c.toNat ≤ 90 then Char.ofNat (c.toNat + 32) else c)

/-- A stand-in for `utils.SanitizeName`: letters, digits, dot, dash and
underscore are kept, every other character becomes an underscore. -/
def sampleSanitize (s : String) : String :=
  String.mk (s.data.map fun c =>
    if (48 ≤ c.toNat ∧ c.toNat ≤ 57) ∨ (65 ≤ c.toNat ∧ c.toNat ≤ 90) ∨
        (97 ≤ c.toNat ∧ c.toNat ≤ 122) ∨ c = '.' ∨ c = '-' ∨ c = '_' then c
    else '_')

/-- The substrings of two characters of a word. -/
def bigrams : List Char → List (Char × Char)
  | a :: b :: rest => (a, b) :: bigrams (b :: rest)
  | _ => []

/-- A stand-in for `closestmatch` with bag size 2: the first word that shares
a substring of two characters with the searched word; the empty string when no
word shares one, which is what `Closest` returns without a match. -/
def bigramClosest (words : List String) (search : String) : String :=
  (words.find? fun w => (bigrams w.data).any fun b => (bigrams search.data).contains b).getD ""

/-- The last element of a slash-separated path, a stand-in for
`paths.Path.Base`. -/
def lastElement (path : String) : String :=
  String.mk (path.data.reverse.takeWhile (fun c => c != '/')).reverse

/-- An environment over a table of source directories, every library with
the same architecture priority. -/
def sampleEnv (dirs : List (String × List String)) : Env :=
  { sanitizeName := sampleSanitize
    toLower := asciiLower
    priorityForArchitecture := fun _ _ => 3
    closest := bigramClosest
    readDir := fun dir =>
      match dirs.lookup dir with
      | some entries => .ok entries
      | none => .error "no such directory"
    base := lastElement }

/-- The library `Foo`. -/
def libFoo : Library := ⟨1, "Foo", "libs/Foo"⟩

/-- The library `Foo-master`. -/
def libFooMaster : Library := ⟨2, "Foo-master", "libs/Foo-master"⟩

/-- The library `WiFi101`. -/
def libWiFi101 : Library := ⟨3, "WiFi101", "libs/WiFi101"⟩

/-- The library `WiFi101Examples`. -/
def libWiFi101Examples : Library := ⟨4, "WiFi101Examples", "libs/WiFi101Examples"⟩

/-- The library `X1`, which provides `Foo.h`. -/
def libX1 : Library := ⟨5, "X1", "libs/X1"⟩

/-- The library `Y2`, which provides `Foo.h` too. -/
def libY2 : Library := ⟨6, "Y2", "libs/Y2"⟩

/-- The library `A`, whose name has one character. -/
def libA : Library := ⟨7, "A", "libs/A"⟩

/-- The source directories of the sample libraries. -/
def sampleDirs : List (String × List String) :=
  [("libs/Foo", ["libs/Foo/Foo.h", "libs/Foo/Foo.cpp"]),
   ("libs/Foo-master", ["libs/Foo-master/Foo.h"]),
   ("libs/WiFi101", ["libs/WiFi101/WiFi101.h"]),
   ("libs/WiFi101Examples", ["libs/WiFi101Examples/WiFi101.h"]),
   ("libs/X1", ["libs/X1/Foo.h"]),
   ("libs/Y2", ["libs/Y2/Foo.h"]),
   ("libs/A", ["libs/A/A.h"])]

end ResolverSpec

/-! ## Platforms and the package manager
(arduino/cores/packagemanager/download.go)

A version, `*semver.Version`, is an element of any linearly ordered type `V`:
only the version ordering matters. -/

namespace cores

/-- A `*cores.ToolRelease`, as far as the lookup goes. -/
structure ToolRelease where
  Name : String
  Version : String
  deriving DecidableEq, Repr

/-- A `*cores.PlatformRelease`: its version and the tools it names. -/
structure PlatformRelease (V : Type) where
  Version : V
  Dependencies : List String
  deriving DecidableEq, Repr

/-- A `*cores.Platform`: its architecture and its releases, which the code
keeps in a map keyed by the version. -/
structure Platform (V : Type) where
  Architecture : String
  Releases : List (PlatformRelease V)

/-- A `*cores.Package`: its name and its platforms by architecture. -/
structure Package (V : Type) where
  Name : String
  Platforms : String → Option (Platform V)

/-- Modelled from the spec: `Platform.FindReleaseWithVersion(version)`, which
is not among the sources read; the release stored under the version, nil if
there is none. -/
def Platform.FindReleaseWithVersion {V : Type} [DecidableEq V] (platform : Platform V)
    (version : V) : Option (PlatformRelease V) :=
  platform.Releases.find? fun r => decide (r.Version = version)

/-- The release with the highest version among the releases gone through. -/
def highestRelease {V : Type} [LinearOrder V] :
    List (PlatformRelease V) → Option (PlatformRelease V)
  | [] => none
  | r :: rest =>
    match highestRelease rest with
    | none => some r
    | some m => if m.Version < r.Version then some r else some m

/-- Modelled from the spec: `Platform.GetLatestRelease()`, which is not among
the sources read; the release with the highest version by version ordering,
nil if the platform has no releases. -/
def Platform.GetLatestRelease {V : Type} [LinearOrder V] (platform : Platform V) :
    Option (PlatformRelease V) :=
  highestRelease platform.Releases

end cores

namespace packagemanager

open cores

/-- `PlatformReference`; the version is nil for the latest release. -/
structure PlatformReference (V : Type) where
  Package : String
  PlatformArchitecture : String
  PlatformVersion : Option V

/-- The part of `PackageManager` the lookup reads: the packages by name and
`Packages.GetDepsOfPlatformRelease`, the resolution of the tool dependencies
of a release by the package index. -/
structure PackageManager (V : Type) where
  Packages : String → Option (Package V)
  GetDepsOfPlatformRelease : PlatformRelease V → Except String (List ToolRelease)

/-- The errors of `FindPlatformReleaseDependencies`, each named after its
message. -/
inductive Error (V : Type) where
  /-- `package %s not found`. -/
  | packageNotFound (package : String)
  /-- `platform %s not found in package %s`. -/
  | platformNotFound (architecture package : String)
  /-- `required version %s not found for platform %s`. -/
  | versionNotFound (version : V) (architecture : String)
  /-- `platform %s has no available releases`. -/
  | noReleases (architecture : String)
  /-- `getting tool dependencies for platform %s: %s`. -/
  | toolDependencies (release : PlatformRelease V) (cause : String)

/-- `PackageManager.FindPlatformReleaseDependencies(item)`: the release and
its tools, or the error (returned with two nils). -/
def PackageManager.FindPlatformReleaseDependencies {V : Type} [LinearOrder V]
    (pm : PackageManager V) (item : PlatformReference V) :
    Except (Error V) (PlatformRelease V × List ToolRelease) :=
  match pm.Packages item.Package with
  | none => .error (.packageNotFound item.Package)
  | some targetPackage =>
    match targetPackage.Platforms item.PlatformArchitecture with
    | none => .error (.platformNotFound item.PlatformArchitecture targetPackage.Name)
    | some platform =>
      let release : Except (Error V) (PlatformRelease V) :=
        match item.PlatformVersion with
        | some version =>
          match platform.FindReleaseWithVersion version with
          | none => .error (.versionNotFound version platform.Architecture)
          | some release => .ok release
        | none =>
          match platform.GetLatestRelease with
          | none => .error (.noReleases platform.Architecture)
          | some release => .ok release
      match release with
      | .error err => .error err
      | .ok release =>
        match pm.GetDepsOfPlatformRelease release with
        | .error err => .error (.toolDependencies release err)
        | .ok toolDeps => .ok (release, toolDeps)

end packagemanager

/-! ## The lookup of a platform release, in the spec's words -/

namespace PackageManagerSpec

open cores packagemanager

/-- The platform a reference names, if its package and its architecture are
known. -/
def platformOf {V : Type} (pm : PackageManager V) (item : PlatformReference V) :
    Option (Platform V) :=
  match pm.Packages item.Package with
  | none => none
  | some targetPackage => targetPackage.Platforms item.PlatformArchitecture

/-- A package manager with the package `arduino`, whose platform `avr` has the
releases 1, 3 and 2; the tools of release 2 cannot be resolved. -/
def samplePackageManager : PackageManager Nat :=
  { Packages := fun name =>
      if name = "arduino" then
        some { Name := "arduino"
               Platforms := fun arch =>
                 if arch = "avr" then
                   some { Architecture := "avr"
                          Releases := [⟨1, ["gcc"]⟩, ⟨3, ["gcc"]⟩, ⟨2, ["gcc"]⟩] }
                 else none }
      else none
    GetDepsOfPlatformRelease := fun release =>
      if release.Version = 2 then .error "tool gcc not found"
      else .ok [⟨"gcc", "7.3.0"⟩] }

end PackageManagerSpec

/-! ## The checksum of an installed directory (arduino/resources/checksums.go) -/

namespace hex

/-- The lower-case hexadecimal digit of a number below 16. -/
def digit (n : Nat) : Char :=
  if n < 10 then Char.ofNat (48 + n) else Char.ofNat (87 + n)

/-- `fmt.Sprintf("%x", bytes)`: two lower-case hexadecimal digits per byte. -/
def EncodeToString (bytes : List Nat) : String :=
  String.mk (bytes.flatMap fun b => [digit (b / 16 % 16), digit (b % 16)])

end hex

namespace resources

/-- `packageFileName`. -/
def packageFileName : String := "package.json"

/-- One call of the function `filepath.Walk` is given: the path with its
directory, the file info, whether the walk reports an error for the entry, and
what opening and reading the file gives. The bytes of the file are `Content`
also when it cannot be opened. -/
structure WalkEntry where
  Path : String
  /-- `filepath.Dir(path)`. -/
  Dir : String
  /-- `info.Name()`. -/
  Name : String
  /-- `info.IsDir()`. -/
  IsDir : Bool
  /-- `info.ModTime()`, which the function does not read. -/
  ModTime : Nat
  /-- The `err` argument of the walk function, if not nil. -/
  walkErr : Option String
  /-- The error of `os.Open`, if any. -/
  openErr : Option String
  /-- The error of `io.Copy`, if any. -/
  copyErr : Option String
  Content : List Nat
  deriving DecidableEq, Repr

/-- The collaborators of the directory checksum. -/
structure DirWorld where
  /-- The entries `filepath.Walk(root, ..)` visits, in walk order. -/
  walk : String → List WalkEntry
  /-- `ioutil.ReadFile`. -/
  readFile : String → Except String (List Nat)
  /-- `filepath.Join`. -/
  join : String → String → String
  /-- `json.Unmarshal` into a `packageFile`: the `checksum` field, the empty
  string when the bytes hold none. -/
  jsonChecksum : List Nat → String
  /-- SHA-256. -/
  sha256 : List Nat → List Nat

/-- The walk function of `computeDirChecksum` over the entries: the bytes
written to the hash, or the error that stops the walk. -/
def walkHash (root : String) : List WalkEntry → Except String (List Nat)
  | [] => .ok []
  | e :: rest =>
    if e.walkErr.isSome || e.IsDir || (e.Name == packageFileName && e.Dir == root) then
      walkHash root rest
    else
      match e.openErr with
      | some _ => walkHash root rest
      | none =>
        match e.copyErr with
        | some _ => .error ("failed to compute hash of file \"" ++ e.Name ++ "\"")
        | none =>
          match walkHash root rest with
          | .ok bytes => .ok (e.Content ++ bytes)
          | .error err => .error err

/-- `computeDirChecksum(root)`. -/
def computeDirChecksum (w : DirWorld) (root : String) : Except String String :=
  match walkHash root (w.walk root) with
  | .error err => .error err
  | .ok bytes => .ok (hex.EncodeToString (w.sha256 bytes))

/-- `CheckDirChecksum(root)`. -/
def CheckDirChecksum (w : DirWorld) (root : String) : Except String Bool :=
  match w.readFile (w.join root packageFileName) with
  | .error err => .error err
  | .ok packageJSON =>
    let checksumField := w.jsonChecksum packageJSON
    match computeDirChecksum w root with
    | .error err => .error err
    | .ok checksum => .ok (decide (checksumField = checksum))

end resources

/-! ## The directory checksum, in the spec's words -/

namespace DirChecksumSpec

open resources

/-- The entry is the manifest: the file `package.json` directly under the
root, which is the file `CheckDirChecksum` reads. -/
def isManifest (w : DirWorld) (root : String) (e : WalkEntry) : Bool :=
  e.Path == w.join root packageFileName

/-- The concatenation, in walk order, of the contents of every file under the
root except the manifest. -/
def allContents (w : DirWorld) (root : String) (entries : List WalkEntry) : List Nat :=
  (entries.filter fun e => !e.IsDir && !isManifest w root e).flatMap fun e => e.Content

/-- The entry is a file the walk reaches without error and that can be opened,
other than the manifest. -/
def isHashed (w : DirWorld) (root : String) (e : WalkEntry) : Bool :=
  !e.walkErr.isSome && !e.IsDir && !isManifest w root e && e.openErr.isNone

/-- The concatenation, in walk order, of the contents of the files that are
hashed. -/
def hashedContents (w : DirWorld) (root : String) (entries : List WalkEntry) : List Nat :=
  (entries.filter (isHashed w root)).flatMap fun e => e.Content

/-- The path of every file of the walk is its directory joined with its
name. -/
def pathsAreJoined (w : DirWorld) (root : String) : Prop :=
  ∀ e ∈ w.walk root, e.IsDir = false → e.Path = w.join e.Dir e.Name

/-- The root is in clean form: for the path of the manifest `filepath.Dir`
gives the root as it is written (and `info.Name()` the name of the
manifest). -/
def rootIsClean (w : DirWorld) (root : String) : Prop :=
  ∀ e ∈ w.walk root, e.Path = w.join root packageFileName →
    e.Name = packageFileName ∧ e.Dir = root

/-- The lower-case hexadecimal SHA-256 of a byte sequence. -/
def hexDigest (w : DirWorld) (bytes : List Nat) : String :=
  hex.EncodeToString (w.sha256 bytes)

/-- The world with the modification time of every entry replaced. -/
def withModTimes (f : WalkEntry → Nat) (w : DirWorld) : DirWorld :=
  { w with walk := fun root => (w.walk root).map fun e => { e with ModTime := f e } }

/-- The world with another list of entries under every root. -/
def withEntries (entries : List WalkEntry) (w : DirWorld) : DirWorld :=
  { w with walk := fun _ => entries }

/-- A plain file entry under `pkg`. -/
def fileEntry (name : String) (content : List Nat) (openErr : Option String) : WalkEntry :=
  { Path := "pkg/" ++ name, Dir := "pkg", Name := name, IsDir := false, ModTime := 7,
    walkErr := none, openErr := openErr, copyErr := none, Content := content }

/-- The directory `pkg` with the file `a.txt`, a file `b.txt` with the given
bytes that cannot be opened, and the manifest holding the digest of `a.txt`
alone; the digest of a byte sequence is, as a stand-in for SHA-256, the
sequence itself. -/
def lockedFileWorld (b : List Nat) : DirWorld :=
  { walk := fun _ =>
      [{ Path := "pkg", Dir := ".", Name := "pkg", IsDir := true, ModTime := 7, walkErr := none,
         openErr := none, copyErr := none, Content := [] },
       fileEntry "a.txt" [1] none,
       fileEntry "b.txt" b (some "permission denied"),
       fileEntry "package.json" [9] none]
    readFile := fun p => if p = "pkg/package.json" then .ok [9] else .error "no such file"
    join := fun a b => a ++ "/" ++ b
    jsonChecksum := fun _ => "01"
    sha256 := fun bytes => bytes }

/-- A stand-in for `filepath.Join` of a directory, with or without separators
at its end, and a name. -/
def joinPath (dir name : String) : String :=
  String.mk (dir.data.reverse.dropWhile fun c => c == '/').reverse ++ "/" ++ name

/-- The directory `pkg` with the file `a.txt` and the manifest holding the
digest of `a.txt`; the walk names the directory as the root is written, and
the files under it by the clean paths `filepath.Join` builds. -/
def slashRootWorld : DirWorld :=
  { walk := fun root =>
      [{ Path := root, Dir := ".", Name := "pkg", IsDir := true, ModTime := 7, walkErr := none,
         openErr := none, copyErr := none, Content := [] },
       fileEntry "a.txt" [1] none,
       fileEntry "package.json" [9] none]
    readFile := fun p => if p = "pkg/package.json" then .ok [9] else .error "no such file"
    join := joinPath
    jsonChecksum := fun _ => "01"
    sha256 := fun bytes => bytes }

end DirChecksumSpec

/-! ## Command-line feedback (cli/feedback/feedback.go) -/

namespace os

/-- The two standard streams `DefaultFeedback` writes to. -/
inductive File where
  | Stdout
  | Stderr
  deriving DecidableEq, Repr

end os

namespace feedback

/-- `OutputFormat`. -/
inductive OutputFormat where
  /-- Plain text. -/
  | Text
  /-- JSON. -/
  | JSON
  deriving DecidableEq, Repr

/-- `Feedback`, over the type `W` of the writers. -/
structure Feedback (W : Type) where
  out : W
  err : W
  format : OutputFormat
  deriving DecidableEq, Repr

/-- `New(out, err, format)`. -/
def New {W : Type} (out err : W) (format : OutputFormat) : Feedback W :=
  { out := out, err := err, format := format }

/-- `DefaultFeedback()`. -/
def DefaultFeedback : Feedback os.File :=
  New .Stdout .Stderr .Text

/-- `Feedback.SetFormat(f)`. -/
def Feedback.SetFormat {W : Type} (fb : Feedback W) (f : OutputFormat) : Feedback W :=
  { fb with format := f }

/-- `Feedback.OutputWriter()`. -/
def Feedback.OutputWriter {W : Type} (fb : Feedback W) : W :=
  fb.out

/-- `Feedback.ErrorWriter()`. -/
def Feedback.ErrorWriter {W : Type} (fb : Feedback W) : W :=
  fb.out

/-- `Feedback.Error(v...)`: the writer `fmt.Fprintln` writes to and the text
written, the operands already formatted into `line` (the logging is left
out). -/
def Feedback.Error {W : Type} (fb : Feedback W) (line : String) : W × String :=
  (fb.err, line ++ "\n")

/-- `Feedback.Errorf(format, v...)`, the operands already formatted. -/
def Feedback.Errorf {W : Type} (fb : Feedback W) (line : String) : W × String :=
  fb.Error line

end feedback

/-! ## The name of the cached core archive (legacy/builder/builder_utils/utils.go) -/

namespace strings

/-- The number of bytes of the UTF-8 encoding of a character. -/
def utf8Size (c : Char) : Nat :=
  if c.toNat < 0x80 then 1
  else if c.toNat < 0x800 then 2
  else if c.toNat < 0x10000 then 3
  else 4

/-- Go `len(s)` of a string: the number of bytes. -/
def len (s : String) : Nat :=
  (s.data.map utf8Size).sum

end strings

namespace builder_utils

/-- `GetCachedCoreArchiveFileName(fqbn, coreFolder)`, with `utils.MD5Sum` (on
the bytes of a string) and `paths.Path.Abs` given. -/
def GetCachedCoreArchiveFileName (md5Sum : String → String)
    (abs : String → Except String String) (fqbn coreFolder : String) : String :=
  let fqbnToUnderscore := strings.Replace fqbn ":" "_"
  let fqbnToUnderscore := strings.Replace fqbnToUnderscore "=" "_"
  let coreFolder :=
    match abs coreFolder with
    | .ok absCoreFolder => absCoreFolder
    | .error _ => coreFolder
  let hash := md5Sum coreFolder
  let realName := "core_" ++ fqbnToUnderscore ++ "_" ++ hash ++ ".a"
  if strings.len realName > 100 then
    "core_" ++ md5Sum (fqbnToUnderscore ++ "_" ++ hash) ++ ".a"
  else realName

end builder_utils

/-! ## The cached archive name, in the spec's words -/

namespace CacheNameSpec

/-- The FQBN with every `:` and `=` replaced by `_`. -/
def underscored (fqbn : String) : String :=
  String.mk (fqbn.data.map fun c => if c = ':' ∨ c = '=' then '_' else c)

/-- The path whose digest enters the name: the absolute core folder, or the
folder as given when it cannot be made absolute. -/
def hashedFolder (abs : String → Except String String) (coreFolder : String) : String :=
  match abs coreFolder with
  | .ok absCoreFolder => absCoreFolder
  | .error _ => coreFolder

/-- The full name `core_` + F + `_` + H + `.a`. -/
def fullName (md5Sum : String → String) (abs : String → Except String String)
    (fqbn coreFolder : String) : String :=
  "core_" ++ underscored fqbn ++ "_" ++ md5Sum (hashedFolder abs coreFolder) ++ ".a"

/-- The re-hashed name `core_` + MD5hex(F + `_` + H) + `.a`. -/
def hashedName (md5Sum : String → String) (abs : String → Except String String)
    (fqbn coreFolder : String) : String :=
  "core_" ++ md5Sum (underscored fqbn ++ "_" ++ md5Sum (hashedFolder abs coreFolder)) ++ ".a"

/-- A hexadecimal MD5 digest: 32 lower-case hexadecimal digits. -/
def isMD5Hex (s : String) : Prop :=
  s.data.length = 32 ∧ ∀ c ∈ s.data, c ∈ "0123456789abcdef".data

instance (s : String) : Decidable (isMD5Hex s) := by unfold isMD5Hex; infer_instance

/-- A stand-in for `utils.MD5Sum`: 32 hexadecimal digits of a polynomial
checksum of the characters. -/
def sampleMD5Sum (s : String) : String :=
  let n := s.data.foldl (fun acc c => (acc * 1000003 + c.toNat + 1) % 2 ^ 128) 7
  String.mk ((List.range 32).map fun i => hex.digit (n / 16 ^ (31 - i) % 16))

/-- A stand-in for `paths.Path.Abs` on a path that is absolute already. -/
def sampleAbs (path : String) : Except String String :=
  .ok path

end CacheNameSpec

/-! ## What a merge leaves of its source, in the spec's words -/

namespace MergeSpec

open properties

/-- The pairs of a source that are in the map after a merge (right overrides
left), in the order they are there: for every key its last pair. -/
def lastSet : Map → Map
  | [] => []
  | (k, v) :: rest => if k ∈ Map.Keys rest then lastSet rest else (k, v) :: lastSet rest

end MergeSpec

namespace BoardSpec

open properties cores

/-- The property subtree of the value chosen for an option, empty when no
value is chosen. -/
def chosenSubtree (b : Board) (userConfig : Map) (option : String) : Map :=
  match chosenValue b userConfig option with
  | some v => ((menuOf b).SubTree option).SubTree v
  | none => []

end BoardSpec

/-! ## The change checks of a core folder (legacy/builder/builder_utils/utils.go) -/

namespace builder_utils

/-- The collaborators of the change checks: the directory listings and the
path functions. -/
structure CoreEnv where
  /-- `utils.ReadDirFiltered(path, utils.FilterFiles())`: the names. -/
  readDirFiles : String → Except String (List String)
  /-- `utils.ReadDirFiltered(path, utils.FilterDirs)`: the names. -/
  readDirFolders : String → Except String (List String)
  /-- `utils.IsSCCSOrHiddenFile`, on the name of the folder. -/
  isSCCSOrHiddenFile : String → Bool
  /-- `filepath.Join`. -/
  joinPath : String → String → String
  /-- `os.Stat`. -/
  stat : String → os.StatResult
  /-- `strings.EqualFold`. -/
  equalFold : String → String → Bool
  /-- `paths.Path.EqualsTo`. -/
  equalsTo : String → String → Bool

/-- `findAllFilesInFolder(sourcePath, recurse)`; the first argument bounds the
depth of the calls, and `none` is returned when it is used up. -/
def findAllFilesInFolder (env : CoreEnv) :
    Nat → String → Bool → Option (Except String (List String))
  | 0, _, _ => none
  | fuel + 1, sourcePath, recurse =>
    match env.readDirFiles sourcePath with
    | .error err => some (.error err)
    | .ok files =>
      let sources := files.map (env.joinPath sourcePath)
      if recurse then
        match env.readDirFolders sourcePath with
        | .error err => some (.error err)
        | .ok folders =>
          folders.foldl (fun acc folder =>
            match acc with
            | some (.ok sources) =>
              if !env.isSCCSOrHiddenFile folder then
                match findAllFilesInFolder env fuel (env.joinPath sourcePath folder) recurse with
                | some (.ok otherSources) => some (.ok (sources ++ otherSources))
                | other => other
              else some (.ok sources)
            | other => other) (some (.ok sources))
      else some (.ok sources)

/-- The loop of `CoreOrReferencedCoreHasChanged` over the files: some file
cannot be stat-ed or is newer than the target. -/
def coreChangedLoop (env : CoreEnv) (targetModTime : Nat) : List String → Bool
  | [] => false
  | file :: rest =>
    match env.stat file with
    | .info fileStat =>
      if fileStat.ModTime > targetModTime then true
      else coreChangedLoop env targetModTime rest
    | _ => true

/-- `CoreOrReferencedCoreHasChanged(corePath, targetCorePath, targetFile)`;
the first argument bounds the depth of the calls. -/
def CoreOrReferencedCoreHasChanged (env : CoreEnv) :
    Nat → String → Option String → String → Option Bool
  | 0, _, _, _ => none
  | fuel + 1, corePath, targetCorePath, targetFile =>
    match env.stat targetFile with
    | .info targetFileStat =>
      match findAllFilesInFolder env fuel corePath true with
      | none => none
      | some (.error _) => some true
      | some (.ok files) =>
        if coreChangedLoop env targetFileStat.ModTime files then some true
        else
          match targetCorePath with
          | some targetCorePath =>
            if !env.equalFold corePath targetCorePath then
              CoreOrReferencedCoreHasChanged env fuel targetCorePath none targetFile
            else some false
          | none => some false
    | _ => some true

/-- The loop of `TXTBuildRulesHaveChanged` over the files: some `.txt` file
cannot be stat-ed or is newer than the target. -/
def txtChangedLoop (env : CoreEnv) (targetModTime : Nat) : List String → Bool
  | [] => false
  | file :: rest =>
    if filepath.Ext file != ".txt" then txtChangedLoop env targetModTime rest
    else
      match env.stat file with
      | .info fileStat =>
        if fileStat.ModTime > targetModTime then true
        else txtChangedLoop env targetModTime rest
      | _ => true

/-- `TXTBuildRulesHaveChanged(corePath, targetCorePath, targetFile)`; the
first argument bounds the depth of the calls. -/
def TXTBuildRulesHaveChanged (env : CoreEnv) :
    Nat → String → Option String → String → Option Bool
  | 0, _, _, _ => none
  | fuel + 1, corePath, targetCorePath, targetFile =>
    match env.stat targetFile with
    | .info targetFileStat =>
      match findAllFilesInFolder env fuel corePath true with
      | none => none
      | some (.error _) => some true
      | some (.ok files) =>
        if txtChangedLoop env targetFileStat.ModTime files then some true
        else
          match targetCorePath with
          | some targetCorePath =>
            if !env.equalsTo corePath targetCorePath then
              TXTBuildRulesHaveChanged env fuel targetCorePath none targetFile
            else some false
          | none => some false
    | _ => some true

end builder_utils

/-! ## Two core folders whose paths differ in case only -/

namespace BuilderSpec

open builder_utils

/-- A case-sensitive file system with the folders `/hw/AVR` (one rule file,
older than the target) and `/hw/avr` (one rule file, newer than the target)
and the target `/build/core.a`; `strings.EqualFold` compares the ASCII lower
case, `EqualsTo` the paths, which are clean. -/
def caseEnv : CoreEnv :=
  { readDirFiles := fun dir =>
      if dir = "/hw/AVR" then .ok ["boards.txt"]
      else if dir = "/hw/avr" then .ok ["platform.txt"]
      else .error "no such directory"
    readDirFolders := fun dir =>
      if dir = "/hw/AVR" ∨ dir = "/hw/avr" then .ok []
      else .error "no such directory"
    isSCCSOrHiddenFile := fun name => strings.HasPrefix name "."
    joinPath := fun dir name => dir ++ "/" ++ name
    stat := fun path =>
      if path = "/hw/AVR/boards.txt" then .info ⟨100, 1⟩
      else if path = "/hw/avr/platform.txt" then .info ⟨100, 9⟩
      else if path = "/build/core.a" then .info ⟨1000, 5⟩
      else .notExist "no such file"
    equalFold := fun a b => decide (ResolverSpec.asciiLower a = ResolverSpec.asciiLower b)
    equalsTo := fun a b => decide (a = b) }

end BuilderSpec

/-! ## The escapes of a dependency row, in the spec's words -/

namespace DepSpec

/-- A piece of an escaped row: a character that is written as it is, or one of
the five escape sequences. -/
inductive Token where
  /-- A character that stands for itself. -/
  | plain (c : Char)
  /-- Backslash, space. -/
  | escSpace
  /-- Backslash, tab character. -/
  | escTab
  /-- Backslash, `#`. -/
  | escHash
  /-- Two dollar signs. -/
  | dollar
  /-- Two backslashes. -/
  | backslash
  deriving DecidableEq, Repr

/-- A character that stands for itself is no backslash and no dollar sign. -/
def Token.valid : Token → Prop
  | .plain c => c ≠ '\\' ∧ c ≠ '$'
  | _ => True

instance (t : Token) : Decidable t.valid := by
  cases t <;> unfold Token.valid <;> infer_instance

/-- The characters of a piece in the escaped row. -/
def Token.escaped : Token → List Char
  | .plain c => [c]
  | .escSpace => ['\\', ' ']
  | .escTab => ['\\', '\t']
  | .escHash => ['\\', '#']
  | .dollar => ['$', '$']
  | .backslash => ['\\', '\\']

/-- The characters a piece stands for. -/
def Token.unescaped : Token → List Char
  | .plain c => [c]
  | .escSpace => [' ']
  | .escTab => ['\t']
  | .escHash => ['#']
  | .dollar => ['$']
  | .backslash => ['\\']

/-- The escaped row made of the pieces. -/
def escaped (tokens : List Token) : String :=
  String.mk (tokens.flatMap Token.escaped)

/-- The row the pieces stand for. -/
def unescaped (tokens : List Token) : String :=
  String.mk (tokens.flatMap Token.unescaped)

/-- One pass of `strings.Replace(s, old, new, -1)` for an `old` of the two
characters `a`, `b` and a `new` of the one character `n`. -/
def replacePair (a b n : Char) : List Char → List Char
  | [] => []
  | [x] => [x]
  | x :: y :: rest =>
    if x = a ∧ y = b then n :: replacePair a b n rest
    else x :: replacePair a b n (y :: rest)

/-- A row as runs of backslashes, each followed by characters that are no
backslash, and a last run of backslashes. -/
def render (runs : List (Nat × List Char)) (last : Nat) : List Char :=
  (runs.flatMap fun p => List.replicate p.1 '\\' ++ p.2) ++ List.replicate last '\\'

/-- The pass for backslash + `x`: the run before an `x` loses a backslash. -/
def dropBefore (x : Char) (p : Nat × List Char) : Nat × List Char :=
  if p.2.head? = some x then (p.1 - 1, p.2) else p

/-- The pass for `$$`. -/
def halveDollars (p : Nat × List Char) : Nat × List Char :=
  if p.2 = ['$', '$'] then (p.1, ['$']) else p

/-- The pass for two backslashes. -/
def halveBackslashes (p : Nat × List Char) : Nat × List Char :=
  ((p.1 + 1) / 2, p.2)

/-- The pieces of a row grouped by the character that ends a run of
backslashes. -/
inductive Item where
  /-- `n` backslashes before a space, a tab character or a `#`. -/
  | special (n : Nat) (c : Char)
  /-- `2 * k` backslashes before another character that stands for itself. -/
  | plain (k : Nat) (c : Char)
  /-- `2 * k` backslashes before two dollar signs. -/
  | dollars (k : Nat)
  deriving DecidableEq, Repr

/-- The characters the items may hold. -/
def Item.valid : Item → Prop
  | .special _ c => c = ' ' ∨ c = '\t' ∨ c = '#'
  | .plain _ c => c ≠ '\\' ∧ c ≠ '$' ∧ c ≠ ' ' ∧ c ≠ '\t' ∧ c ≠ '#'
  | .dollars _ => True

/-- The run of an item in the escaped row. -/
def Item.escaped : Item → Nat × List Char
  | .special n c => (n, [c])
  | .plain k c => (2 * k, [c])
  | .dollars k => (2 * k, ['$', '$'])

/-- The run an item stands for. -/
def Item.unescaped : Item → Nat × List Char
  | .special n c => (n / 2, [c])
  | .plain k c => (k, [c])
  | .dollars k => (k, ['$'])

/-- A piece put before grouped pieces. -/
def prepend (t : Token) (g : List Item × Nat) : List Item × Nat :=
  match t with
  | .plain c =>
    if c = ' ' ∨ c = '\t' ∨ c = '#' then (.special 0 c :: g.1, g.2)
    else (.plain 0 c :: g.1, g.2)
  | .escSpace => (.special 1 ' ' :: g.1, g.2)
  | .escTab => (.special 1 '\t' :: g.1, g.2)
  | .escHash => (.special 1 '#' :: g.1, g.2)
  | .dollar => (.dollars 0 :: g.1, g.2)
  | .backslash =>
    match g.1 with
    | [] => ([], g.2 + 1)
    | .special n c :: rest => (.special (n + 2) c :: rest, g.2)
    | .plain k c :: rest => (.plain (k + 1) c :: rest, g.2)
    | .dollars k :: rest => (.dollars (k + 1) :: rest, g.2)

/-- The grouping of the pieces of a row: the items, and half the number of
backslashes at its end. -/
def group (tokens : List Token) : List Item × Nat :=
  tokens.foldr prepend ([], 0)

end DepSpec

/-! ## Theorems -/

/-! ### Lemmas on the ordered property map -/

namespace properties.Map

theorem getOk_remove_ne (m : Map) (key k : String) (h : k ≠ key) :
    GetOk (Remove m key) k = GetOk m k := by
  induction m with
  | nil => rfl
  | cons p rest ih =>
    obtain ⟨a, v⟩ := p
    by_cases hak : a = key
    · subst hak
      simp only [Remove, GetOk, if_true]
      rw [if_neg (fun e => h e.symm)]
    · simp only [Remove, GetOk, if_neg hak]
      by_cases hk : a = k
      · simp [hk]
      · simp [hk, ih]

theorem containsKey_iff_mem_keys (m : Map) (k : String) :
    ContainsKey m k = true ↔ k ∈ Keys m := by
  induction m with
  | nil => simp [ContainsKey, GetOk, Keys]
  | cons p rest ih =>
    obtain ⟨a, v⟩ := p
    by_cases hak : a = k
    · subst hak; simp [ContainsKey, GetOk, Keys]
    · have : (ContainsKey ((a, v) :: rest) k) = ContainsKey rest k := by
        simp [ContainsKey, GetOk, hak]
      rw [this, ih]
      simp only [Keys, List.map_cons, List.mem_cons]
      constructor
      · intro h; exact Or.inr h
      · rintro (h | h)
        · exact absurd h.symm hak
        · exact h

theorem getOk_eq_none_iff (m : Map) (k : String) :
    GetOk m k = none ↔ k ∉ Keys m := by
  rw [← containsKey_iff_mem_keys]
  unfold ContainsKey
  cases GetOk m k <;> simp

theorem remove_of_not_mem (m : Map) (k : String) (h : k ∉ Keys m) : Remove m k = m := by
  induction m with
  | nil => rfl
  | cons p rest ih =>
    obtain ⟨a, v⟩ := p
    simp only [Keys, List.map_cons, List.mem_cons, not_or] at h
    have hak : a ≠ k := fun e => h.1 e.symm
    simp only [Remove, if_neg hak]
    rw [ih h.2]

theorem set_of_not_mem (m : Map) (k v : String) (h : k ∉ Keys m) :
    Set m k v = m ++ [(k, v)] := by
  have : ContainsKey m k = false := by
    rw [Bool.eq_false_iff]
    intro hc
    exact h ((containsKey_iff_mem_keys m k).1 hc)
  simp [Set, this]

theorem merge_of_disjoint (src acc : Map) (hs : WF src)
    (hd : ∀ k ∈ Keys src, k ∉ Keys acc) : Merge acc src = acc ++ src := by
  induction src generalizing acc with
  | nil => simp [Merge]
  | cons p rest ih =>
    obtain ⟨a, v⟩ := p
    have ha : a ∉ Keys acc := hd a (by simp [Keys])
    have hwf : WF rest := by
      unfold WF at hs ⊢
      simp only [List.map_cons, List.nodup_cons] at hs
      exact hs.2
    have hnot : a ∉ Keys rest := by
      unfold WF at hs
      simp only [List.map_cons, List.nodup_cons] at hs
      exact hs.1
    have hstep : Merge acc ((a, v) :: rest) = Merge (Set acc a v) rest := by
      simp [Merge]
    rw [hstep, set_of_not_mem acc a v ha, ih (acc ++ [(a, v)]) hwf]
    · simp
    · intro k hk
      simp only [Keys, List.map_append, List.map_cons, List.map_nil, List.mem_append,
        List.mem_singleton, not_or]
      refine ⟨hd k (by simp only [Keys, List.map_cons, List.mem_cons]; exact Or.inr hk), ?_⟩
      intro e
      subst e
      exact hnot hk

/-- Cloning a well-formed map gives the same pairs in the same order. -/
theorem clone_of_wf (m : Map) (h : WF m) : Clone m = m := by
  unfold Clone NewMap
  rw [merge_of_disjoint m [] h (by intro k _; simp [Keys])]
  simp

theorem keys_remove (m : Map) (k : String) (h : WF m) :
    Keys (Remove m k) = (Keys m).filter (fun x => decide (x ≠ k)) := by
  induction m with
  | nil => rfl
  | cons p rest ih =>
    obtain ⟨a, v⟩ := p
    have hwf : WF rest := by
      unfold WF at h ⊢
      simp only [List.map_cons, List.nodup_cons] at h
      exact h.2
    have hnot : a ∉ Keys rest := by
      unfold WF at h
      simp only [List.map_cons, List.nodup_cons] at h
      exact h.1
    by_cases hak : a = k
    · subst hak
      simp only [Remove, if_true, Keys, List.map_cons]
      rw [List.filter_cons_of_neg (by simp)]
      symm
      rw [List.filter_eq_self]
      intro x hx
      simp only [ne_eq, decide_eq_true_eq]
      intro e
      subst e
      exact hnot hx
    · simp only [Remove, if_neg hak, Keys, List.map_cons]
      rw [List.filter_cons_of_pos (by simpa using hak)]
      congr 1
      exact ih hwf

theorem wf_remove (m : Map) (k : String) (h : WF m) : WF (Remove m k) := by
  unfold WF
  have := keys_remove m k h
  unfold Keys at this
  rw [this]
  exact List.Nodup.filter _ h

theorem firstLevelKeysLoop_nodup (ks res : List String) (h : res.Nodup) :
    (firstLevelKeysLoop ks res).Nodup := by
  induction ks generalizing res with
  | nil => exact h
  | cons k ks ih =>
    simp only [firstLevelKeysLoop]
    split
    · exact ih res h
    · rename_i hn
      apply ih
      rw [List.nodup_append]
      refine ⟨h, by simp, ?_⟩
      intro a ha hb
      simp only [List.mem_singleton] at hb
      subst hb
      exact hn ha

/-- The first-level keys of a map are pairwise distinct. -/
theorem firstLevelKeys_nodup (m : Map) : (FirstLevelKeys m).Nodup :=
  firstLevelKeysLoop_nodup _ _ List.nodup_nil

end properties.Map

/-! ### Lemmas on the two loops of `GetBuildProperties` -/

namespace cores.Board

open properties BoardSpec

/-- What a successful run of the first loop leaves behind. -/
theorem optionsLoop_ok (b : Board) (cfg : Map) (opts : List String) (hnd : opts.Nodup)
    (uc bp uc' bp' : Map) (hag : ∀ o ∈ opts, uc.GetOk o = cfg.GetOk o)
    (h : optionsLoop (menuOf b) opts uc bp = .ok (uc', bp')) :
    uc' = opts.foldl Map.Remove uc ∧ bp' = opts.foldl (mergeChosen b cfg) bp ∧
    (∀ o ∈ opts, ∀ v, cfg.GetOk o = some v → ((menuOf b).SubTree o).ContainsKey v = true) := by
  induction opts generalizing uc bp with
  | nil =>
    simp only [optionsLoop, Outcome.ok.injEq, Prod.mk.injEq] at h
    refine ⟨h.1.symm, h.2.symm, ?_⟩
    intro o ho
    cases ho
  | cons o rest ih =>
    have hnd' := (List.nodup_cons.1 hnd)
    have hrest : ∀ x ∈ rest, (uc.Remove o).GetOk x = cfg.GetOk x := by
      intro x hx
      rw [Map.getOk_remove_ne uc o x (by intro e; subst e; exact hnd'.1 hx)]
      exact hag x (List.mem_cons_of_mem _ hx)
    have hrest' : ∀ x ∈ rest, uc.GetOk x = cfg.GetOk x :=
      fun x hx => hag x (List.mem_cons_of_mem _ hx)
    have ho : uc.GetOk o = cfg.GetOk o := hag o (List.mem_cons_self _ _)
    unfold optionsLoop at h
    cases hg : uc.GetOk o with
    | some v =>
      rw [hg] at h
      simp only at h
      by_cases hc : ((menuOf b).SubTree o).ContainsKey v = true
      · simp only [hc, Bool.not_true, Bool.false_eq_true, if_false] at h
        obtain ⟨h1, h2, h3⟩ := ih hnd'.2 _ _ hrest h
        refine ⟨by simpa using h1, ?_, ?_⟩
        · rw [h2]
          simp only [List.foldl_cons]
          congr 1
          simp only [mergeChosen, chosenValue, ← ho, hg]
        · intro x hx w hw
          rcases List.mem_cons.1 hx with e | hx'
          · subst e
            rw [← ho, hg] at hw
            cases hw
            exact hc
          · exact h3 x hx' w hw
      · simp only [hc, Bool.not_false, if_true] at h
        cases h
    | none =>
      rw [hg] at h
      simp only at h
      cases hf : ((menuOf b).SubTree o).FirstLevelKeys with
      | nil =>
        rw [hf] at h
        cases h
      | cons d ds =>
        rw [hf] at h
        simp only at h
        obtain ⟨h1, h2, h3⟩ := ih hnd'.2 _ _ hrest' h
        have hrem : uc.Remove o = uc :=
          Map.remove_of_not_mem uc o ((Map.getOk_eq_none_iff uc o).1 hg)
        refine ⟨by simpa [hrem] using h1, ?_, ?_⟩
        · rw [h2]
          simp only [List.foldl_cons]
          congr 1
          simp only [mergeChosen, chosenValue, ← ho, hg, hf, List.head?_cons]
        · intro x hx w hw
          rcases List.mem_cons.1 hx with e | hx'
          · subst e
            rw [← ho, hg] at hw
            cases hw
          · exact h3 x hx' w hw

/-- The first loop fails only on a supplied value that its option does not
hold as a key, and names both. -/
theorem optionsLoop_error (b : Board) (cfg : Map) (opts : List String) (hnd : opts.Nodup)
    (uc bp : Map) (e : BuildError) (hag : ∀ o ∈ opts, uc.GetOk o = cfg.GetOk o)
    (h : optionsLoop (menuOf b) opts uc bp = .error e) :
    ∃ o ∈ opts, ∃ v, cfg.GetOk o = some v ∧
      ((menuOf b).SubTree o).ContainsKey v = false ∧ e = .invalidValue v o := by
  induction opts generalizing uc bp with
  | nil => simp [optionsLoop] at h
  | cons o rest ih =>
    have hnd' := (List.nodup_cons.1 hnd)
    have hrest : ∀ x ∈ rest, (uc.Remove o).GetOk x = cfg.GetOk x := by
      intro x hx
      rw [Map.getOk_remove_ne uc o x (by intro e; subst e; exact hnd'.1 hx)]
      exact hag x (List.mem_cons_of_mem _ hx)
    have hrest' : ∀ x ∈ rest, uc.GetOk x = cfg.GetOk x :=
      fun x hx => hag x (List.mem_cons_of_mem _ hx)
    have ho : uc.GetOk o = cfg.GetOk o := hag o (List.mem_cons_self _ _)
    unfold optionsLoop at h
    cases hg : uc.GetOk o with
    | some v =>
      rw [hg] at h
      simp only at h
      by_cases hc : ((menuOf b).SubTree o).ContainsKey v = true
      · simp only [hc, Bool.not_true, Bool.false_eq_true, if_false] at h
        obtain ⟨x, hx, w, hw⟩ := ih hnd'.2 _ _ hrest h
        exact ⟨x, List.mem_cons_of_mem _ hx, w, hw⟩
      · simp only [hc, Bool.not_false, if_true, Outcome.error.injEq] at h
        refine ⟨o, List.mem_cons_self _ _, v, by rw [← ho, hg], by simpa using hc, h.symm⟩
    | none =>
      rw [hg] at h
      simp only at h
      cases hf : ((menuOf b).SubTree o).FirstLevelKeys with
      | nil =>
        rw [hf] at h
        cases h
      | cons d ds =>
        rw [hf] at h
        simp only at h
        obtain ⟨x, hx, w, hw⟩ := ih hnd'.2 _ _ hrest' h
        exact ⟨x, List.mem_cons_of_mem _ hx, w, hw⟩

/-- The first loop panics only on an unset option without any value. -/
theorem optionsLoop_panic (b : Board) (cfg : Map) (opts : List String) (hnd : opts.Nodup)
    (uc bp : Map) (hag : ∀ o ∈ opts, uc.GetOk o = cfg.GetOk o)
    (h : optionsLoop (menuOf b) opts uc bp = .panic) :
    ∃ o ∈ opts, cfg.GetOk o = none ∧ ((menuOf b).SubTree o).FirstLevelKeys = [] := by
  induction opts generalizing uc bp with
  | nil => simp [optionsLoop] at h
  | cons o rest ih =>
    have hnd' := (List.nodup_cons.1 hnd)
    have hrest : ∀ x ∈ rest, (uc.Remove o).GetOk x = cfg.GetOk x := by
      intro x hx
      rw [Map.getOk_remove_ne uc o x (by intro e; subst e; exact hnd'.1 hx)]
      exact hag x (List.mem_cons_of_mem _ hx)
    have hrest' : ∀ x ∈ rest, uc.GetOk x = cfg.GetOk x :=
      fun x hx => hag x (List.mem_cons_of_mem _ hx)
    have ho : uc.GetOk o = cfg.GetOk o := hag o (List.mem_cons_self _ _)
    unfold optionsLoop at h
    cases hg : uc.GetOk o with
    | some v =>
      rw [hg] at h
      simp only at h
      by_cases hc : ((menuOf b).SubTree o).ContainsKey v = true
      · simp only [hc, Bool.not_true, Bool.false_eq_true, if_false] at h
        obtain ⟨x, hx, hw⟩ := ih hnd'.2 _ _ hrest h
        exact ⟨x, List.mem_cons_of_mem _ hx, hw⟩
      · simp only [hc, Bool.not_false, if_true] at h
        cases h
    | none =>
      rw [hg] at h
      simp only at h
      cases hf : ((menuOf b).SubTree o).FirstLevelKeys with
      | nil => exact ⟨o, List.mem_cons_self _ _, by rw [← ho, hg], hf⟩
      | cons d ds =>
        rw [hf] at h
        simp only at h
        obtain ⟨x, hx, hw⟩ := ih hnd'.2 _ _ hrest' h
        exact ⟨x, List.mem_cons_of_mem _ hx, hw⟩

/-- The keys left in the working copy after removing every option. -/
theorem keys_foldl_remove (opts : List String) (uc : Map) (h : uc.WF) :
    Map.Keys (opts.foldl Map.Remove uc) = (Map.Keys uc).filter (fun k => decide (k ∉ opts)) := by
  induction opts generalizing uc with
  | nil => simp
  | cons o rest ih =>
    simp only [List.foldl_cons]
    rw [ih _ (Map.wf_remove uc o h), Map.keys_remove uc o h, List.filter_filter]
    congr 1
    funext k
    by_cases hk : k = o <;> simp [hk]

end cores.Board

/-! ### The declared values of an option -/

namespace properties.Map

theorem mem_keys_set (m : Map) (k v x : String) :
    x ∈ Keys (Set m k v) ↔ x = k ∨ x ∈ Keys m := by
  have hkeys : Keys (Set m k v) = Keys (if ContainsKey m k then Remove m k else m) ++ [k] := by
    simp [Set, Keys]
  rw [hkeys, List.mem_append, List.mem_singleton]
  by_cases hx : x = k
  · simp [hx]
  · have hrem : x ∈ Keys (Remove m k) ↔ x ∈ Keys m := by
      rw [← containsKey_iff_mem_keys, ← containsKey_iff_mem_keys]
      unfold ContainsKey
      rw [getOk_remove_ne m k x hx]
    constructor
    · rintro (h | h)
      · right
        split at h
        · exact hrem.1 h
        · exact h
      · exact absurd h hx
    · rintro (h | h)
      · exact absurd h hx
      · left
        split
        · exact hrem.2 h
        · exact h

theorem mem_firstLevelKeysLoop (ks res : List String) (x : String) :
    x ∈ firstLevelKeysLoop ks res ↔ x ∈ res ∨ ∃ k ∈ ks, strings.firstField k '.' = x := by
  induction ks generalizing res with
  | nil => simp [firstLevelKeysLoop]
  | cons k ks ih =>
    simp only [firstLevelKeysLoop]
    split
    · rename_i hin
      rw [ih]
      constructor
      · rintro (h | ⟨y, hy, hxy⟩)
        · exact Or.inl h
        · exact Or.inr ⟨y, List.mem_cons_of_mem _ hy, hxy⟩
      · rintro (h | ⟨y, hy, hxy⟩)
        · exact Or.inl h
        · rcases List.mem_cons.1 hy with e | hy'
          · subst e
            rw [← hxy]
            exact Or.inl hin
          · exact Or.inr ⟨y, hy', hxy⟩
    · rw [ih]
      simp only [List.mem_append, List.mem_singleton]
      constructor
      · rintro ((h | h) | ⟨y, hy, hxy⟩)
        · exact Or.inl h
        · exact Or.inr ⟨k, List.mem_cons_self _ _, h.symm⟩
        · exact Or.inr ⟨y, List.mem_cons_of_mem _ hy, hxy⟩
      · rintro (h | ⟨y, hy, hxy⟩)
        · exact Or.inl (Or.inl h)
        · rcases List.mem_cons.1 hy with e | hy'
          · subst e
            exact Or.inl (Or.inr hxy.symm)
          · exact Or.inr ⟨y, hy', hxy⟩

/-- A string is a first-level key exactly when it is the first field of a key. -/
theorem mem_firstLevelKeys (m : Map) (x : String) :
    x ∈ FirstLevelKeys m ↔ ∃ k ∈ Keys m, strings.firstField k '.' = x := by
  unfold FirstLevelKeys
  rw [mem_firstLevelKeysLoop]
  simp

end properties.Map

namespace strings

theorem cutChars_of_not_mem (sep : Char) (cs : List Char) (h : sep ∉ cs) :
    cutChars sep cs = none := by
  induction cs with
  | nil => rfl
  | cons c cs ih =>
    simp only [List.mem_cons, not_or] at h
    have hc : c ≠ sep := fun e => h.1 e.symm
    simp only [cutChars, if_neg hc, ih h.2]

theorem firstField_of_not_mem (s : String) (sep : Char) (h : sep ∉ s.data) :
    firstField s sep = s := by
  simp only [firstField, cutChars_of_not_mem sep s.data h]

end strings

namespace cores.Board

open properties BoardSpec

theorem mem_keys_optionValuesLoop (menu : Map) (values : List String) (res : Map) (x : String) :
    x ∈ Map.Keys (values.foldl (fun res value =>
      match menu.GetOk value with
      | some label => res.Set value label
      | none => res) res) ↔
    x ∈ Map.Keys res ∨ (x ∈ values ∧ menu.ContainsKey x = true) := by
  induction values generalizing res with
  | nil => simp
  | cons a rest ih =>
    simp only [List.foldl_cons]
    rw [ih]
    cases hg : menu.GetOk a with
    | none =>
      simp only
      constructor
      · rintro (h | ⟨h1, h2⟩)
        · exact Or.inl h
        · exact Or.inr ⟨List.mem_cons_of_mem _ h1, h2⟩
      · rintro (h | ⟨h1, h2⟩)
        · exact Or.inl h
        · rcases List.mem_cons.1 h1 with e | h1'
          · subst e
            simp [Map.ContainsKey, hg] at h2
          · exact Or.inr ⟨h1', h2⟩
    | some label =>
      simp only
      rw [Map.mem_keys_set]
      constructor
      · rintro ((h | h) | ⟨h1, h2⟩)
        · subst h
          exact Or.inr ⟨List.mem_cons_self _ _, by simp [Map.ContainsKey, hg]⟩
        · exact Or.inl h
        · exact Or.inr ⟨List.mem_cons_of_mem _ h1, h2⟩
      · rintro (h | ⟨h1, h2⟩)
        · exact Or.inl (Or.inr h)
        · rcases List.mem_cons.1 h1 with e | h1'
          · exact Or.inl (Or.inl e)
          · exact Or.inr ⟨h1', h2⟩

/-- The values listed by `GetConfigOptionValues` are the first-level keys of
the option subtree that are themselves keys of it (carry a label). -/
theorem containsKey_getConfigOptionValues (b : Board) (option v : String) :
    (b.GetConfigOptionValues option).ContainsKey v = true ↔
      v ∈ ((menuOf b).SubTree option).FirstLevelKeys ∧
      ((menuOf b).SubTree option).ContainsKey v = true := by
  rw [Map.containsKey_iff_mem_keys]
  unfold GetConfigOptionValues
  simp only
  rw [mem_keys_optionValuesLoop]
  simp [Map.NewMap, Map.Keys, menuOf]

/-- For a value without a dot, being a key of the option subtree and being
listed by `GetConfigOptionValues` are the same. -/
theorem containsKey_iff_declared (b : Board) (option v : String) (hdot : '.' ∉ v.data) :
    ((menuOf b).SubTree option).ContainsKey v = true ↔
      (b.GetConfigOptionValues option).ContainsKey v = true := by
  rw [containsKey_getConfigOptionValues]
  constructor
  · intro h
    refine ⟨?_, h⟩
    rw [Map.mem_firstLevelKeys]
    exact ⟨v, (Map.containsKey_iff_mem_keys _ _).1 h, strings.firstField_of_not_mem v '.' hdot⟩
  · exact fun h => h.2

/-- The result of `GetBuildProperties` once the first loop has gone through. -/
theorem getBuildProperties_of_loop_ok (b : Board) (cfg : Map) (hwf : cfg.WF) (uc bp : Map)
    (h : optionsLoop (menuOf b) (optionsOf b) cfg.Clone b.Properties.Clone = .ok (uc, bp)) :
    b.GetBuildProperties cfg =
      (match unrecognizedKeys b cfg with
       | [] => .ok (resolved b cfg)
       | k :: _ => if k = "" then .error .invalidEmptyOption else .error (.invalidOption k)) ∧
    suppliedValuesAccepted b cfg := by
  have hclone := Map.clone_of_wf cfg hwf
  rw [hclone] at h
  obtain ⟨h1, h2, h3⟩ := optionsLoop_ok b cfg (optionsOf b) (Map.firstLevelKeys_nodup _)
    cfg b.Properties.Clone uc bp (fun _ _ => rfl) h
  refine ⟨?_, h3⟩
  have hrun : b.GetBuildProperties cfg = residualCheck uc bp := by
    unfold GetBuildProperties
    simp only [hclone]
    unfold menuOf optionsOf at h
    unfold menuOf at h
    rw [h]
  rw [hrun]
  unfold residualCheck
  rw [h1, keys_foldl_remove _ _ hwf, h2]
  rfl

end cores.Board

namespace cores.Board

open properties BoardSpec

theorem getBuildProperties_of_loop_error (b : Board) (cfg : Map) (e : BuildError)
    (h : optionsLoop (menuOf b) (optionsOf b) cfg.Clone b.Properties.Clone = .error e) :
    b.GetBuildProperties cfg = .error e := by
  unfold GetBuildProperties
  unfold menuOf optionsOf at h
  unfold menuOf at h
  simp only
  rw [h]

theorem getBuildProperties_of_loop_panic (b : Board) (cfg : Map)
    (h : optionsLoop (menuOf b) (optionsOf b) cfg.Clone b.Properties.Clone = .panic) :
    b.GetBuildProperties cfg = .panic := by
  unfold GetBuildProperties
  unfold menuOf optionsOf at h
  unfold menuOf at h
  simp only
  rw [h]

theorem resolved_nil (b : Board) : resolved b [] = resolvedDefaults b := by
  unfold resolved resolvedDefaults
  congr 1

end cores.Board

/-! ### Board configuration: the claims -/

open properties cores BoardSpec in
/-- C1: whenever `GetBuildProperties` succeeds on a (well-formed) user config,
its result is the clone of the base properties into which, option by option in
declaration order, the subtree of the chosen value was merged, the chosen value
being the user's value when the config has one and the first declared value
otherwise; for the empty config every option takes its first declared value. -/
theorem getBuildProperties_eq_resolved (b : Board) (userConfig res : Map)
    (hwf : userConfig.WF) (h : b.GetBuildProperties userConfig = .ok res) :
    res = resolved b userConfig ∧ (userConfig = [] → res = resolvedDefaults b) := by
  have hres : res = resolved b userConfig := by
    cases hl : Board.optionsLoop (menuOf b) (optionsOf b) userConfig.Clone b.Properties.Clone with
    | ok r =>
      obtain ⟨uc, bp⟩ := r
      have hk := (Board.getBuildProperties_of_loop_ok b userConfig hwf uc bp hl).1
      rw [h] at hk
      cases hu : unrecognizedKeys b userConfig with
      | nil =>
        rw [hu] at hk
        simpa using hk
      | cons k ks =>
        rw [hu] at hk
        simp only at hk
        split at hk <;> cases hk
    | error e =>
      rw [Board.getBuildProperties_of_loop_error b userConfig e hl] at h
      cases h
    | panic =>
      rw [Board.getBuildProperties_of_loop_panic b userConfig hl] at h
      cases h
  refine ⟨hres, ?_⟩
  intro he
  rw [hres, he]
  exact Board.resolved_nil b

open properties cores BoardSpec in
/-- C1 at Scenario A: the board `uno` with the empty config resolves to the
16MHz property set. -/
theorem getBuildProperties_eq_resolved_witness :
    Map.WF ([] : Map) ∧
    uno.GetBuildProperties [] = .ok (uno.Properties ++ [("build.f_cpu", "16000000L")]) ∧
    (uno.Properties ++ [("build.f_cpu", "16000000L")] = resolved uno [] ∧
      (([] : Map) = [] → uno.Properties ++ [("build.f_cpu", "16000000L")] = resolvedDefaults uno)) :=
  ⟨by decide, by decide,
    getBuildProperties_eq_resolved uno [] _ (by decide) (by decide)⟩

open properties cores BoardSpec in
/-- C2, refuted as stated: on a board whose option `cpu` has the first-level
key `a` without a label, the config `cpu=a` supplies a first-level key of the
option subtree and is rejected with the invalid-value error; and on the board
`uno` the config `cpu=16MHz.build.f_cpu` supplies a value that is no
first-level key of the option subtree and is accepted. -/
theorem getBuildProperties_firstLevel_counterexample :
    ((∀ k ∈ Map.Keys [("cpu", "a")], k ∈ optionsOf ⟨"x", [("menu.cpu.a.b", "1")]⟩) ∧
      "a" ∈ ((menuOf ⟨"x", [("menu.cpu.a.b", "1")]⟩).SubTree "cpu").FirstLevelKeys ∧
      Board.GetBuildProperties ⟨"x", [("menu.cpu.a.b", "1")]⟩ [("cpu", "a")] =
        .error (.invalidValue "a" "cpu")) ∧
    ((∀ k ∈ Map.Keys [("cpu", "16MHz.build.f_cpu")], k ∈ optionsOf uno) ∧
      "16MHz.build.f_cpu" ∉ ((menuOf uno).SubTree "cpu").FirstLevelKeys ∧
      uno.GetBuildProperties [("cpu", "16MHz.build.f_cpu")] = .ok uno.Properties) := by
  refine ⟨⟨?_, ?_, ?_⟩, ?_, ?_, ?_⟩ <;> decide

open properties cores BoardSpec in
/-- C2, amended: for a well-formed config whose keys are all menu options,
whose supplied values contain no dot and that leaves unset only options having
a value, `GetBuildProperties` succeeds exactly when every supplied value is
listed by `GetConfigOptionValues` for its option (a first-level key of the
option subtree that carries a label); otherwise it fails with the invalid-value
error naming an unlisted supplied value and its option. -/
theorem getBuildProperties_succeeds_iff_declared (b : Board) (userConfig : Map)
    (hwf : userConfig.WF)
    (hkeys : ∀ k ∈ userConfig.Keys, k ∈ optionsOf b)
    (hdot : ∀ option ∈ optionsOf b, ∀ v, userConfig.GetOk option = some v → '.' ∉ v.data)
    (hdef : unsetOptionsHaveDefault b userConfig) :
    ((∃ res, b.GetBuildProperties userConfig = .ok res) ↔ suppliedValuesDeclared b userConfig) ∧
    (¬ suppliedValuesDeclared b userConfig →
      ∃ option ∈ optionsOf b, ∃ v, userConfig.GetOk option = some v ∧
        (b.GetConfigOptionValues option).ContainsKey v = false ∧
        b.GetBuildProperties userConfig = .error (.invalidValue v option)) := by
  have hclone := Map.clone_of_wf userConfig hwf
  cases hl : Board.optionsLoop (menuOf b) (optionsOf b) userConfig.Clone b.Properties.Clone with
  | ok r =>
    obtain ⟨uc, bp⟩ := r
    obtain ⟨hk, hacc⟩ := Board.getBuildProperties_of_loop_ok b userConfig hwf uc bp hl
    have hu : unrecognizedKeys b userConfig = [] := by
      unfold unrecognizedKeys
      rw [List.filter_eq_nil_iff]
      intro k hkm
      simpa using hkeys k hkm
    rw [hu] at hk
    have hd : suppliedValuesDeclared b userConfig := by
      intro o ho v hv
      exact (Board.containsKey_iff_declared b o v (hdot o ho v hv)).1 (hacc o ho v hv)
    exact ⟨⟨fun _ => hd, fun _ => ⟨_, hk⟩⟩, fun hn => absurd hd hn⟩
  | error e =>
    have hrun := Board.getBuildProperties_of_loop_error b userConfig e hl
    rw [hclone] at hl
    obtain ⟨o, ho, v, hv, hnc, he⟩ := Board.optionsLoop_error b userConfig (optionsOf b)
      (Map.firstLevelKeys_nodup _) userConfig b.Properties.Clone e (fun _ _ => rfl) hl
    have hnd : (b.GetConfigOptionValues o).ContainsKey v = false := by
      rw [Bool.eq_false_iff]
      intro hc
      have := (Board.containsKey_iff_declared b o v (hdot o ho v hv)).2 hc
      rw [hnc] at this
      cases this
    refine ⟨⟨?_, ?_⟩, fun _ => ⟨o, ho, v, hv, hnd, by rw [hrun, he]⟩⟩
    · rintro ⟨res, hres⟩
      rw [hrun] at hres
      cases hres
    · intro hd
      have := hd o ho v hv
      rw [hnd] at this
      cases this
  | panic =>
    rw [hclone] at hl
    obtain ⟨o, ho, hg, hf⟩ := Board.optionsLoop_panic b userConfig (optionsOf b)
      (Map.firstLevelKeys_nodup _) userConfig b.Properties.Clone (fun _ _ => rfl) hl
    exact absurd hf (hdef o ho hg)

open properties cores BoardSpec in
/-- C2 amended, at the board `uno` with the config `cpu=8MHz`. -/
theorem getBuildProperties_succeeds_iff_declared_witness :
    ((∃ res, uno.GetBuildProperties [("cpu", "8MHz")] = .ok res) ↔
      suppliedValuesDeclared uno [("cpu", "8MHz")]) ∧
    (¬ suppliedValuesDeclared uno [("cpu", "8MHz")] →
      ∃ option ∈ optionsOf uno, ∃ v, Map.GetOk [("cpu", "8MHz")] option = some v ∧
        (uno.GetConfigOptionValues option).ContainsKey v = false ∧
        uno.GetBuildProperties [("cpu", "8MHz")] = .error (.invalidValue v option)) :=
  getBuildProperties_succeeds_iff_declared uno [("cpu", "8MHz")] (by decide) (by decide)
    (by
      intro option hopt v hv
      have ho : option = "cpu" := by
        have : optionsOf uno = ["cpu"] := by decide
        rw [this] at hopt
        simpa using hopt
      subst ho
      have hv' : v = "8MHz" := by
        have : Map.GetOk [("cpu", "8MHz")] "cpu" = some "8MHz" := by decide
        rw [this] at hv
        exact (Option.some.inj hv).symm
      subst hv'
      decide)
    (by
      intro option hopt hnone
      have ho : option = "cpu" := by
        have : optionsOf uno = ["cpu"] := by decide
        rw [this] at hopt
        simpa using hopt
      subst ho
      decide)

open properties cores BoardSpec in
/-- C3, refuted as stated: with the unrecognized keys `foo` and the empty
string, in that order, `GetBuildProperties` fails with the invalid-option error
naming `foo`, not with the empty-option error. -/
theorem getBuildProperties_emptyKey_counterexample :
    "" ∈ unrecognizedKeys uno [("foo", "1"), ("", "2")] ∧
    Map.GetOk [("foo", "1"), ("", "2")] "cpu" = none ∧
    uno.GetBuildProperties [("foo", "1"), ("", "2")] = .error (.invalidOption "foo") := by
  refine ⟨?_, ?_, ?_⟩ <;> decide

open properties cores BoardSpec in
/-- C3, amended: for a well-formed config whose supplied values are all listed
by `GetConfigOptionValues` and that leaves unset only options having a value,
`GetBuildProperties` fails exactly when the config has a key that is no menu
option; the failure is decided by the first such key in config order: the
empty-option error when that key is the empty string, the invalid-option error
naming that key otherwise; without such a key the resolved properties are
returned. -/
theorem getBuildProperties_fails_iff_unrecognized (b : Board) (userConfig : Map)
    (hwf : userConfig.WF) (hdecl : suppliedValuesDeclared b userConfig)
    (hdef : unsetOptionsHaveDefault b userConfig) :
    ((∃ e, b.GetBuildProperties userConfig = .error e) ↔
      ∃ k ∈ userConfig.Keys, k ∉ optionsOf b) ∧
    b.GetBuildProperties userConfig =
      (match unrecognizedKeys b userConfig with
       | [] => .ok (resolved b userConfig)
       | k :: _ => if k = "" then .error .invalidEmptyOption else .error (.invalidOption k)) := by
  have hclone := Map.clone_of_wf userConfig hwf
  have hrun : b.GetBuildProperties userConfig =
      (match unrecognizedKeys b userConfig with
       | [] => .ok (resolved b userConfig)
       | k :: _ => if k = "" then .error .invalidEmptyOption else .error (.invalidOption k)) := by
    cases hl : Board.optionsLoop (menuOf b) (optionsOf b) userConfig.Clone b.Properties.Clone with
    | ok r =>
      obtain ⟨uc, bp⟩ := r
      exact (Board.getBuildProperties_of_loop_ok b userConfig hwf uc bp hl).1
    | error e =>
      rw [hclone] at hl
      obtain ⟨o, ho, v, hv, hnc, _⟩ := Board.optionsLoop_error b userConfig (optionsOf b)
        (Map.firstLevelKeys_nodup _) userConfig b.Properties.Clone e (fun _ _ => rfl) hl
      have := ((Board.containsKey_getConfigOptionValues b o v).1 (hdecl o ho v hv)).2
      rw [hnc] at this
      cases this
    | panic =>
      rw [hclone] at hl
      obtain ⟨o, ho, hg, hf⟩ := Board.optionsLoop_panic b userConfig (optionsOf b)
        (Map.firstLevelKeys_nodup _) userConfig b.Properties.Clone (fun _ _ => rfl) hl
      exact absurd hf (hdef o ho hg)
  refine ⟨?_, hrun⟩
  rw [hrun]
  cases hu : unrecognizedKeys b userConfig with
  | nil =>
    simp only
    constructor
    · rintro ⟨e, he⟩
      cases he
    · rintro ⟨k, hk, hn⟩
      have : k ∈ unrecognizedKeys b userConfig := by
        unfold unrecognizedKeys
        rw [List.mem_filter]
        exact ⟨hk, by simpa using hn⟩
      rw [hu] at this
      cases this
  | cons k ks =>
    simp only
    have hmem : k ∈ unrecognizedKeys b userConfig := by
      rw [hu]
      exact List.mem_cons_self _ _
    unfold unrecognizedKeys at hmem
    rw [List.mem_filter] at hmem
    constructor
    · intro _
      exact ⟨k, hmem.1, by simpa using hmem.2⟩
    · intro _
      by_cases hk : k = ""
      · exact ⟨_, by rw [if_pos hk]⟩
      · exact ⟨_, by rw [if_neg hk]⟩

open properties cores BoardSpec in
/-- C3 amended, at the board `uno` with the config `cpu=8MHz,foo=1`. -/
theorem getBuildProperties_fails_iff_unrecognized_witness :
    ((∃ e, uno.GetBuildProperties [("cpu", "8MHz"), ("foo", "1")] = .error e) ↔
      ∃ k ∈ Map.Keys [("cpu", "8MHz"), ("foo", "1")], k ∉ optionsOf uno) ∧
    uno.GetBuildProperties [("cpu", "8MHz"), ("foo", "1")] =
      (match unrecognizedKeys uno [("cpu", "8MHz"), ("foo", "1")] with
       | [] => .ok (resolved uno [("cpu", "8MHz"), ("foo", "1")])
       | k :: _ => if k = "" then .error .invalidEmptyOption else .error (.invalidOption k)) :=
  getBuildProperties_fails_iff_unrecognized uno [("cpu", "8MHz"), ("foo", "1")] (by decide)
    (by
      intro option hopt v hv
      have ho : option = "cpu" := by
        have : optionsOf uno = ["cpu"] := by decide
        rw [this] at hopt
        simpa using hopt
      subst ho
      have hv' : v = "8MHz" := by
        have : Map.GetOk [("cpu", "8MHz"), ("foo", "1")] "cpu" = some "8MHz" := by decide
        rw [this] at hv
        exact (Option.some.inj hv).symm
      subst hv'
      decide)
    (by
      intro option hopt hnone
      have ho : option = "cpu" := by
        have : optionsOf uno = ["cpu"] := by decide
        rw [this] at hopt
        simpa using hopt
      subst ho
      decide)

/-! ### Lemmas on splitting and on the checksum string -/

namespace strings

theorem cutChars_append (sep : Char) (a b : List Char) (h : sep ∉ a) :
    cutChars sep (a ++ sep :: b) = some (a, b) := by
  induction a with
  | nil => simp [cutChars]
  | cons c cs ih =>
    simp only [List.mem_cons, not_or] at h
    have hc : c ≠ sep := fun e => h.1 e.symm
    have hi := ih h.2
    simp only [List.cons_append, cutChars, if_neg hc]
    rw [show cs.append (sep :: b) = cs ++ sep :: b from rfl, hi]

theorem cutChars_some (sep : Char) (l a b : List Char) (h : cutChars sep l = some (a, b)) :
    l = a ++ sep :: b ∧ sep ∉ a := by
  induction l generalizing a with
  | nil => simp [cutChars] at h
  | cons c cs ih =>
    by_cases hc : c = sep
    · simp only [cutChars, if_pos hc, Option.some.injEq, Prod.mk.injEq] at h
      obtain ⟨h1, h2⟩ := h
      subst h1 h2 hc
      simp
    · simp only [cutChars, if_neg hc] at h
      cases hr : cutChars sep cs with
      | none => rw [hr] at h; cases h
      | some p =>
        obtain ⟨a', b'⟩ := p
        rw [hr] at h
        simp only [Option.some.injEq, Prod.mk.injEq] at h
        obtain ⟨h1, h2⟩ := h
        subst h1 h2
        obtain ⟨e, hn⟩ := ih a' hr
        refine ⟨by rw [e]; rfl, ?_⟩
        simp only [List.mem_cons, not_or]
        exact ⟨fun e' => hc e'.symm, hn⟩

theorem splitN2_append (a b : String) (sep : Char) (h : sep ∉ a.data) :
    SplitN2 (a ++ String.mk [sep] ++ b) sep = [a, b] := by
  have hd : (a ++ String.mk [sep] ++ b).data = a.data ++ sep :: b.data := by
    simp [String.data_append]
  unfold SplitN2
  rw [hd, cutChars_append sep a.data b.data h]

theorem firstField_append (a b : String) (sep : Char) (h : sep ∉ a.data) :
    firstField (a ++ String.mk [sep] ++ b) sep = a := by
  have hd : (a ++ String.mk [sep] ++ b).data = a.data ++ sep :: b.data := by
    simp [String.data_append]
  unfold firstField
  rw [hd, cutChars_append sep a.data b.data h]

theorem splitN2_pair (s a b : String) (sep : Char) (h : SplitN2 s sep = [a, b]) :
    s = a ++ String.mk [sep] ++ b ∧ sep ∉ a.data ∧ firstField s sep = a := by
  unfold SplitN2 at h
  unfold firstField
  cases hc : cutChars sep s.data with
  | none => rw [hc] at h; simp at h
  | some p =>
    obtain ⟨x, y⟩ := p
    rw [hc] at h
    simp only [List.cons.injEq, and_true] at h
    obtain ⟨h1, h2⟩ := h
    subst h1 h2
    obtain ⟨e, hn⟩ := cutChars_some sep s.data x y hc
    refine ⟨?_, hn, rfl⟩
    apply String.ext
    simp [String.data_append, e]

theorem splitN2_length_two (s : String) (sep : Char) (x y z : String) (rest : List String) :
    SplitN2 s sep ≠ x :: y :: z :: rest := by
  unfold SplitN2
  cases cutChars sep s.data with
  | none => simp
  | some p => simp

end strings

/-! ### Lemmas on the integrity check -/

namespace resources.DownloadResource

open ResourceSpec

theorem token_no_colon (algo : Algo) : ':' ∉ algo.token.data := by
  cases algo <;> decide

theorem token_injective (a b : Algo) (h : a.token = b.token) : a = b := by
  cases a <;> cases b <;> first | rfl | (exfalso; revert h; decide)

/-- The algorithm chosen by the `switch` of `TestLocalArchiveChecksum`. -/
theorem switch_eq_some_iff (algoToken : String) (algo : Algo) :
    (if algoToken = "SHA-256" then some Algo.SHA256
      else if algoToken = "SHA-1" then some Algo.SHA1
      else if algoToken = "MD5" then some Algo.MD5
      else none) = some algo ↔ algoToken = algo.token := by
  by_cases h1 : algoToken = "SHA-256"
  · subst h1
    cases algo <;> simp [Algo.token]
  · by_cases h2 : algoToken = "SHA-1"
    · subst h2
      cases algo <;> simp [Algo.token]
    · by_cases h3 : algoToken = "MD5"
      · subst h3
        cases algo <;> simp [Algo.token]
      · cases algo <;> simp [Algo.token, h1, h2, h3]

theorem switch_eq_none_iff (algoToken : String) :
    (if algoToken = "SHA-256" then some Algo.SHA256
      else if algoToken = "SHA-1" then some Algo.SHA1
      else if algoToken = "MD5" then some Algo.MD5
      else none) = none ↔ algoToken ∉ supportedTokens := by
  by_cases h1 : algoToken = "SHA-256"
  · simp [h1, supportedTokens]
  · by_cases h2 : algoToken = "SHA-1"
    · simp [h2, supportedTokens]
    · by_cases h3 : algoToken = "MD5"
      · simp [h3, supportedTokens]
      · simp [h1, h2, h3, supportedTokens]

/-- The checksum test on a resource that declares a digest for an algorithm,
with the archive path resolved and the file read. -/
theorem testLocalArchiveChecksum_of_declares (w : World) (r : DownloadResource)
    (downloadDir path : String) (algo : Algo) (digest bytes : List Nat)
    (hd : declares r algo digest) (hp : ArchivePath w r downloadDir = .ok path)
    (hr : w.readAll path = .content bytes) :
    TestLocalArchiveChecksum w r downloadDir = .ok (decide (w.digest algo bytes = digest)) := by
  obtain ⟨hexDigits, hc, hx⟩ := hd
  have hs : strings.SplitN2 r.Checksum ':' = [algo.token, hexDigits] := by
    rw [hc]
    exact strings.splitN2_append algo.token hexDigits ':' (token_no_colon algo)
  unfold TestLocalArchiveChecksum
  rw [hs]
  simp only [hx]
  rw [(switch_eq_some_iff algo.token algo).2 rfl]
  simp only [hp, hr]

/-- A successful checksum test means the declared checksum matches. -/
theorem testLocalArchiveChecksum_true (w : World) (r : DownloadResource) (downloadDir : String)
    (h : TestLocalArchiveChecksum w r downloadDir = .ok true) :
    checksumMatches w r downloadDir := by
  unfold TestLocalArchiveChecksum at h
  split at h
  · rename_i algoToken hexDigits hs
    obtain ⟨hc, _, _⟩ := strings.splitN2_pair _ _ _ _ hs
    split at h
    · cases h
    · rename_i digest hx
      simp only at h
      split at h
      · cases h
      · rename_i algo ha
        split at h
        · cases h
        · rename_i filePath hp
          split at h
          · cases h
          · cases h
          · rename_i bytes hr
            simp only [Except.ok.injEq, decide_eq_true_eq] at h
            have hat := (switch_eq_some_iff algoToken algo).1 ha
            refine ⟨filePath, algo, digest, bytes, hp, ⟨hexDigits, ?_, hx⟩, hr, h⟩
            rw [hc, hat]
  · cases h

theorem isCached_eq (w : World) (r : DownloadResource) (downloadDir path : String)
    (hp : ArchivePath w r downloadDir = .ok path) :
    IsCached w r downloadDir = .ok (Exist w path) := by
  simp only [IsCached, hp]

/-- The integrity test succeeds exactly when the archive exists, has the
expected size and has the declared digest. -/
theorem testLocalArchiveIntegrity_true_iff (w : World) (r : DownloadResource)
    (downloadDir : String) :
    TestLocalArchiveIntegrity w r downloadDir = .ok true ↔
      archiveExists w r downloadDir ∧ sizeMatches w r downloadDir ∧
        checksumMatches w r downloadDir := by
  constructor
  · intro h
    unfold TestLocalArchiveIntegrity at h
    split at h
    · cases h
    · cases h
    · rename_i hcached
      split at h
      · cases h
      · cases h
      · rename_i hsize
        have hsum : TestLocalArchiveChecksum w r downloadDir = .ok true := by
          split at h
          · cases h
          · rename_i ok hok
            simp only [Except.ok.injEq] at h
            rw [hok, h]
        unfold TestLocalArchiveSize at hsize
        split at hsize
        · cases hsize
        · rename_i filePath hp
          split at hsize
          · rename_i fi hst
            simp only [Except.ok.injEq, decide_eq_true_eq] at hsize
            exact ⟨⟨filePath, fi, hp, hst⟩, ⟨filePath, fi, hp, hst, hsize⟩,
              testLocalArchiveChecksum_true w r downloadDir hsum⟩
          · cases hsize
          · cases hsize
  · rintro ⟨_, ⟨path, fi, hp, hst, hsz⟩, ⟨path', algo, digest, bytes, hp', hd, hr, hdig⟩⟩
    have hpp : path' = path := by
      rw [hp] at hp'
      exact (Except.ok.inj hp').symm
    subst hpp
    have h1 : IsCached w r downloadDir = .ok true := by
      rw [isCached_eq w r downloadDir path' hp]
      simp only [Exist, hst]
    have h2 : TestLocalArchiveSize w r downloadDir = .ok true := by
      simp only [TestLocalArchiveSize, hp, hst, hsz, decide_True]
    have h3 : TestLocalArchiveChecksum w r downloadDir = .ok true := by
      rw [testLocalArchiveChecksum_of_declares w r downloadDir path' algo digest bytes hd hp hr]
      simp only [hdig, decide_True]
    unfold TestLocalArchiveIntegrity
    rw [h1]
    simp only
    rw [h2]
    simp only
    rw [h3]

theorem requestTransfer_not_nil (w : World) (r : DownloadResource) (path : String)
    (effects : List Effect) :
    ¬ ((requestTransfer w r path effects).downloader = none ∧
        (requestTransfer w r path effects).err = none) := by
  unfold requestTransfer
  cases w.startDownload path r.URL <;> simp

/-- `Download` returns a nil downloader and a nil error only through its
cached branch. -/
theorem download_nil_iff (w : World) (r : DownloadResource) (downloadDir : String) :
    ((Download w r downloadDir).downloader = none ∧ (Download w r downloadDir).err = none) ↔
      TestLocalArchiveIntegrity w r downloadDir = .ok true := by
  unfold Download
  constructor
  · intro h
    split at h
    · simp at h
    · rename_i hi
      exact hi
    · split at h
      · simp at h
      · split at h
        · exact absurd h (requestTransfer_not_nil _ _ _ _)
        · split at h
          · split at h
            · simp at h
            · exact absurd h (requestTransfer_not_nil _ _ _ _)
          · exact absurd h (requestTransfer_not_nil _ _ _ _)
        · simp at h
  · intro h
    rw [h]
    simp

end resources.DownloadResource

/-! ### Download integrity: the claims -/

open resources resources.DownloadResource ResourceSpec in
/-- C4: `Download` returns a nil downloader with a nil error, having issued no
transfer and touched no file, exactly when the cached archive exists, has the
expected size and has the declared digest; `TestLocalArchiveIntegrity` is the
conjunction of these three checks and answers false without error as soon as
the archive is absent or its size differs, whatever the checksum string. -/
theorem download_nil_iff_archive_intact (w : World) (r : DownloadResource)
    (downloadDir : String) :
    (((Download w r downloadDir).downloader = none ∧ (Download w r downloadDir).err = none) ↔
      archiveExists w r downloadDir ∧ sizeMatches w r downloadDir ∧
        checksumMatches w r downloadDir) ∧
    (Download w r downloadDir = { downloader := none, err := none, effects := [] } ↔
      archiveExists w r downloadDir ∧ sizeMatches w r downloadDir ∧
        checksumMatches w r downloadDir) ∧
    (TestLocalArchiveIntegrity w r downloadDir = .ok true ↔
      archiveExists w r downloadDir ∧ sizeMatches w r downloadDir ∧
        checksumMatches w r downloadDir) ∧
    (∀ path, ArchivePath w r downloadDir = .ok path → (∀ fi, w.stat path ≠ .info fi) →
      TestLocalArchiveIntegrity w r downloadDir = .ok false) ∧
    (∀ path fi, ArchivePath w r downloadDir = .ok path → w.stat path = .info fi →
      fi.Size ≠ r.Size → TestLocalArchiveIntegrity w r downloadDir = .ok false) := by
  refine ⟨?_, ?_, testLocalArchiveIntegrity_true_iff w r downloadDir, ?_, ?_⟩
  · rw [download_nil_iff, testLocalArchiveIntegrity_true_iff]
  · rw [← testLocalArchiveIntegrity_true_iff, ← download_nil_iff]
    constructor
    · intro h
      rw [h]
      exact ⟨rfl, rfl⟩
    · intro h
      have hi := (download_nil_iff w r downloadDir).1 h
      unfold Download
      rw [hi]
  · intro path hp hst
    have hex : Exist w path = false := by
      unfold Exist
      split
      · rename_i fi hfi
        exact absurd hfi (hst fi)
      · rfl
    unfold TestLocalArchiveIntegrity
    rw [isCached_eq w r downloadDir path hp, hex]
  · intro path fi hp hst hsz
    have hex : Exist w path = true := by
      simp only [Exist, hst]
    have h2 : TestLocalArchiveSize w r downloadDir = .ok false := by
      simp only [TestLocalArchiveSize, hp, hst, hsz, decide_False]
    unfold TestLocalArchiveIntegrity
    rw [isCached_eq w r downloadDir path hp, hex]
    simp only
    rw [h2]

open resources resources.DownloadResource ResourceSpec in
/-- The sample resource is cached intact in the sample world: `Download`
returns nil twice and does nothing; with another expected size a transfer is
requested. -/
theorem download_sample :
    Download sampleWorld sampleResource "/dl" =
      { downloader := none, err := none, effects := [] } ∧
    Download sampleWorld { sampleResource with Size := 5 } "/dl" =
      { downloader := some ⟨"/dl/pkg/a.zip", "http://example.com/a.zip"⟩, err := none,
        effects := [.transferRequested "/dl/pkg/a.zip" "http://example.com/a.zip"] } := by
  constructor <;> decide

open resources resources.DownloadResource ResourceSpec in
/-- C5: with the archive path resolved and the file read, a checksum string
`ALGO:HEX` with `ALGO` one of `SHA-256`, `SHA-1`, `MD5` and `HEX` decodable makes
`TestLocalArchiveChecksum` return false without error when the digest of the
file under `ALGO` differs from the decoded `HEX`; a checksum string whose
algorithm token is none of the three makes it return an error, as for the
lower-case `sha-256` and for `SHA-999:abcd`. -/
theorem testLocalArchiveChecksum_mismatch_or_unsupported (w : World) (r : DownloadResource)
    (downloadDir : String) :
    (∀ (algo : Algo) (hexDigits : String) (digest : List Nat) (path : String) (bytes : List Nat),
      r.Checksum = algo.token ++ ":" ++ hexDigits → hex.DecodeString hexDigits = .ok digest →
      ArchivePath w r downloadDir = .ok path → w.readAll path = .content bytes →
      w.digest algo bytes ≠ digest → TestLocalArchiveChecksum w r downloadDir = .ok false) ∧
    (algorithmToken r.Checksum ∉ supportedTokens →
      ∃ e, TestLocalArchiveChecksum w r downloadDir = .error e) ∧
    (∀ hexDigits : String, r.Checksum = "sha-256" ++ ":" ++ hexDigits →
      ∃ e, TestLocalArchiveChecksum w r downloadDir = .error e) ∧
    (r.Checksum = "SHA-999:abcd" →
      TestLocalArchiveChecksum w r downloadDir = .error (.unsupportedHashAlgorithm "SHA-999")) := by
  have hunsupported : algorithmToken r.Checksum ∉ supportedTokens →
      ∃ e, TestLocalArchiveChecksum w r downloadDir = .error e := by
    intro hn
    unfold TestLocalArchiveChecksum
    split
    · rename_i algoToken hexDigits hs
      obtain ⟨_, _, hf⟩ := strings.splitN2_pair _ _ _ _ hs
      have hn' : algoToken ∉ supportedTokens := by
        unfold algorithmToken at hn
        rw [hf] at hn
        exact hn
      split
      · exact ⟨_, rfl⟩
      · simp only
        rw [(switch_eq_none_iff algoToken).2 hn']
        exact ⟨_, rfl⟩
    · exact ⟨_, rfl⟩
  refine ⟨?_, hunsupported, ?_, ?_⟩
  · intro algo hexDigits digest path bytes hc hx hp hr hne
    rw [testLocalArchiveChecksum_of_declares w r downloadDir path algo digest bytes
      ⟨hexDigits, hc, hx⟩ hp hr]
    simp only [hne, decide_False]
  · intro hexDigits hc
    apply hunsupported
    unfold algorithmToken
    rw [hc]
    have := strings.firstField_append "sha-256" hexDigits ':' (by decide)
    rw [show ("sha-256" ++ ":" ++ hexDigits) = "sha-256" ++ String.mk [':'] ++ hexDigits from rfl,
      this]
    decide
  · intro hc
    have hs : strings.SplitN2 "SHA-999:abcd" ':' = ["SHA-999", "abcd"] := by decide
    have hx : hex.DecodeString "abcd" = .ok [171, 205] := by rfl
    unfold TestLocalArchiveChecksum
    rw [hc, hs]
    simp only [hx]
    rfl


/-! ### Lemmas on the staleness decision -/

namespace strings

/-- A string ends with a colon and is `o` without it exactly when it is `o`
followed by a colon. -/
theorem hasSuffix_colon_iff (s o : String) :
    (HasSuffix s ":" = true ∧ dropLast s 1 = o) ↔ s = o ++ ":" := by
  constructor
  · rintro ⟨hs, hd⟩
    unfold HasSuffix at hs
    have hcolon : (":" : String).data.reverse = [':'] := rfl
    rw [hcolon] at hs
    cases hr : s.data.reverse with
    | nil =>
      rw [hr] at hs
      simp [List.isPrefixOf] at hs
    | cons c t =>
      rw [hr] at hs
      simp only [List.isPrefixOf, Bool.and_true, beq_iff_eq] at hs
      subst hs
      have hdata : s.data = t.reverse ++ [':'] := by
        have := congrArg List.reverse hr
        simpa using this
      apply String.ext
      rw [← hd]
      unfold dropLast
      rw [String.data_append, hdata]
      simp
  · intro h
    subst h
    have hdata : (o ++ ":").data = o.data ++ [':'] := by
      rw [String.data_append]
    constructor
    · unfold HasSuffix
      rw [hdata]
      have hcolon : (":" : String).data.reverse = [':'] := rfl
      rw [hcolon]
      simp [List.isPrefixOf]
    · unfold dropLast
      rw [hdata]
      simp

end strings

namespace builder_utils

open BuilderSpec

theorem dependenciesUpToDate_iff (env : Env) (objectModTime : Nat) (rows : List String) :
    dependenciesUpToDate env objectModTime rows = true ↔
      ∀ row ∈ rows, ∃ fi, env.stat row = .info fi ∧ ¬ fi.ModTime > objectModTime := by
  induction rows with
  | nil => simp [dependenciesUpToDate]
  | cons row rest ih =>
    unfold dependenciesUpToDate
    cases hst : env.stat row with
    | failed err =>
      constructor
      · intro h
        cases h
      · intro h
        obtain ⟨fi, hfi, _⟩ := h row (List.mem_cons_self _ _)
        rw [hst] at hfi
        cases hfi
    | notExist err =>
      constructor
      · intro h
        cases h
      · intro h
        obtain ⟨fi, hfi, _⟩ := h row (List.mem_cons_self _ _)
        rw [hst] at hfi
        cases hfi
    | info fi =>
      simp only
      by_cases hnew : fi.ModTime > objectModTime
      · rw [if_pos hnew]
        constructor
        · intro h
          cases h
        · intro h
          obtain ⟨fi', hfi, hn⟩ := h row (List.mem_cons_self _ _)
          rw [hst] at hfi
          cases hfi
          exact absurd hnew hn
      · rw [if_neg hnew, ih]
        constructor
        · intro h x hx
          rcases List.mem_cons.1 hx with e | hx'
          · subst e
            exact ⟨fi, hst, hnew⟩
          · exact h x hx'
        · intro h x hx
          exact h x (List.mem_cons_of_mem _ hx)

/-- The header test of `ObjFileIsUpToDate`. -/
theorem header_test (firstRow objectFile : String) :
    ((!strings.HasSuffix firstRow ":") = false ∧
      (strings.dropLast firstRow 1 != objectFile) = false) ↔ firstRow = objectFile ++ ":" := by
  rw [← strings.hasSuffix_colon_iff]
  simp

/-- The run of `ObjFileIsUpToDate` once the three files are stat-ed and the
dependency file is read. -/
theorem objFileIsUpToDate_of_read (env : Env) (sourceFile objectFile dependencyFile : String)
    (src obj dep : os.FileInfo) (lines : List String)
    (hs : env.stat (env.clean sourceFile) = .info src)
    (ho : env.stat (env.clean objectFile) = .info obj)
    (hd : env.stat (env.clean dependencyFile) = .info dep)
    (hr : env.readFileAsLines (env.clean dependencyFile) = .ok lines) :
    ObjFileIsUpToDate env sourceFile (some objectFile) (some dependencyFile) =
      .ok (decide (¬ src.ModTime > obj.ModTime) && decide (¬ src.ModTime > dep.ModTime) &&
        (match dependencyRows env lines with
          | [] => true
          | firstRow :: rows =>
            decide (firstRow = env.clean objectFile ++ ":") &&
              dependenciesUpToDate env obj.ModTime rows)) := by
  unfold ObjFileIsUpToDate
  simp only [hs, ho, hd, hr]
  by_cases h1 : src.ModTime > obj.ModTime
  · simp [h1]
  · by_cases h2 : src.ModTime > dep.ModTime
    · simp [h1, h2]
    · simp only [h1, h2, if_false, not_false_eq_true, decide_True, Bool.true_and]
      cases hrows : dependencyRows env lines with
      | nil => rfl
      | cons firstRow rows =>
        simp only
        by_cases hh : firstRow = env.clean objectFile ++ ":"
        · obtain ⟨t1, t2⟩ := (header_test firstRow (env.clean objectFile)).2 hh
          rw [t1, t2]
          simp only [Bool.false_eq_true, if_false, decide_eq_true hh, Bool.true_and]
        · have hn : ¬ ((!strings.HasSuffix firstRow ":") = false ∧
              (strings.dropLast firstRow 1 != env.clean objectFile) = false) :=
            fun h => hh ((header_test firstRow (env.clean objectFile)).1 h)
          simp only [decide_eq_false hh, Bool.false_and]
          cases hsuf : (!strings.HasSuffix firstRow ":") with
          | true => simp only [if_true]
          | false =>
            cases hne : (strings.dropLast firstRow 1 != env.clean objectFile) with
            | true => simp only [Bool.false_eq_true, if_false, if_true]
            | false => exact absurd ⟨hsuf, hne⟩ hn

end builder_utils

/-! ### The staleness decision: the claims -/

open builder_utils BuilderSpec in
/-- C6, refuted as stated: in `staleEnv` every condition of the claim holds
(the object exists, the dependency file is not older than the source, names
the object and lists only an old header) and `ObjFileIsUpToDate` returns false
because the source is newer than the object; in `emptyDepEnv` the dependency
file has no non-empty line, so no first line names the object, and
`ObjFileIsUpToDate` returns true. -/
theorem objFileIsUpToDate_spec_counterexample :
    (upToDate staleEnv "a.c" "a.o" "a.d" = true ∧
      ObjFileIsUpToDate staleEnv "a.c" (some "a.o") (some "a.d") = .ok false) ∧
    (upToDate emptyDepEnv "a.c" "a.o" "a.d" = false ∧
      ObjFileIsUpToDate emptyDepEnv "a.c" (some "a.o") (some "a.d") = .ok true) :=
  ⟨⟨rfl, rfl⟩, ⟨rfl, rfl⟩⟩

open builder_utils BuilderSpec in
/-- C6, amended: with an existing source, `ObjFileIsUpToDate` returns true
exactly when the object file exists, the dependency file exists, the source is
newer neither than the object nor than the dependency file, the dependency file
can be read, and either it has no non-empty line or its first non-empty
(trimmed, unescaped) line is the object path followed by a colon and every
dependency path listed after it exists and is not newer than the object. -/
theorem objFileIsUpToDate_true_iff (env : Env) (sourceFile objectFile dependencyFile : String)
    (src : os.FileInfo) (hs : env.stat (env.clean sourceFile) = .info src) :
    ObjFileIsUpToDate env sourceFile (some objectFile) (some dependencyFile) = .ok true ↔
      ∃ obj dep lines, env.stat (env.clean objectFile) = .info obj ∧
        env.stat (env.clean dependencyFile) = .info dep ∧
        ¬ src.ModTime > obj.ModTime ∧ ¬ src.ModTime > dep.ModTime ∧
        env.readFileAsLines (env.clean dependencyFile) = .ok lines ∧
        (dependencyRows env lines = [] ∨
          ∃ listed, dependencyRows env lines = (env.clean objectFile ++ ":") :: listed ∧
            ∀ x ∈ listed, ∃ fi, env.stat x = .info fi ∧ ¬ fi.ModTime > obj.ModTime) := by
  constructor
  · intro h
    cases ho : env.stat (env.clean objectFile) with
    | notExist e => simp [ObjFileIsUpToDate, hs, ho] at h
    | failed e => simp [ObjFileIsUpToDate, hs, ho] at h
    | info obj =>
      cases hd : env.stat (env.clean dependencyFile) with
      | notExist e => simp [ObjFileIsUpToDate, hs, ho, hd] at h
      | failed e => simp [ObjFileIsUpToDate, hs, ho, hd] at h
      | info dep =>
        cases hr : env.readFileAsLines (env.clean dependencyFile) with
        | error e =>
          unfold ObjFileIsUpToDate at h
          simp only [hs, ho, hd, hr] at h
          split at h
          · cases h
          · split at h <;> cases h
        | ok lines =>
          rw [objFileIsUpToDate_of_read env sourceFile objectFile dependencyFile src obj dep
            lines hs ho hd hr] at h
          simp only [Except.ok.injEq, Bool.and_eq_true, decide_eq_true_eq] at h
          obtain ⟨⟨h1, h2⟩, h3⟩ := h
          refine ⟨obj, dep, lines, rfl, rfl, h1, h2, rfl, ?_⟩
          cases hrows : dependencyRows env lines with
          | nil => exact Or.inl rfl
          | cons firstRow rows =>
            rw [hrows] at h3
            simp only [Bool.and_eq_true, decide_eq_true_eq] at h3
            right
            refine ⟨rows, by rw [h3.1], ?_⟩
            exact (dependenciesUpToDate_iff env obj.ModTime rows).1 h3.2
  · rintro ⟨obj, dep, lines, ho, hd, h1, h2, hr, hrows⟩
    rw [objFileIsUpToDate_of_read env sourceFile objectFile dependencyFile src obj dep
      lines hs ho hd hr]
    simp only [h1, h2, not_false_eq_true, decide_True, Bool.true_and, Except.ok.injEq]
    rcases hrows with hnil | ⟨listed, hl, hall⟩
    · rw [hnil]
    · rw [hl]
      simp only [decide_True, Bool.true_and]
      exact (dependenciesUpToDate_iff env obj.ModTime listed).2 hall

open builder_utils BuilderSpec in
/-- C6 amended, at the up-to-date object of `freshEnv`. -/
theorem objFileIsUpToDate_true_iff_witness :
    freshEnv.stat (freshEnv.clean "a.c") = .info ⟨0, 1⟩ ∧
    (ObjFileIsUpToDate freshEnv "a.c" (some "a.o") (some "a.d") = .ok true ↔
      ∃ obj dep lines, freshEnv.stat (freshEnv.clean "a.o") = .info obj ∧
        freshEnv.stat (freshEnv.clean "a.d") = .info dep ∧
        ¬ (⟨0, 1⟩ : os.FileInfo).ModTime > obj.ModTime ∧
        ¬ (⟨0, 1⟩ : os.FileInfo).ModTime > dep.ModTime ∧
        freshEnv.readFileAsLines (freshEnv.clean "a.d") = .ok lines ∧
        (dependencyRows freshEnv lines = [] ∨
          ∃ listed, dependencyRows freshEnv lines = (freshEnv.clean "a.o" ++ ":") :: listed ∧
            ∀ x ∈ listed, ∃ fi, freshEnv.stat x = .info fi ∧ ¬ fi.ModTime > obj.ModTime)) :=
  ⟨rfl, objFileIsUpToDate_true_iff freshEnv "a.c" "a.o" "a.d" ⟨0, 1⟩ rfl⟩

open builder_utils BuilderSpec in
/-- C7, refuted as stated: every file exists and can be read, the header `a.h`
is newer than the object, and the dependency file holds blank lines only, so
that its first non-empty line is not the object path followed by a colon (it
has none); `ObjFileIsUpToDate` returns true with no error. -/
theorem objFileIsUpToDate_no_header_counterexample :
    (sampleEnv [("a.c", 1), ("a.h", 9), ("a.d", 2), ("a.o", 3)] []
      [("a.d", ["", "  "])]).readFileAsLines "a.d" = .ok ["", "  "] ∧
    (dependencyRows
      (sampleEnv [("a.c", 1), ("a.h", 9), ("a.d", 2), ("a.o", 3)] [] [("a.d", ["", "  "])])
      ["", "  "]).head? ≠ some "a.o:" ∧
    upToDate
      (sampleEnv [("a.c", 1), ("a.h", 9), ("a.d", 2), ("a.o", 3)] [] [("a.d", ["", "  "])])
      "a.c" "a.o" "a.d" = false ∧
    ObjFileIsUpToDate
      (sampleEnv [("a.c", 1), ("a.h", 9), ("a.d", 2), ("a.o", 3)] [] [("a.d", ["", "  "])])
      "a.c" (some "a.o") (some "a.d") = .ok true :=
  ⟨rfl, by decide, rfl, rfl⟩

open builder_utils BuilderSpec in
/-- C7, amended: when the source exists, the object and the dependency file
are each either absent or stat-able, and an existing dependency file can be
read, then `ObjFileIsUpToDate` returns false with no error whenever the object
is missing; or the dependency file is missing or older than the source; or the
dependency file has a non-empty line and the first one is not the object path
followed by a colon; or a dependency listed after that line is missing or newer
than the object. -/
theorem objFileIsUpToDate_false_of_violation (env : Env)
    (sourceFile objectFile dependencyFile : String) (src : os.FileInfo)
    (hs : env.stat (env.clean sourceFile) = .info src)
    (hobj : ∀ e, env.stat (env.clean objectFile) ≠ .failed e)
    (hdep : ∀ e, env.stat (env.clean dependencyFile) ≠ .failed e)
    (hread : ∀ fi, env.stat (env.clean dependencyFile) = .info fi →
      ∃ lines, env.readFileAsLines (env.clean dependencyFile) = .ok lines)
    (hviolation :
      (∃ e, env.stat (env.clean objectFile) = .notExist e) ∨
      (∃ e, env.stat (env.clean dependencyFile) = .notExist e) ∨
      (∃ dep, env.stat (env.clean dependencyFile) = .info dep ∧ dep.ModTime < src.ModTime) ∨
      (∃ lines first rest, env.readFileAsLines (env.clean dependencyFile) = .ok lines ∧
        dependencyRows env lines = first :: rest ∧ first ≠ env.clean objectFile ++ ":") ∨
      (∃ lines first rest x, env.readFileAsLines (env.clean dependencyFile) = .ok lines ∧
        dependencyRows env lines = first :: rest ∧ x ∈ rest ∧
        ((∃ e, env.stat x = .notExist e) ∨
          ∃ fi obj, env.stat x = .info fi ∧ env.stat (env.clean objectFile) = .info obj ∧
            fi.ModTime > obj.ModTime))) :
    ObjFileIsUpToDate env sourceFile (some objectFile) (some dependencyFile) = .ok false := by
  cases ho : env.stat (env.clean objectFile) with
  | failed e => exact absurd ho (hobj e)
  | notExist e => simp [ObjFileIsUpToDate, hs, ho]
  | info obj =>
    cases hd : env.stat (env.clean dependencyFile) with
    | failed e => exact absurd hd (hdep e)
    | notExist e => simp [ObjFileIsUpToDate, hs, ho, hd]
    | info dep =>
      obtain ⟨lines, hr⟩ := hread dep hd
      rw [objFileIsUpToDate_of_read env sourceFile objectFile dependencyFile src obj dep
        lines hs ho hd hr]
      congr 1
      rw [Bool.eq_false_iff]
      intro hb
      simp only [Bool.and_eq_true, decide_eq_true_eq] at hb
      obtain ⟨⟨h1, h2⟩, h3⟩ := hb
      rcases hviolation with ⟨e, he⟩ | ⟨e, he⟩ | ⟨dep', hd', hlt⟩ | ⟨lines', first, rest, hr', hrows, hne⟩ |
        ⟨lines', first, rest, x, hr', hrows, hx, hbad⟩
      · rw [ho] at he
        cases he
      · rw [hd] at he
        cases he
      · rw [hd] at hd'
        cases hd'
        exact h2 hlt
      · rw [hr] at hr'
        cases hr'
        rw [hrows] at h3
        simp only [Bool.and_eq_true, decide_eq_true_eq] at h3
        exact hne h3.1
      · rw [hr] at hr'
        cases hr'
        rw [hrows] at h3
        simp only [Bool.and_eq_true, decide_eq_true_eq] at h3
        obtain ⟨fi, hfi, hnew⟩ := (dependenciesUpToDate_iff env obj.ModTime rest).1 h3.2 x hx
        rcases hbad with ⟨e, he⟩ | ⟨fi', obj', hfi', ho', hgt⟩
        · rw [hfi] at he
          cases he
        · rw [hfi] at hfi'
          cases hfi'
          rw [ho] at ho'
          cases ho'
          exact hnew hgt

open builder_utils BuilderSpec in
/-- C7 amended, at an object whose listed header is newer than it. -/
theorem objFileIsUpToDate_false_of_violation_witness :
    ObjFileIsUpToDate
      (sampleEnv [("a.c", 1), ("a.h", 9), ("a.d", 2), ("a.o", 3)] []
        [("a.d", ["a.o: \\", " a.c \\", " a.h"])])
      "a.c" (some "a.o") (some "a.d") = .ok false :=
  objFileIsUpToDate_false_of_violation
    (sampleEnv [("a.c", 1), ("a.h", 9), ("a.d", 2), ("a.o", 3)] []
      [("a.d", ["a.o: \\", " a.c \\", " a.h"])])
    "a.c" "a.o" "a.d" ⟨0, 1⟩ rfl
    (by intro e h; cases h)
    (by intro e h; cases h)
    (by intro fi _; exact ⟨_, rfl⟩)
    (Or.inr (Or.inr (Or.inr (Or.inr
      ⟨["a.o: \\", " a.c \\", " a.h"], "a.o:", ["a.c", "a.h"], "a.h", rfl, rfl, by decide,
        Or.inr ⟨⟨0, 9⟩, ⟨0, 3⟩, rfl, rfl, by decide⟩⟩))))

open builder_utils BuilderSpec in
/-- C8, refuted as stated: a dependency file that exists and cannot be read,
and an object that exists and cannot be stat-ed, each make `ObjFileIsUpToDate`
return the error, not a nil error. -/
theorem objFileIsUpToDate_error_counterexample :
    (unreadableDepEnv.stat (unreadableDepEnv.clean "a.d") = .info ⟨0, 2⟩ ∧
      unreadableDepEnv.readFileAsLines (unreadableDepEnv.clean "a.d") =
        .error "permission denied" ∧
      ObjFileIsUpToDate unreadableDepEnv "a.c" (some "a.o") (some "a.d") =
        .error (.wrapped "permission denied")) ∧
    (brokenObjectEnv.stat (brokenObjectEnv.clean "a.o") = .failed "permission denied" ∧
      ObjFileIsUpToDate brokenObjectEnv "a.c" (some "a.o") (some "a.d") =
        .error (.wrapped "permission denied")) :=
  ⟨⟨rfl, rfl, rfl⟩, ⟨rfl, rfl⟩⟩

open builder_utils BuilderSpec in
/-- C8, amended: with an existing source, `ObjFileIsUpToDate` returns false
with a nil error when the object file or the dependency file does not exist,
and when a dependency listed in a readable dependency file cannot be stat-ed
for whatever reason; a stat failure of the object or of the dependency file
other than non-existence, and a failure to read the dependency file once the
time checks are passed, is returned as the error. -/
theorem objFileIsUpToDate_rebuild_or_error (env : Env)
    (sourceFile objectFile dependencyFile : String) (src : os.FileInfo)
    (hs : env.stat (env.clean sourceFile) = .info src) :
    ((∃ e, env.stat (env.clean objectFile) = .notExist e) →
      ObjFileIsUpToDate env sourceFile (some objectFile) (some dependencyFile) = .ok false) ∧
    (∀ obj, env.stat (env.clean objectFile) = .info obj →
      (∃ e, env.stat (env.clean dependencyFile) = .notExist e) →
      ObjFileIsUpToDate env sourceFile (some objectFile) (some dependencyFile) = .ok false) ∧
    (∀ obj dep lines first rest x, env.stat (env.clean objectFile) = .info obj →
      env.stat (env.clean dependencyFile) = .info dep →
      env.readFileAsLines (env.clean dependencyFile) = .ok lines →
      dependencyRows env lines = first :: rest → x ∈ rest → (∀ fi, env.stat x ≠ .info fi) →
      ObjFileIsUpToDate env sourceFile (some objectFile) (some dependencyFile) = .ok false) ∧
    (∀ e, env.stat (env.clean objectFile) = .failed e →
      ObjFileIsUpToDate env sourceFile (some objectFile) (some dependencyFile) =
        .error (.wrapped e)) ∧
    (∀ obj e, env.stat (env.clean objectFile) = .info obj →
      env.stat (env.clean dependencyFile) = .failed e →
      ObjFileIsUpToDate env sourceFile (some objectFile) (some dependencyFile) =
        .error (.wrapped e)) ∧
    (∀ obj dep e, env.stat (env.clean objectFile) = .info obj →
      env.stat (env.clean dependencyFile) = .info dep →
      ¬ src.ModTime > obj.ModTime → ¬ src.ModTime > dep.ModTime →
      env.readFileAsLines (env.clean dependencyFile) = .error e →
      ObjFileIsUpToDate env sourceFile (some objectFile) (some dependencyFile) =
        .error (.wrapped e)) := by
  refine ⟨?_, ?_, ?_, ?_, ?_, ?_⟩
  · rintro ⟨e, ho⟩
    simp [ObjFileIsUpToDate, hs, ho]
  · rintro obj ho ⟨e, hd⟩
    simp [ObjFileIsUpToDate, hs, ho, hd]
  · intro obj dep lines first rest x ho hd hr hrows hx hbad
    rw [objFileIsUpToDate_of_read env sourceFile objectFile dependencyFile src obj dep
      lines hs ho hd hr]
    congr 1
    rw [Bool.eq_false_iff]
    intro hb
    simp only [Bool.and_eq_true, decide_eq_true_eq] at hb
    obtain ⟨_, h3⟩ := hb
    rw [hrows] at h3
    simp only [Bool.and_eq_true, decide_eq_true_eq] at h3
    obtain ⟨fi, hfi, _⟩ := (dependenciesUpToDate_iff env obj.ModTime rest).1 h3.2 x hx
    exact hbad fi hfi
  · intro e ho
    simp [ObjFileIsUpToDate, hs, ho]
  · intro obj e ho hd
    simp [ObjFileIsUpToDate, hs, ho, hd]
  · intro obj dep e ho hd h1 h2 hr
    unfold ObjFileIsUpToDate
    simp only [hs, ho, hd, hr, h1, h2, if_false]

open builder_utils BuilderSpec in
/-- C8 amended, at the unreadable dependency file of `unreadableDepEnv`. -/
theorem objFileIsUpToDate_rebuild_or_error_witness :
    unreadableDepEnv.stat (unreadableDepEnv.clean "a.c") = .info ⟨0, 1⟩ ∧
    ObjFileIsUpToDate unreadableDepEnv "a.c" (some "a.o") (some "a.d") =
      .error (.wrapped "permission denied") :=
  ⟨rfl, (objFileIsUpToDate_rebuild_or_error unreadableDepEnv "a.c" "a.o" "a.d" ⟨0, 1⟩
    rfl).2.2.2.2.2 ⟨0, 3⟩ ⟨0, 2⟩ "permission denied" rfl rfl (by decide) (by decide) rfl⟩

/-! ### Lemmas on archiving -/

namespace builder_utils

open BuilderSpec properties

theorem rebuildArchive_iff (env : Env) (archiveModTime : Nat) (objectFiles : List String) :
    rebuildArchive env archiveModTime objectFiles = true ↔
      someObjectNewer env archiveModTime objectFiles := by
  unfold someObjectNewer
  induction objectFiles with
  | nil => simp [rebuildArchive]
  | cons o rest ih =>
    unfold rebuildArchive
    cases hst : env.stat o with
    | info fi =>
      simp only
      by_cases hnew : fi.ModTime > archiveModTime
      · rw [if_pos hnew]
        refine ⟨fun _ => ⟨o, List.mem_cons_self _ _, ?_⟩, fun _ => rfl⟩
        intro fi' hfi'
        rw [hst] at hfi'
        cases hfi'
        exact hnew
      · rw [if_neg hnew, ih]
        constructor
        · rintro ⟨x, hx, hall⟩
          exact ⟨x, List.mem_cons_of_mem _ hx, hall⟩
        · rintro ⟨x, hx, hall⟩
          rcases List.mem_cons.1 hx with e | hx'
          · subst e
            exact absurd (hall fi hst) hnew
          · exact ⟨x, hx', hall⟩
    | notExist e =>
      refine ⟨fun _ => ⟨o, List.mem_cons_self _ _, ?_⟩, fun _ => rfl⟩
      intro fi hfi
      rw [hst] at hfi
      cases hfi
    | failed e =>
      refine ⟨fun _ => ⟨o, List.mem_cons_self _ _, ?_⟩, fun _ => rfl⟩
      intro fi hfi
      rw [hst] at hfi
      cases hfi

theorem execRecipe_of_succeeds (env : Env) (buildProperties : Map) (recipe : String)
    (h : recipeSucceeds env buildProperties recipe) :
    ExecRecipe env buildProperties recipe false = (none, [.executed recipe buildProperties]) := by
  obtain ⟨command, hp, he⟩ := h
  simp only [ExecRecipe, hp, he, Option.map_none']

theorem archiveLoop_of_succeeds (env : Env) (archiveFilePath : String) (buildProperties : Map)
    (objectFiles : List String)
    (h : ∀ o ∈ objectFiles, recipeSucceeds env
      (archiveProperties env archiveFilePath buildProperties o) env.constants.RECIPE_AR_PATTERN) :
    archiveLoop env archiveFilePath buildProperties objectFiles =
      (none, objectFiles.map fun o => .executed env.constants.RECIPE_AR_PATTERN
        (archiveProperties env archiveFilePath buildProperties o)) := by
  induction objectFiles with
  | nil => rfl
  | cons o rest ih =>
    unfold archiveLoop
    rw [execRecipe_of_succeeds env _ _ (h o (List.mem_cons_self _ _))]
    simp only
    rw [ih (fun x hx => h x (List.mem_cons_of_mem _ hx))]
    rfl

end builder_utils

/-! ### Archiving: the claims -/

open builder_utils BuilderSpec in
/-- C9, refuted as stated: the archive `build/core.a` exists and the only
candidate object `a.o` does not exist, so it is not newer than the archive;
`ArchiveCompiledFiles` removes the archive and runs the archive recipe. -/
theorem archiveCompiledFiles_missing_object_counterexample :
    archiveEnv.stat (archiveEnv.join "build" "core.a") = .info ⟨0, 10⟩ ∧
    ¬ someObjectStrictlyNewer archiveEnv 10 ["a.o"] ∧
    ArchiveCompiledFiles archiveEnv "build" "core.a" ["a.o"] archiveRecipeProperties =
      (.ok "build/core.a",
        [.removed "build/core.a",
          .executed "recipe.ar.pattern"
            (archiveProperties archiveEnv "build/core.a" archiveRecipeProperties "a.o")]) := by
  refine ⟨rfl, ?_, rfl⟩
  rintro ⟨o, ho, fi, hfi, _⟩
  simp only [List.mem_singleton] at ho
  subst ho
  have hstat : archiveEnv.stat "a.o" = .notExist "no such file or directory" := rfl
  rw [hstat] at hfi
  cases hfi

open builder_utils BuilderSpec in
/-- C9, amended: `ArchiveCompiledFiles` reuses the archive, running no recipe
and touching nothing, exactly when the archive file can be stat-ed and every
candidate object can be stat-ed and is not newer than it. Otherwise it
rebuilds: an existing archive is removed first (a failed removal is returned
as the error and nothing is run), then the archive recipe is run once per
candidate object, in list order, as long as every run succeeds. -/
theorem archiveCompiledFiles_reuse_or_rebuild (env : Env) (buildPath archiveFile : String)
    (objectFiles : List String) (buildProperties : properties.Map) :
    (∀ fi, env.stat (env.join buildPath archiveFile) = .info fi →
      ¬ someObjectNewer env fi.ModTime objectFiles →
      ArchiveCompiledFiles env buildPath archiveFile objectFiles buildProperties =
        (.ok (env.join buildPath archiveFile), [])) ∧
    (∀ fi, env.stat (env.join buildPath archiveFile) = .info fi →
      someObjectNewer env fi.ModTime objectFiles →
      env.remove (env.join buildPath archiveFile) = none →
      (∀ o ∈ objectFiles, recipeSucceeds env
        (archiveProperties env (env.join buildPath archiveFile) buildProperties o)
        env.constants.RECIPE_AR_PATTERN) →
      ArchiveCompiledFiles env buildPath archiveFile objectFiles buildProperties =
        (.ok (env.join buildPath archiveFile),
          .removed (env.join buildPath archiveFile) ::
            objectFiles.map fun o => .executed env.constants.RECIPE_AR_PATTERN
              (archiveProperties env (env.join buildPath archiveFile) buildProperties o))) ∧
    (∀ fi e, env.stat (env.join buildPath archiveFile) = .info fi →
      someObjectNewer env fi.ModTime objectFiles →
      env.remove (env.join buildPath archiveFile) = some e →
      ArchiveCompiledFiles env buildPath archiveFile objectFiles buildProperties =
        (.error (.wrapped e), [])) ∧
    ((∀ fi, env.stat (env.join buildPath archiveFile) ≠ .info fi) →
      (∀ o ∈ objectFiles, recipeSucceeds env
        (archiveProperties env (env.join buildPath archiveFile) buildProperties o)
        env.constants.RECIPE_AR_PATTERN) →
      ArchiveCompiledFiles env buildPath archiveFile objectFiles buildProperties =
        (.ok (env.join buildPath archiveFile),
          objectFiles.map fun o => .executed env.constants.RECIPE_AR_PATTERN
            (archiveProperties env (env.join buildPath archiveFile) buildProperties o))) := by
  refine ⟨?_, ?_, ?_, ?_⟩
  · intro fi hst hno
    have hb : rebuildArchive env fi.ModTime objectFiles = false := by
      rw [Bool.eq_false_iff]
      exact fun h => hno ((rebuildArchive_iff env fi.ModTime objectFiles).1 h)
    simp only [ArchiveCompiledFiles, hst, hb, Bool.false_eq_true, if_false]
  · intro fi hst hnew hrm hall
    have hb := (rebuildArchive_iff env fi.ModTime objectFiles).2 hnew
    simp only [ArchiveCompiledFiles, hst, hb, if_true, hrm, archiveAll,
      archiveLoop_of_succeeds env _ buildProperties objectFiles hall, List.singleton_append]
  · intro fi e hst hnew hrm
    have hb := (rebuildArchive_iff env fi.ModTime objectFiles).2 hnew
    simp only [ArchiveCompiledFiles, hst, hb, if_true, hrm]
  · intro hst hall
    have hrun : ArchiveCompiledFiles env buildPath archiveFile objectFiles buildProperties =
        archiveAll env (env.join buildPath archiveFile) buildProperties objectFiles [] := by
      unfold ArchiveCompiledFiles
      cases hc : env.stat (env.join buildPath archiveFile) with
      | info fi => exact absurd hc (hst fi)
      | notExist e => simp only [hc]
      | failed e => simp only [hc]
    rw [hrun]
    simp only [archiveAll, archiveLoop_of_succeeds env _ buildProperties objectFiles hall,
      List.nil_append]


/-! ### Lemmas on the order of paths -/

namespace paths

theorem char_eq_of_toNat_eq (a b : Char) (h : a.toNat = b.toNat) : a = b := by
  apply Char.ext
  cases a with | mk va ha =>
  cases b with | mk vb hb =>
  simp only [Char.toNat] at h
  show va = vb
  cases va with | mk x =>
  cases vb with | mk y =>
  simp only [UInt32.toNat] at h
  congr
  exact BitVec.eq_of_toNat_eq h

theorem leChars_total (a b : List Char) : leChars a b = true ∨ leChars b a = true := by
  induction a generalizing b with
  | nil => exact Or.inl rfl
  | cons x xs ih =>
    cases b with
    | nil => exact Or.inr rfl
    | cons y ys =>
      simp only [leChars]
      by_cases h1 : x.toNat < y.toNat
      · simp [h1]
      · by_cases h2 : y.toNat < x.toNat
        · simp [h2]
        · simp only [h1, h2, if_false]
          exact ih ys

theorem leChars_antisymm (a b : List Char) (h1 : leChars a b = true) (h2 : leChars b a = true) :
    a = b := by
  induction a generalizing b with
  | nil =>
    cases b with
    | nil => rfl
    | cons y ys => simp [leChars] at h2
  | cons x xs ih =>
    cases b with
    | nil => simp [leChars] at h1
    | cons y ys =>
      simp only [leChars] at h1 h2
      by_cases hxy : x.toNat < y.toNat
      · have hyx : ¬ y.toNat < x.toNat := by omega
        simp [hxy, hyx] at h2
      · by_cases hyx : y.toNat < x.toNat
        · simp [hxy, hyx] at h1
        · simp only [hxy, hyx, if_false] at h1 h2
          have hc : x = y := char_eq_of_toNat_eq x y (by omega)
          rw [hc, ih ys h1 h2]

theorem leChars_trans (a b c : List Char) (h1 : leChars a b = true) (h2 : leChars b c = true) :
    leChars a c = true := by
  induction a generalizing b c with
  | nil => rfl
  | cons x xs ih =>
    cases b with
    | nil => simp [leChars] at h1
    | cons y ys =>
      cases c with
      | nil => simp [leChars] at h2
      | cons z zs =>
        simp only [leChars] at h1 h2 ⊢
        by_cases hxy : x.toNat < y.toNat
        · by_cases hyz : y.toNat < z.toNat
          · have : x.toNat < z.toNat := by omega
            simp [this]
          · by_cases hzy : z.toNat < y.toNat
            · simp [hyz, hzy] at h2
            · have : x.toNat < z.toNat := by omega
              simp [this]
        · by_cases hyx : y.toNat < x.toNat
          · simp [hxy, hyx] at h1
          · simp only [hxy, hyx, if_false] at h1
            by_cases hyz : y.toNat < z.toNat
            · have : x.toNat < z.toNat := by omega
              simp [this]
            · by_cases hzy : z.toNat < y.toNat
              · simp [hyz, hzy] at h2
              · simp only [hyz, hzy, if_false] at h2
                have e1 : ¬ x.toNat < z.toNat := by omega
                have e2 : ¬ z.toNat < x.toNat := by omega
                simp only [e1, e2, if_false]
                exact ih ys zs h1 h2

theorem le_total (a b : String) : LE a b ∨ LE b a := leChars_total a.data b.data

theorem le_trans (a b c : String) (h1 : LE a b) (h2 : LE b c) : LE a c :=
  leChars_trans a.data b.data c.data h1 h2

theorem le_antisymm (a b : String) (h1 : LE a b) (h2 : LE b a) : a = b :=
  String.ext (leChars_antisymm a.data b.data h1 h2)

/-- `PathList.Sort` gives a sorted list. -/
theorem sort_sorted (p : List String) : List.Sorted LE (PathList.Sort p) := by
  haveI : IsTotal String LE := ⟨le_total⟩
  haveI : IsTrans String LE := ⟨le_trans⟩
  exact List.sorted_insertionSort LE p

/-- `PathList.Sort` keeps the elements with their multiplicities. -/
theorem sort_perm (p : List String) : List.Perm (PathList.Sort p) p :=
  List.perm_insertionSort LE p

/-- Sorting does not depend on the order of the list sorted. -/
theorem sort_eq_of_perm (p q : List String) (h : List.Perm p q) :
    PathList.Sort p = PathList.Sort q := by
  haveI : IsAntisymm String LE := ⟨le_antisymm⟩
  exact List.eq_of_perm_of_sorted (((sort_perm p).trans h).trans (sort_perm q).symm)
    (sort_sorted p) (sort_sorted q)

end paths

/-! ### Lemmas on the worker pool -/

namespace builder_utils

open BuilderSpec properties

theorem filterMap_set_some (l : List (Option String)) (i : Nat) (a : String)
    (h : l.get? i = some none) :
    List.Perm ((l.set i (some a)).filterMap id) (a :: l.filterMap id) := by
  induction l generalizing i with
  | nil => simp at h
  | cons x xs ih =>
    cases i with
    | zero =>
      simp only [List.get?_cons_zero, Option.some.injEq] at h
      subst h
      simp
    | succ n =>
      simp only [List.get?_cons_succ] at h
      cases x with
      | none => simpa using ih n h
      | some b =>
        simp only [List.set_cons_succ, List.filterMap_cons, id_eq]
        exact ((ih n h).cons b).trans (List.Perm.swap a b _)

theorem filterMap_set_none (l : List (Option String)) (i : Nat) (a : String)
    (h : l.get? i = some (some a)) :
    List.Perm (a :: (l.set i none).filterMap id) (l.filterMap id) := by
  induction l generalizing i with
  | nil => simp at h
  | cons x xs ih =>
    cases i with
    | zero =>
      simp only [List.get?_cons_zero, Option.some.injEq] at h
      subst h
      simp
    | succ n =>
      simp only [List.get?_cons_succ] at h
      cases x with
      | none => simpa using ih n h
      | some b =>
        simp only [List.set_cons_succ, List.filterMap_cons, id_eq]
        exact (List.Perm.swap b a _).trans ((ih n h).cons b)

theorem filterMap_of_all_none (l : List (Option String)) (h : l.all Option.isNone = true) :
    l.filterMap id = [] := by
  induction l with
  | nil => rfl
  | cons x xs ih =>
    simp only [List.all_cons, Bool.and_eq_true] at h
    cases x with
    | none => simpa using ih h.2
    | some b => simp at h

/-- A successful job returns the object path the spec gives the source. -/
theorem compileFileWithRecipe_ok (env : Env) (ctx : Context) (sourcePath source buildPath : String)
    (buildProperties : Map) (includes : List String) (recipe : String) (o : String)
    (events : List Event)
    (h : compileFileWithRecipe env ctx sourcePath source buildPath buildProperties includes
      recipe = (.ok o, events)) :
    o = objectPathOf env sourcePath buildPath source := by
  unfold compileFileWithRecipe at h
  unfold objectPathOf
  cases hrel : env.relTo sourcePath source with
  | error e =>
    rw [hrel] at h
    simp at h
  | ok rel =>
    rw [hrel] at h
    simp only at h
    split at h
    · simp at h
    · split at h
      · simp at h
      · simp only [Prod.mk.injEq, Except.ok.injEq] at h
        exact h.1.symm
      · split at h
        · simp at h
        · simp only [Prod.mk.injEq, Except.ok.injEq] at h
          exact h.1.symm

/-- Every enabled step keeps the invariant. -/
theorem poolInvariant_step (job : String → Except Error String × List Event)
    (objectOf : String → String) (sources : List String)
    (hjob : ∀ x ∈ sources, ∃ events, job x = (.ok (objectOf x), events))
    (s s' : PoolState) (st : PoolStep) (hinv : PoolInvariant objectOf sources s)
    (hstep : s.step job st = some s') : PoolInvariant objectOf sources s' := by
  obtain ⟨herr, hclosed, compiled, hobj, hperm⟩ := hinv
  cases st with
  | feeder =>
    simp only [PoolState.step] at hstep
    split at hstep
    · cases hstep
    · split at hstep
      · rename_i hp
        simp only [Option.some.injEq] at hstep
        subst hstep
        exact ⟨herr, fun _ => hp, compiled, hobj, hperm⟩
      · rename_i x rest hp
        have hlen : ¬ s.errors.length > 0 := by simp [herr]
        rw [if_neg hlen] at hstep
        simp only [Option.some.injEq] at hstep
        subst hstep
        exact ⟨herr, hclosed, compiled, hobj, hperm⟩
  | receive i =>
    simp only [PoolState.step] at hstep
    split at hstep
    · cases hstep
    · split at hstep
      · rename_i source rest hp hw
        simp only [Option.some.injEq] at hstep
        subst hstep
        refine ⟨herr, ?_, compiled, hobj, ?_⟩
        · intro hc
          have := hclosed hc
          rw [hp] at this
          cases this
        · simp only
          rw [hp] at hperm
          refine List.Perm.trans ?_ hperm
          apply List.Perm.append_left
          refine ((filterMap_set_some s.workers i source hw).append_right rest).trans ?_
          simp only [List.cons_append]
          exact List.perm_middle.symm
      · cases hstep
  | finish i =>
    simp only [PoolState.step] at hstep
    split at hstep
    · rename_i source hw
      have hpermw := filterMap_set_none s.workers i source hw
      have hmem : source ∈ sources := by
        apply hperm.subset
        apply List.mem_append_right
        apply List.mem_append_left
        exact hpermw.subset (List.mem_cons_self _ _)
      obtain ⟨events, hj⟩ := hjob source hmem
      rw [hj] at hstep
      simp only [Option.some.injEq] at hstep
      subst hstep
      refine ⟨herr, hclosed, compiled ++ [source], by simp [hobj], ?_⟩
      simp only
      refine List.Perm.trans ?_ hperm
      rw [List.append_assoc]
      apply List.Perm.append_left
      simp only [List.singleton_append]
      rw [← List.cons_append]
      exact hpermw.append_right _
    · cases hstep

/-- Every run keeps the invariant. -/
theorem poolInvariant_run (job : String → Except Error String × List Event)
    (objectOf : String → String) (sources : List String)
    (hjob : ∀ x ∈ sources, ∃ events, job x = (.ok (objectOf x), events))
    (schedule : List PoolStep) (s s' : PoolState) (hinv : PoolInvariant objectOf sources s)
    (hrun : PoolState.run job s schedule = some s') : PoolInvariant objectOf sources s' := by
  induction schedule generalizing s with
  | nil =>
    simp only [PoolState.run, Option.some.injEq] at hrun
    subst hrun
    exact hinv
  | cons st rest ih =>
    simp only [PoolState.run] at hrun
    cases hs : s.step job st with
    | none => rw [hs] at hrun; cases hrun
    | some s1 =>
      rw [hs] at hrun
      exact ih s1 (poolInvariant_step job objectOf sources hjob s s1 st hinv hs) hrun

/-- At the return of the function the object files are the object paths of the
sources, in some order. -/
theorem poolInvariant_finished (objectOf : String → String) (sources : List String)
    (s : PoolState) (hinv : PoolInvariant objectOf sources s) (hfin : s.finished = true) :
    s.result = .ok (paths.PathList.Sort (sources.map objectOf)) := by
  obtain ⟨herr, hclosed, compiled, hobj, hperm⟩ := hinv
  simp only [PoolState.finished, Bool.and_eq_true] at hfin
  rw [hclosed hfin.1, filterMap_of_all_none s.workers hfin.2] at hperm
  simp only [List.append_nil] at hperm
  unfold PoolState.result
  rw [herr, hobj]
  simp only
  congr 1
  exact paths.sort_eq_of_perm _ _ (hperm.map objectOf)

end builder_utils

namespace builder_utils

open BuilderSpec properties

theorem sequentialSchedule_cons (x : String) (rest : List String) :
    sequentialSchedule (x :: rest) =
      PoolStep.feeder :: PoolStep.receive 0 :: PoolStep.finish 0 :: sequentialSchedule rest := by
  simp [sequentialSchedule]

/-- With a first worker, the sequential schedule is a complete run when every
job succeeds. -/
theorem sequentialSchedule_finishes (job : String → Except Error String × List Event)
    (pending : List String) (ws : List (Option String)) (hws : ws.all Option.isNone = true)
    (hjob : ∀ x ∈ pending, ∃ o events, job x = (.ok o, events))
    (objectFiles : List String) (events : List Event) :
    ∃ s', PoolState.run job
        { pending := pending, feederChecked := false, closed := false, workers := none :: ws,
          objectFiles := objectFiles, errors := [], events := events }
        (sequentialSchedule pending) = some s' ∧ s'.finished = true := by
  induction pending generalizing objectFiles events with
  | nil =>
    refine ⟨_, rfl, ?_⟩
    simp [PoolState.finished, hws]
  | cons x rest ih =>
    obtain ⟨o, evs, hj⟩ := hjob x (List.mem_cons_self _ _)
    obtain ⟨s', hrun, hfin⟩ := ih (fun y hy => hjob y (List.mem_cons_of_mem _ hy))
      (objectFiles ++ [o]) (events ++ evs)
    refine ⟨s', ?_, hfin⟩
    rw [sequentialSchedule_cons]
    simp only [PoolState.run, PoolState.step, Bool.or_self, Bool.false_eq_true, if_false,
      List.length_nil, gt_iff_lt, lt_self_iff_false, Bool.not_true, List.get?_cons_zero,
      List.set_cons_zero, hj]
    exact hrun

end builder_utils

/-! ### Parallel compilation: the claims -/

open builder_utils BuilderSpec in
/-- C10: when every source compiles successfully, every complete run of
`compileFilesWithRecipe`, whatever the order in which the workers take and end
their jobs, returns the same list: the object paths of the sources (build path
joined with the source path relative to the source root, plus `.o`), one per
source, sorted. With at least one worker a complete run exists. For an empty
source list the function returns the empty list and no error and runs
nothing. -/
theorem compileFilesWithRecipe_sorted_objects (env : Env) (ctx : Context)
    (sourcePath : String) (sources : List String) (buildPath : String)
    (buildProperties : properties.Map) (includes : List String) (recipe : String)
    (hall : ∀ source ∈ sources, ∃ o events,
      compileFileWithRecipe env ctx sourcePath source buildPath buildProperties includes
        recipe = (.ok o, events)) :
    (∀ schedule res events,
      compileFilesWithRecipe env ctx sourcePath sources buildPath buildProperties includes
        recipe schedule = some (res, events) →
      res = .ok (paths.PathList.Sort (sources.map (objectPathOf env sourcePath buildPath)))) ∧
    List.Sorted paths.LE
      (paths.PathList.Sort (sources.map (objectPathOf env sourcePath buildPath))) ∧
    List.Perm (paths.PathList.Sort (sources.map (objectPathOf env sourcePath buildPath)))
      (sources.map (objectPathOf env sourcePath buildPath)) ∧
    (0 < workerCount env ctx → ∃ schedule res events,
      compileFilesWithRecipe env ctx sourcePath sources buildPath buildProperties includes
        recipe schedule = some (res, events)) ∧
    (sources = [] → ∀ schedule,
      compileFilesWithRecipe env ctx sourcePath sources buildPath buildProperties includes
        recipe schedule = some (.ok [], [])) := by
  have hjob : ∀ x ∈ sources, ∃ events,
      compileFileWithRecipe env ctx sourcePath x buildPath buildProperties includes recipe =
        (.ok (objectPathOf env sourcePath buildPath x), events) := by
    intro x hx
    obtain ⟨o, events, h⟩ := hall x hx
    have ho := compileFileWithRecipe_ok env ctx sourcePath x buildPath buildProperties includes
      recipe o events h
    exact ⟨events, by rw [h, ho]⟩
  refine ⟨?_, paths.sort_sorted _, paths.sort_perm _, ?_, ?_⟩
  · intro schedule res events h
    unfold compileFilesWithRecipe at h
    split at h
    · rename_i hlen
      have hnil : sources = [] := List.length_eq_zero.1 hlen
      simp only [Option.some.injEq, Prod.mk.injEq] at h
      rw [← h.1, hnil]
      rfl
    · simp only at h
      split at h
      · cases h
      · rename_i s hrun
        split at h
        · rename_i hfin
          simp only [Option.some.injEq, Prod.mk.injEq] at h
          rw [← h.1]
          apply poolInvariant_finished _ sources s _ hfin
          refine poolInvariant_run _ (objectPathOf env sourcePath buildPath) sources hjob
            schedule _ s ?_ hrun
          unfold PoolInvariant
          refine ⟨rfl, ?_, [], rfl, ?_⟩
          · intro hc
            cases hc
          · simp only [List.nil_append]
            rw [filterMap_of_all_none _ (by simp)]
            exact List.Perm.refl _
        · cases h
  · intro hw
    by_cases hlen : sources.length = 0
    · exact ⟨[], .ok [], [], by simp only [compileFilesWithRecipe, hlen, if_true]⟩
    · obtain ⟨n, hn⟩ : ∃ n, workerCount env ctx = n + 1 := ⟨workerCount env ctx - 1, by omega⟩
      obtain ⟨s', hrun, hfin⟩ := sequentialSchedule_finishes
        (fun source => compileFileWithRecipe env ctx sourcePath source buildPath
          buildProperties includes recipe)
        sources (List.replicate n none) (by simp) hall [] []
      refine ⟨sequentialSchedule sources, s'.result, s'.events, ?_⟩
      unfold compileFilesWithRecipe
      rw [if_neg hlen]
      simp only [hn, List.replicate_succ]
      rw [hrun]
      simp only [hfin, if_true]
  · intro hnil schedule
    subst hnil
    rfl

open builder_utils BuilderSpec in
/-- C10 at two sources compiled by two workers: a run in which the second
source is taken first and ended first returns the sorted object paths, as
every complete run does. -/
theorem compileFilesWithRecipe_sorted_objects_witness :
    (∃ events, compileFilesWithRecipe compileEnv ⟨2, "none"⟩ "src" ["src/b.c", "src/a.c"] "build"
      compileRecipeProperties [] "recipe.c.o.pattern"
      [.feeder, .receive 1, .feeder, .receive 0, .finish 0, .finish 1, .feeder] =
        some (.ok ["build/a.c.o", "build/b.c.o"], events)) ∧
    (∀ schedule res events,
      compileFilesWithRecipe compileEnv ⟨2, "none"⟩ "src" ["src/b.c", "src/a.c"] "build"
        compileRecipeProperties [] "recipe.c.o.pattern" schedule = some (res, events) →
      res = .ok (paths.PathList.Sort
        (["src/b.c", "src/a.c"].map (objectPathOf compileEnv "src" "build")))) :=
  ⟨⟨_, rfl⟩,
    (compileFilesWithRecipe_sorted_objects compileEnv ⟨2, "none"⟩ "src" ["src/b.c", "src/a.c"]
      "build" compileRecipeProperties [] "recipe.c.o.pattern"
      (by
        intro source hs
        simp only [List.mem_cons, List.mem_singleton, List.not_mem_nil, or_false] at hs
        rcases hs with rfl | rfl
        · exact ⟨_, _, rfl⟩
        · exact ⟨_, _, rfl⟩)).1⟩

/-! ### Lemmas on the worker pool when a job fails -/

namespace builder_utils

open BuilderSpec properties

/-- For a non-empty source list, `compileFilesWithRecipe` is the run of the
pool from its first state. -/
theorem compileFilesWithRecipe_eq_run (env : Env) (ctx : Context) (sourcePath : String)
    (sources : List String) (buildPath : String) (buildProperties : Map)
    (includes : List String) (recipe : String) (schedule : List PoolStep)
    (hne : sources.length ≠ 0) :
    compileFilesWithRecipe env ctx sourcePath sources buildPath buildProperties includes recipe
        schedule =
      match PoolState.run (compileJob env ctx sourcePath buildPath buildProperties includes recipe)
          (poolStart env ctx sources) schedule with
      | none => none
      | some s => if s.finished then some (s.result, s.events) else none := by
  unfold compileFilesWithRecipe
  rw [if_neg hne]
  rfl

/-- A step only appends to the recorded errors. -/
theorem errors_step (job : String → Except Error String × List Event) (s s' : PoolState)
    (st : PoolStep) (h : s.step job st = some s') : ∃ more, s'.errors = s.errors ++ more := by
  cases st with
  | feeder =>
    simp only [PoolState.step] at h
    split at h
    · cases h
    · split at h
      · simp only [Option.some.injEq] at h
        subst h
        exact ⟨[], by simp⟩
      · split at h <;>
        · simp only [Option.some.injEq] at h
          subst h
          exact ⟨[], by simp⟩
  | receive i =>
    simp only [PoolState.step] at h
    split at h
    · cases h
    · split at h
      · simp only [Option.some.injEq] at h
        subst h
        exact ⟨[], by simp⟩
      · cases h
  | finish i =>
    simp only [PoolState.step] at h
    split at h
    · split at h
      · simp only [Option.some.injEq] at h
        subst h
        exact ⟨_, rfl⟩
      · simp only [Option.some.injEq] at h
        subst h
        exact ⟨[], by simp⟩
    · cases h

/-- A run only appends to the recorded errors: the first recorded error stays
the first. -/
theorem errors_run (job : String → Except Error String × List Event)
    (schedule : List PoolStep) (s s' : PoolState)
    (h : PoolState.run job s schedule = some s') : ∃ more, s'.errors = s.errors ++ more := by
  induction schedule generalizing s with
  | nil =>
    simp only [PoolState.run, Option.some.injEq] at h
    subst h
    exact ⟨[], by simp⟩
  | cons st rest ih =>
    simp only [PoolState.run] at h
    cases hs : s.step job st with
    | none => rw [hs] at h; cases h
    | some s1 =>
      rw [hs] at h
      obtain ⟨m1, h1⟩ := errors_step job s s1 st hs
      obtain ⟨m2, h2⟩ := ih s1 h
      exact ⟨m1 ++ m2, by rw [h2, h1, List.append_assoc]⟩

/-- With an error recorded, a step leaves the pending sources alone unless it
is the hand-over of the source the feeder was already sending. -/
theorem pending_step_of_error (job : String → Except Error String × List Event)
    (s s' : PoolState) (st : PoolStep) (herr : s.errors ≠ []) (h : s.step job st = some s') :
    (s'.pending = s.pending ∧ s'.feederChecked = s.feederChecked) ∨
      (s.feederChecked = true ∧ s'.feederChecked = false ∧ s'.pending = s.pending.tail) := by
  cases st with
  | feeder =>
    simp only [PoolState.step] at h
    split at h
    · cases h
    · split at h
      · simp only [Option.some.injEq] at h
        subst h
        exact Or.inl ⟨rfl, rfl⟩
      · have hlen : s.errors.length > 0 := List.length_pos.2 herr
        rw [if_pos hlen] at h
        simp only [Option.some.injEq] at h
        subst h
        exact Or.inl ⟨rfl, rfl⟩
  | receive i =>
    simp only [PoolState.step] at h
    split at h
    · cases h
    · rename_i hchecked
      split at h
      · rename_i source rest hp hw
        simp only [Option.some.injEq] at h
        subst h
        refine Or.inr ⟨by simpa using hchecked, rfl, ?_⟩
        simp only [hp, List.tail_cons]
      · cases h
  | finish i =>
    simp only [PoolState.step] at h
    split at h
    · split at h <;>
      · simp only [Option.some.injEq] at h
        subst h
        exact Or.inl ⟨rfl, rfl⟩
    · cases h

/-- With an error recorded and the feeder at the head of its loop, no run
hands over a further source. -/
theorem pending_run_of_error_unchecked (job : String → Except Error String × List Event)
    (schedule : List PoolStep) (s s' : PoolState) (herr : s.errors ≠ [])
    (hchecked : s.feederChecked = false) (h : PoolState.run job s schedule = some s') :
    s'.pending = s.pending := by
  induction schedule generalizing s with
  | nil =>
    simp only [PoolState.run, Option.some.injEq] at h
    subst h
    rfl
  | cons st rest ih =>
    simp only [PoolState.run] at h
    cases hs : s.step job st with
    | none => rw [hs] at h; cases h
    | some s1 =>
      rw [hs] at h
      obtain ⟨m, hm⟩ := errors_step job s s1 st hs
      have herr1 : s1.errors ≠ [] := by
        rw [hm]
        intro hnil
        exact herr (List.append_eq_nil.1 hnil).1
      rcases pending_step_of_error job s s1 st herr hs with ⟨hp, hc⟩ | ⟨hc, _, _⟩
      · rw [ih s1 herr1 (by rw [hc, hchecked]) h, hp]
      · rw [hchecked] at hc
        cases hc

/-- With an error recorded, a run hands over at most one further source. -/
theorem pending_run_of_error (job : String → Except Error String × List Event)
    (schedule : List PoolStep) (s s' : PoolState) (herr : s.errors ≠ [])
    (h : PoolState.run job s schedule = some s') :
    s'.pending = s.pending ∨ (s.feederChecked = true ∧ s'.pending = s.pending.tail) := by
  induction schedule generalizing s with
  | nil =>
    simp only [PoolState.run, Option.some.injEq] at h
    subst h
    exact Or.inl rfl
  | cons st rest ih =>
    simp only [PoolState.run] at h
    cases hs : s.step job st with
    | none => rw [hs] at h; cases h
    | some s1 =>
      rw [hs] at h
      obtain ⟨m, hm⟩ := errors_step job s s1 st hs
      have herr1 : s1.errors ≠ [] := by
        rw [hm]
        intro hnil
        exact herr (List.append_eq_nil.1 hnil).1
      rcases pending_step_of_error job s s1 st herr hs with ⟨hp, hc⟩ | ⟨hc, hc1, hp⟩
      · rcases ih s1 herr1 h with h1 | ⟨h1, h2⟩
        · exact Or.inl (by rw [h1, hp])
        · exact Or.inr ⟨by rw [← hc, h1], by rw [h2, hp]⟩
      · right
        refine ⟨hc, ?_⟩
        rw [pending_run_of_error_unchecked job rest s1 s' herr1 hc1 h, hp]

end builder_utils

namespace builder_utils

open BuilderSpec properties

theorem run_append (job : String → Except Error String × List Event)
    (a b : List PoolStep) (s : PoolState) :
    PoolState.run job s (a ++ b) =
      match PoolState.run job s a with
      | none => none
      | some s1 => PoolState.run job s1 b := by
  induction a generalizing s with
  | nil => rfl
  | cons st rest ih =>
    simp only [List.cons_append, PoolState.run]
    cases s.step job st with
    | none => rfl
    | some s1 => exact ih s1

/-- The end of a failing job records its error behind the errors recorded
before. -/
theorem finish_of_error (job : String → Except Error String × List Event) (s : PoolState)
    (i : Nat) (source : String) (e : Error) (events : List Event)
    (hw : s.workers.get? i = some (some source)) (hj : job source = (.error e, events)) :
    ∃ s', s.step job (.finish i) = some s' ∧ s'.errors = s.errors ++ [e] := by
  simp only [PoolState.step, hw, hj]
  exact ⟨_, rfl, rfl⟩

/-- The result of a finished pool that recorded an error. -/
theorem result_of_errors (s : PoolState) (e : Error) (rest : List Error)
    (h : s.errors = e :: rest) : s.result = .error e := by
  unfold PoolState.result
  rw [h]

/-- With a first worker, the sequential schedule over the sources up to the
first one whose job fails is a complete run: the error of that job is the one
error recorded, and the sources behind it are never sent. -/
theorem sequentialSchedule_first_error (job : String → Except Error String × List Event)
    (pre : List String) (x : String) (post : List String) (ws : List (Option String))
    (hws : ws.all Option.isNone = true)
    (hpre : ∀ y ∈ pre, ∃ o events, job y = (.ok o, events))
    (e : Error) (evs : List Event) (hx : job x = (.error e, evs))
    (objectFiles : List String) (events : List Event) :
    ∃ s', PoolState.run job
        { pending := pre ++ x :: post, feederChecked := false, closed := false,
          workers := none :: ws, objectFiles := objectFiles, errors := [], events := events }
        (sequentialSchedule (pre ++ [x])) = some s' ∧
      s'.finished = true ∧ s'.errors = [e] ∧ s'.pending = post := by
  induction pre generalizing objectFiles events with
  | nil =>
    refine ⟨{ pending := post, feederChecked := false, closed := true, workers := none :: ws,
              objectFiles := objectFiles, errors := [e], events := events ++ evs }, ?_, ?_,
            rfl, rfl⟩
    · have hsched : sequentialSchedule ([] ++ [x]) =
          [PoolStep.feeder, PoolStep.receive 0, PoolStep.finish 0, PoolStep.feeder] := rfl
      rw [hsched]
      cases post with
      | nil =>
        simp [PoolState.run, PoolState.step, hx]
      | cons p post =>
        simp [PoolState.run, PoolState.step, hx]
    · simp [PoolState.finished, hws]
  | cons y rest ih =>
    obtain ⟨o, evy, hj⟩ := hpre y (List.mem_cons_self _ _)
    obtain ⟨s', hrun, hfin, herr, hpend⟩ := ih (fun z hz => hpre z (List.mem_cons_of_mem _ hz))
      (objectFiles ++ [o]) (events ++ evy)
    refine ⟨s', ?_, hfin, herr, hpend⟩
    rw [List.cons_append, List.cons_append, sequentialSchedule_cons]
    simp only [PoolState.run, PoolState.step, Bool.or_self, Bool.false_eq_true, if_false,
      List.length_nil, gt_iff_lt, lt_self_iff_false, Bool.not_true, List.get?_cons_zero,
      List.set_cons_zero, hj]
    exact hrun

end builder_utils

/-! ### Parallel compilation with a failing job: the claims -/

open builder_utils BuilderSpec in
/-- C11, refuted as stated: with one worker and the sources `lib/x.c` (which
fails) and `src/b.c`, the feeder passes its check for `src/b.c` while
`lib/x.c` is compiled; the job then records its error, and `src/b.c` is still
handed to the worker and compiled before the call returns the error. -/
theorem compileFilesWithRecipe_enqueue_after_error_counterexample :
    (∃ s1 s2,
      PoolState.run
        (compileJob compileEnv ⟨1, "none"⟩ "src" "build" compileRecipeProperties []
          "recipe.c.o.pattern")
        (poolStart compileEnv ⟨1, "none"⟩ ["lib/x.c", "src/b.c"])
        [.feeder, .receive 0, .feeder, .finish 0] = some s1 ∧
      s1.errors = [.wrapped "can't make relative"] ∧ s1.pending = ["src/b.c"] ∧
      s1.step
        (compileJob compileEnv ⟨1, "none"⟩ "src" "build" compileRecipeProperties []
          "recipe.c.o.pattern") (.receive 0) = some s2 ∧
      s2.pending = [] ∧ s2.workers = [some "src/b.c"]) ∧
    (∃ events,
      compileFilesWithRecipe compileEnv ⟨1, "none"⟩ "src" ["lib/x.c", "src/b.c"] "build"
        compileRecipeProperties [] "recipe.c.o.pattern"
        [.feeder, .receive 0, .feeder, .finish 0, .receive 0, .finish 0, .feeder] =
          some (.error (.wrapped "can't make relative"), events) ∧
      ∃ props, Event.executed "recipe.c.o.pattern" props ∈ events) :=
  ⟨⟨_, _, rfl, rfl, rfl, rfl, rfl, rfl⟩, ⟨_, rfl, _, List.mem_cons_self _ _⟩⟩

open builder_utils BuilderSpec in
/-- C11, amended: when the job of a source ends with an error in a complete
run of `compileFilesWithRecipe`, the function returns no object list but an
error, which is the first error recorded (errors are only appended); with at
least one worker such a run exists: the run that compiles the sources one
after the other returns the error of the first source whose job fails; once an
error is recorded, a feeder at the head of its loop enqueues no further
source, and a feeder that was already sending a source hands over that one
source and no other. -/
theorem compileFilesWithRecipe_first_error (env : Env) (ctx : Context) (sourcePath : String)
    (sources : List String) (buildPath : String) (buildProperties : properties.Map)
    (includes : List String) (recipe : String) :
    (∀ before after i s1 source e events res allEvents, sources ≠ [] →
      PoolState.run (compileJob env ctx sourcePath buildPath buildProperties includes recipe)
        (poolStart env ctx sources) before = some s1 →
      s1.workers.get? i = some (some source) →
      compileFileWithRecipe env ctx sourcePath source buildPath buildProperties includes
        recipe = (.error e, events) →
      compileFilesWithRecipe env ctx sourcePath sources buildPath buildProperties includes
        recipe (before ++ .finish i :: after) = some (res, allEvents) →
      res = .error ((s1.errors ++ [e]).head (by simp))) ∧
    (∀ schedule s e rest, sources ≠ [] →
      PoolState.run (compileJob env ctx sourcePath buildPath buildProperties includes recipe)
        (poolStart env ctx sources) schedule = some s →
      s.finished = true → s.errors = e :: rest →
      compileFilesWithRecipe env ctx sourcePath sources buildPath buildProperties includes
        recipe schedule = some (.error e, s.events)) ∧
    (∀ pre x post e events, sources = pre ++ x :: post →
      (∀ y ∈ pre, ∃ o evs,
        compileFileWithRecipe env ctx sourcePath y buildPath buildProperties includes
          recipe = (.ok o, evs)) →
      compileFileWithRecipe env ctx sourcePath x buildPath buildProperties includes
        recipe = (.error e, events) →
      0 < workerCount env ctx →
      ∃ allEvents,
        compileFilesWithRecipe env ctx sourcePath sources buildPath buildProperties includes
          recipe (sequentialSchedule (pre ++ [x])) = some (.error e, allEvents)) ∧
    (∀ schedule s s',
      PoolState.run (compileJob env ctx sourcePath buildPath buildProperties includes recipe)
        s schedule = some s' → ∃ more, s'.errors = s.errors ++ more) ∧
    (∀ schedule s s', s.errors ≠ [] → s.feederChecked = false →
      PoolState.run (compileJob env ctx sourcePath buildPath buildProperties includes recipe)
        s schedule = some s' → s'.pending = s.pending) ∧
    (∀ schedule s s', s.errors ≠ [] →
      PoolState.run (compileJob env ctx sourcePath buildPath buildProperties includes recipe)
        s schedule = some s' →
      s'.pending = s.pending ∨ (s.feederChecked = true ∧ s'.pending = s.pending.tail)) := by
  refine ⟨?_, ?_, ?_, ?_, ?_, ?_⟩
  · intro before after i s1 source e events res allEvents hne hrun hw hj hret
    have hlen : sources.length ≠ 0 := fun h => hne (List.length_eq_zero.1 h)
    rw [compileFilesWithRecipe_eq_run _ _ _ _ _ _ _ _ _ hlen, run_append, hrun] at hret
    obtain ⟨s2, hs2, he2⟩ := finish_of_error
      (compileJob env ctx sourcePath buildPath buildProperties includes recipe) s1 i source e
      events hw hj
    simp only [PoolState.run, hs2] at hret
    split at hret
    · cases hret
    · rename_i s hrest
      split at hret
      · simp only [Option.some.injEq, Prod.mk.injEq] at hret
        obtain ⟨more, hmore⟩ := errors_run _ after s2 s hrest
        rw [he2] at hmore
        rw [← hret.1]
        cases hs1 : s1.errors with
        | nil =>
          rw [hs1] at hmore
          simp only [List.nil_append, List.singleton_append] at hmore
          simp only [List.nil_append, List.head_cons]
          exact result_of_errors s e more hmore
        | cons e1 rest =>
          rw [hs1] at hmore
          simp only [List.cons_append] at hmore
          simp only [List.cons_append, List.head_cons]
          exact result_of_errors s e1 _ hmore
      · cases hret
  · intro schedule s e rest hne hrun hfin herr
    have hlen : sources.length ≠ 0 := fun h => hne (List.length_eq_zero.1 h)
    rw [compileFilesWithRecipe_eq_run _ _ _ _ _ _ _ _ _ hlen, hrun]
    simp only [hfin, if_true, result_of_errors s e rest herr]
  · intro pre x post e events hsrc hpre hx hw
    have hlen : sources.length ≠ 0 := by
      rw [hsrc]
      simp
    obtain ⟨n, hn⟩ : ∃ n, workerCount env ctx = n + 1 := ⟨workerCount env ctx - 1, by omega⟩
    obtain ⟨s', hrun, hfin, herr, _⟩ := sequentialSchedule_first_error
      (compileJob env ctx sourcePath buildPath buildProperties includes recipe)
      pre x post (List.replicate n none) (by simp) hpre e events hx [] []
    refine ⟨s'.events, ?_⟩
    rw [compileFilesWithRecipe_eq_run _ _ _ _ _ _ _ _ _ hlen]
    have hstart : poolStart env ctx sources =
        { pending := pre ++ x :: post, feederChecked := false, closed := false,
          workers := none :: List.replicate n none, objectFiles := [], errors := [],
          events := [] } := by
      simp only [poolStart, hn, List.replicate_succ, hsrc]
    rw [hstart, hrun]
    simp only [hfin, if_true, result_of_errors s' e [] herr]
  · intro schedule s s' h
    exact errors_run _ schedule s s' h
  · intro schedule s s' herr hc h
    exact pending_run_of_error_unchecked _ schedule s s' herr hc h
  · intro schedule s s' herr h
    exact pending_run_of_error _ schedule s s' herr h

open builder_utils BuilderSpec in
/-- C11 amended, at one worker and the sources `src/a.c`, `lib/x.c` (which
fails) and `src/b.c`: the run that compiles the sources one after the other
returns the error of `lib/x.c` and no object list. -/
theorem compileFilesWithRecipe_first_error_witness :
    0 < workerCount compileEnv ⟨1, "none"⟩ ∧
    ∃ allEvents,
      compileFilesWithRecipe compileEnv ⟨1, "none"⟩ "src" ["src/a.c", "lib/x.c", "src/b.c"]
        "build" compileRecipeProperties [] "recipe.c.o.pattern"
        (sequentialSchedule (["src/a.c"] ++ ["lib/x.c"])) =
          some (.error (.wrapped "can't make relative"), allEvents) :=
  ⟨by decide,
    (compileFilesWithRecipe_first_error compileEnv ⟨1, "none"⟩ "src"
      ["src/a.c", "lib/x.c", "src/b.c"] "build" compileRecipeProperties []
      "recipe.c.o.pattern").2.2.1 ["src/a.c"] "lib/x.c" ["src/b.c"]
      (.wrapped "can't make relative") [] rfl
      (by
        intro y hy
        simp only [List.mem_singleton] at hy
        subst hy
        exact ⟨_, _, rfl⟩)
      rfl (by decide)⟩


/-! ### Lemmas on the scoring of the resolver -/

namespace librariesresolver

open libraries ResolverSpec

/-- The score is the architecture priority plus 0x100 for every tier. -/
theorem computePriority_eq (env : Env) (lib : Library) (header arch : String) :
    computePriority env lib header arch =
      archPriority env lib arch + 0x100 * tierOf env lib header := by
  unfold computePriority tierOf archPriority normalizedHeader
  simp only
  split
  · rfl
  · split
    · rfl
    · split
      · rfl
      · split
        · rfl
        · split
          · rfl
          · rfl

theorem archPriority_le (env : Env) (lib : Library) (arch : String) :
    archPriority env lib arch ≤ 255 := by
  unfold archPriority
  omega

theorem tierOf_le (env : Env) (lib : Library) (header : String) : tierOf env lib header ≤ 5 := by
  unfold tierOf
  simp only
  split
  · exact Nat.le_refl 5
  · split
    · omega
    · split
      · omega
      · split
        · omega
        · split <;> omega

theorem tierOf_eq_five_iff (env : Env) (lib : Library) (header : String) :
    tierOf env lib header = 5 ↔ simplify env lib.Name = normalizedHeader env header := by
  unfold tierOf
  simp only
  constructor
  · intro h
    by_contra hne
    rw [if_neg hne] at h
    split at h
    · omega
    · split at h
      · omega
      · split at h
        · omega
        · split at h <;> omega
  · intro h
    rw [if_pos h]

/-- A higher tier gives a strictly greater score, whatever the architecture
priorities. -/
theorem computePriority_lt_of_tier_lt (env : Env) (lib1 lib2 : Library)
    (header arch1 arch2 : String) (h : tierOf env lib1 header < tierOf env lib2 header) :
    computePriority env lib1 header arch1 < computePriority env lib2 header arch2 := by
  rw [computePriority_eq, computePriority_eq]
  have h1 := archPriority_le env lib1 arch1
  omega

/-- The extension of a header name `H.h` is `.h`. -/
theorem ext_dot_h (H : String) : filepath.Ext (H ++ ".h") = ".h" := by
  unfold filepath.Ext
  have hd : (H ++ ".h").data.reverse = 'h' :: '.' :: H.data.reverse := by
    rw [String.data_append]
    simp
  rw [hd]
  rfl

/-- Stripping the extension of `H.h` gives `H`. -/
theorem trimSuffix_dot_h (H : String) :
    strings.TrimSuffix (H ++ ".h") (filepath.Ext (H ++ ".h")) = H := by
  rw [ext_dot_h]
  unfold strings.TrimSuffix
  have hd : (H ++ ".h").data = H.data ++ ['.', 'h'] := by
    rw [String.data_append]
  have hs : strings.HasSuffix (H ++ ".h") ".h" = true := by
    unfold strings.HasSuffix
    rw [hd]
    simp [List.isPrefixOf]
  rw [if_pos hs]
  unfold strings.dropLast
  rw [hd]
  apply String.ext
  have hlen : (".h" : String).data.length = 2 := rfl
  simp [hlen]

end librariesresolver

namespace librariesresolver

open libraries ResolverSpec

theorem append_master_ne (h : String) : h ++ "-master" ≠ h := by
  intro e
  have hl : (h ++ "-master").data.length = h.data.length := by rw [e]
  have hm : (h ++ "-master").data.length = h.data.length + 7 := by
    rw [String.data_append, List.length_append]
    rfl
  omega

/-- The tier of a library whose normalized name is the normalized header name
followed by `-master`. -/
theorem tierOf_name_master (env : Env) (lib : Library) (header : String)
    (h : simplify env lib.Name = normalizedHeader env header ++ "-master") :
    tierOf env lib header = 4 := by
  unfold tierOf
  simp only
  rw [h, if_neg (append_master_ne _), if_pos rfl]

end librariesresolver

/-! ### The scoring of the resolver: the claims -/

open librariesresolver libraries ResolverSpec in
/-- C15: `computePriority` is the architecture priority of the library, a
number in 0..255, plus 0x100 times its tier, the tier being the first that
matches among exact match (5), name-master (4), start (3), end (2),
substring (1) and no match (0); of two libraries the one in the higher tier has
the strictly greater score, whatever their architecture priorities. -/
theorem computePriority_tiers (env : Env) (lib : Library) (header arch : String) :
    computePriority env lib header arch =
      archPriority env lib arch + 0x100 * tierOf env lib header ∧
    archPriority env lib arch ≤ 255 ∧ tierOf env lib header ≤ 5 ∧
    ∀ lib2 arch2, tierOf env lib2 header < tierOf env lib header →
      computePriority env lib2 header arch2 < computePriority env lib header arch :=
  ⟨computePriority_eq env lib header arch, archPriority_le env lib arch,
    tierOf_le env lib header,
    fun lib2 arch2 h => computePriority_lt_of_tier_lt env lib2 lib header arch2 arch h⟩

open librariesresolver libraries ResolverSpec in
/-- C16: for the header `H.h`, a library named `H-master`, whose normalized
name is the normalized `H` followed by `-master`, scores its architecture
priority plus 0x400: strictly more than every library of the tier of the names
that start with the header name, strictly less than a library named `H`,
whatever the architecture priorities. -/
theorem computePriority_name_master (env : Env) (H arch : String) (lib : Library)
    (hname : lib.Name = H ++ "-master")
    (hnorm : simplify env (H ++ "-master") = simplify env H ++ "-master") :
    computePriority env lib (H ++ ".h") arch = archPriority env lib arch + 0x400 ∧
    (∀ lib2 arch2, tierOf env lib2 (H ++ ".h") = 3 →
      computePriority env lib2 (H ++ ".h") arch2 < computePriority env lib (H ++ ".h") arch) ∧
    (∀ lib3 arch3, lib3.Name = H →
      computePriority env lib (H ++ ".h") arch < computePriority env lib3 (H ++ ".h") arch3) := by
  have hheader : normalizedHeader env (H ++ ".h") = simplify env H := by
    unfold normalizedHeader
    rw [trimSuffix_dot_h]
  have htier : tierOf env lib (H ++ ".h") = 4 := by
    apply tierOf_name_master
    rw [hname, hnorm, hheader]
  refine ⟨?_, ?_, ?_⟩
  · rw [computePriority_eq, htier]
  · intro lib2 arch2 h2
    apply computePriority_lt_of_tier_lt
    rw [h2, htier]
    decide
  · intro lib3 arch3 h3
    apply computePriority_lt_of_tier_lt
    have : tierOf env lib3 (H ++ ".h") = 5 := by
      rw [tierOf_eq_five_iff, h3, hheader]
    rw [this, htier]
    decide

open librariesresolver libraries ResolverSpec in
/-- C16 at the library `Foo-master` and the header `Foo.h`. -/
theorem computePriority_name_master_witness :
    computePriority (sampleEnv sampleDirs) libFooMaster ("Foo" ++ ".h") "avr" =
      archPriority (sampleEnv sampleDirs) libFooMaster "avr" + 0x400 ∧
    (∀ lib2 arch2, tierOf (sampleEnv sampleDirs) lib2 ("Foo" ++ ".h") = 3 →
      computePriority (sampleEnv sampleDirs) lib2 ("Foo" ++ ".h") arch2 <
        computePriority (sampleEnv sampleDirs) libFooMaster ("Foo" ++ ".h") "avr") ∧
    (∀ lib3 arch3, lib3.Name = "Foo" →
      computePriority (sampleEnv sampleDirs) libFooMaster ("Foo" ++ ".h") "avr" <
        computePriority (sampleEnv sampleDirs) lib3 ("Foo" ++ ".h") arch3) :=
  computePriority_name_master (sampleEnv sampleDirs) "Foo" "avr" libFooMaster rfl (by decide)

/-! ### Lemmas on the loop of `ResolveFor` and on scanning -/

namespace librariesresolver

open libraries ResolverSpec

/-- Libraries that score less than the library found leave it alone. -/
theorem resolveLoop_of_lower (env : Env) (header arch : String) (libs : List Library)
    (found : List Library) (p : Nat)
    (h : ∀ M ∈ libs, computePriority env M header arch < p) :
    resolveLoop env header arch libs (some found) p = (some found, p) := by
  induction libs with
  | nil => rfl
  | cons M rest ih =>
    have hM := h M (List.mem_cons_self _ _)
    unfold resolveLoop
    simp only
    rw [if_neg (by omega), if_neg (by omega)]
    exact ih (fun x hx => h x (List.mem_cons_of_mem _ hx))

/-- A library that scores more than all libraries before it and after it is
the only one found. -/
theorem resolveLoop_of_best (env : Env) (header arch : String) (pre post : List Library)
    (L : Library) (found : Option (List Library)) (p : Nat)
    (hpre : ∀ M ∈ pre, computePriority env M header arch < computePriority env L header arch)
    (hpost : ∀ M ∈ post, computePriority env M header arch < computePriority env L header arch)
    (hfound : found = none ∨ p < computePriority env L header arch) :
    resolveLoop env header arch (pre ++ L :: post) found p =
      (some [L], computePriority env L header arch) := by
  induction pre generalizing found p with
  | nil =>
    simp only [List.nil_append]
    unfold resolveLoop
    simp only
    cases found with
    | none =>
      simp only [libraries.Add, List.nil_append]
      exact resolveLoop_of_lower env header arch post [L] _ hpost
    | some l =>
      rcases hfound with hf | hf
      · cases hf
      · simp only [if_pos hf, libraries.Add, List.nil_append]
        exact resolveLoop_of_lower env header arch post [L] _ hpost
  | cons M rest ih =>
    have hM := hpre M (List.mem_cons_self _ _)
    have hrest : ∀ x ∈ rest,
        computePriority env x header arch < computePriority env L header arch :=
      fun x hx => hpre x (List.mem_cons_of_mem _ hx)
    simp only [List.cons_append]
    unfold resolveLoop
    simp only
    cases found with
    | none => exact ih _ _ hrest (Or.inr hM)
    | some l =>
      rcases hfound with hf | hf
      · cases hf
      · simp only
        split
        · exact ih _ _ hrest (Or.inr hM)
        · split
          · exact ih _ _ hrest (Or.inr hf)
          · exact ih _ _ hrest (Or.inr hf)

/-- The list found by the loop is not empty and holds only libraries of the
list gone through or found before. -/
theorem resolveLoop_found (env : Env) (header arch : String) (libs : List Library)
    (found : Option (List Library)) (p : Nat)
    (hfound : ∀ l, found = some l → l ≠ []) :
    (∀ l, (resolveLoop env header arch libs found p).1 = some l →
      l ≠ [] ∧ ∀ x ∈ l, x ∈ libs ∨ ∃ l0, found = some l0 ∧ x ∈ l0) ∧
    ((resolveLoop env header arch libs found p).1 = none → libs = [] ∧ found = none) := by
  induction libs generalizing found p with
  | nil =>
    refine ⟨?_, ?_⟩
    · intro l hl
      simp only [resolveLoop] at hl
      exact ⟨hfound l hl, fun x hx => Or.inr ⟨l, hl, hx⟩⟩
    · intro hl
      simp only [resolveLoop] at hl
      exact ⟨rfl, hl⟩
  | cons M rest ih =>
    have key : ∀ (f' : List Library) (p' : Nat), f' ≠ [] →
        (∀ x ∈ f', x = M ∨ ∃ l0, found = some l0 ∧ x ∈ l0) →
        (∀ l, (resolveLoop env header arch rest (some f') p').1 = some l →
          l ≠ [] ∧ ∀ x ∈ l, x ∈ M :: rest ∨ ∃ l0, found = some l0 ∧ x ∈ l0) ∧
        ((resolveLoop env header arch rest (some f') p').1 = none →
          M :: rest = [] ∧ found = none) := by
      intro f' p' hne hsub
      obtain ⟨h1, h2⟩ := ih (some f') p' (by intro l hl; cases hl; exact hne)
      refine ⟨?_, ?_⟩
      · intro l hl
        obtain ⟨hl1, hl2⟩ := h1 l hl
        refine ⟨hl1, ?_⟩
        intro x hx
        rcases hl2 x hx with hx1 | ⟨l0, hl0, hx0⟩
        · exact Or.inl (List.mem_cons_of_mem _ hx1)
        · cases hl0
          rcases hsub x hx0 with e | h'
          · exact Or.inl (by rw [e]; exact List.mem_cons_self _ _)
          · exact Or.inr h'
      · intro hl
        obtain ⟨_, hc⟩ := h2 hl
        cases hc
    unfold resolveLoop
    simp only
    cases found with
    | none =>
      exact key [M] _ (by simp) (by intro x hx; simp only [List.mem_singleton] at hx; exact Or.inl hx)
    | some l =>
      simp only
      split
      · exact key [M] _ (by simp)
          (by intro x hx; simp only [List.mem_singleton] at hx; exact Or.inl hx)
      · split
        · refine key (libraries.Add l M) _ (by simp [libraries.Add]) ?_
          intro x hx
          simp only [libraries.Add, List.mem_append, List.mem_singleton] at hx
          rcases hx with hx | hx
          · exact Or.inr ⟨l, rfl, hx⟩
          · exact Or.inl hx
        · exact key l _ (hfound l rfl) (fun x hx => Or.inr ⟨l, rfl, hx⟩)

/-- A library returned by `ResolveFor` is indexed for the header. -/
theorem resolveFor_mem (env : Env) (resolver : Cpp) (header arch : String) (L : Library)
    (h : ResolveFor env resolver header arch = some L) : L ∈ resolver.headers header := by
  obtain ⟨h1, _⟩ := resolveLoop_found env header arch (resolver.headers header) none 0
    (by intro l hl; cases hl)
  unfold ResolveFor at h
  split at h
  · cases h
  · rename_i lib hl
    simp only [Option.some.injEq] at h
    subst h
    rcases (h1 _ hl).2 lib (List.mem_singleton_self _) with hx | ⟨l0, hl0, _⟩
    · exact hx
    · cases hl0
  · rename_i found _ hl
    unfold findLibraryWithNameBestDistance at h
    simp only at h
    have hmem := List.mem_of_find?_eq_some h
    rcases (h1 _ hl).2 L hmem with hx | ⟨l0, hl0, _⟩
    · exact hx
    · cases hl0

/-- Without a library indexed for the header, `ResolveFor` returns nil. -/
theorem resolveFor_of_no_library (env : Env) (resolver : Cpp) (header arch : String)
    (h : resolver.headers header = []) : ResolveFor env resolver header arch = none := by
  unfold ResolveFor
  rw [h]
  rfl

/-- The index after the loop of `ScanLibrary` over the header paths. -/
theorem headers_foldl_addHeader (env : Env) (lib : Library) (cppHeaders : List String)
    (resolver : Cpp) (H : String) :
    (cppHeaders.foldl (addHeader env lib) resolver).headers H =
      resolver.headers H ++ List.replicate ((cppHeaders.map env.base).count H) lib := by
  induction cppHeaders generalizing resolver with
  | nil => simp
  | cons p rest ih =>
    simp only [List.foldl_cons, List.map_cons]
    rw [ih]
    by_cases hp : env.base p = H
    · subst hp
      simp only [addHeader, if_true, libraries.Add, List.count_cons_self, List.replicate_succ,
        List.append_assoc, List.singleton_append]
    · have hne : H ≠ env.base p := fun e => hp e.symm
      have hc : List.count H (env.base p :: List.map env.base rest) =
          List.count H (List.map env.base rest) := by
        rw [List.count_cons]
        simp [hp]
      simp only [addHeader, if_neg hne, hc]

/-- The index after a scan of a library. -/
theorem headers_scanLibrary (env : Env) (resolver : Cpp) (lib : Library) (H : String) :
    (ScanLibrary env resolver lib).1.headers H =
      resolver.headers H ++ List.replicate ((headerNames env lib).count H) lib := by
  unfold ScanLibrary headerNames
  cases env.readDir lib.SourceDir with
  | error err => simp
  | ok cppHeaders => exact headers_foldl_addHeader env lib _ resolver H

/-- The index after the scan of a list of libraries holds, for a header, every
library as many times as its scan recorded the header, in scan order. -/
theorem headers_scanLibraries (env : Env) (resolver : Cpp) (libs : List Library) (H : String) :
    (scanLibraries env resolver libs).headers H =
      resolver.headers H ++
        libs.flatMap fun lib => List.replicate ((headerNames env lib).count H) lib := by
  unfold scanLibraries
  induction libs generalizing resolver with
  | nil => simp
  | cons lib rest ih =>
    simp only [List.foldl_cons, List.flatMap_cons]
    rw [ih, headers_scanLibrary, List.append_assoc]

end librariesresolver

namespace librariesresolver

open libraries ResolverSpec

theorem flatMap_replicate_of_not_mem (env : Env) (libs : List Library) (H : String)
    (h : ∀ M ∈ libs, H ∉ headerNames env M) :
    (libs.flatMap fun lib => List.replicate ((headerNames env lib).count H) lib) = [] := by
  induction libs with
  | nil => rfl
  | cons M rest ih =>
    simp only [List.flatMap_cons]
    rw [ih (fun x hx => h x (List.mem_cons_of_mem _ hx)),
      List.count_eq_zero_of_not_mem (h M (List.mem_cons_self _ _))]
    rfl

/-- `ResolveFor` returns nil exactly when no library is indexed for the header
or when the name chosen by the tie-break is the normalized name of none of the
libraries found. -/
theorem resolveFor_eq_none_iff (env : Env) (resolver : Cpp) (header arch : String) :
    ResolveFor env resolver header arch = none ↔
      resolver.headers header = [] ∨
      ∃ found, (resolveLoop env header arch (resolver.headers header) none 0).1 = some found ∧
        found.length ≠ 1 ∧
        ∀ lib ∈ found,
          env.closest (found.map fun l => simplify env l.Name) header ≠ simplify env lib.Name := by
  obtain ⟨h1, h2⟩ := resolveLoop_found env header arch (resolver.headers header) none 0
    (by intro l hl; cases hl)
  unfold ResolveFor
  split
  · rename_i hl
    exact ⟨fun _ => Or.inl (h2 hl).1, fun _ => rfl⟩
  · rename_i lib hl
    constructor
    · intro h
      cases h
    · rintro (h | ⟨found, hf, hlen, _⟩)
      · rw [h] at hl
        simp [resolveLoop] at hl
      · rw [hl] at hf
        cases hf
        simp at hlen
  · rename_i found hne hl
    unfold findLibraryWithNameBestDistance
    simp only [List.find?_eq_none, beq_iff_eq]
    constructor
    · intro h
      refine Or.inr ⟨found, hl, ?_, h⟩
      intro hlen
      obtain ⟨x, hx⟩ := List.length_eq_one.1 hlen
      exact hne x hx
    · rintro (h | ⟨found', hf, _, hall⟩)
      · rw [h] at hl
        simp [resolveLoop] at hl
      · rw [hl] at hf
        cases hf
        exact hall

end librariesresolver

/-! ### The library resolver: the claims -/

open librariesresolver libraries ResolverSpec in
/-- C12, refuted as stated: the library `A` is the only library that provides
`A.h`, and its normalized name is the normalized header name; scanned twice it
is recorded twice for the header, the two entries tie on the score, the
tie-break finds no name that shares two characters with the header, and
`ResolveFor` returns nil. -/
theorem resolveFor_exact_match_recorded_twice_counterexample :
    (scanLibraries (sampleEnv sampleDirs) NewCppResolver [libA, libA]).headers "A.h" =
      [libA, libA] ∧
    simplify (sampleEnv sampleDirs) libA.Name = normalizedHeader (sampleEnv sampleDirs) "A.h" ∧
    (sampleEnv sampleDirs).closest ["a", "a"] "A.h" = "" ∧
    ResolveFor (sampleEnv sampleDirs)
      (scanLibraries (sampleEnv sampleDirs) NewCppResolver [libA, libA]) "A.h" "avr" = none := by
  refine ⟨?_, ?_, ?_, ?_⟩ <;> decide

open librariesresolver libraries ResolverSpec in
/-- C12, amended: when exactly one entry of the list of libraries recorded for
a header has a normalized name equal to the normalized header base name (the
library with that name is recorded once), `ResolveFor` returns that library,
wherever it stands in the list and whatever the architecture priorities. -/
theorem resolveFor_exact_match (env : Env) (resolver : Cpp) (header arch : String)
    (pre post : List Library) (L : Library)
    (hlist : resolver.headers header = pre ++ L :: post)
    (hL : simplify env L.Name = normalizedHeader env header)
    (hothers : ∀ M ∈ pre ++ post, simplify env M.Name ≠ normalizedHeader env header) :
    ResolveFor env resolver header arch = some L := by
  have hlt : ∀ M ∈ pre ++ post,
      computePriority env M header arch < computePriority env L header arch := by
    intro M hM
    apply computePriority_lt_of_tier_lt
    have h5 : tierOf env L header = 5 := (tierOf_eq_five_iff env L header).2 hL
    have hle := tierOf_le env M header
    have hne : tierOf env M header ≠ 5 :=
      fun h => hothers M hM ((tierOf_eq_five_iff env M header).1 h)
    omega
  have hloop := resolveLoop_of_best env header arch pre post L none 0
    (fun M hM => hlt M (List.mem_append_left _ hM))
    (fun M hM => hlt M (List.mem_append_right _ hM)) (Or.inl rfl)
  unfold ResolveFor
  rw [hlist, hloop]

open librariesresolver libraries ResolverSpec in
/-- C12 amended, at the examples of the spec: `Foo` wins over `Foo-master` for `Foo.h`
and `WiFi101` over `WiFi101Examples` for `WiFi101.h`, each scanned last. -/
theorem resolveFor_exact_match_witness :
    ResolveFor (sampleEnv sampleDirs)
      (scanLibraries (sampleEnv sampleDirs) NewCppResolver [libFooMaster, libFoo])
      "Foo.h" "avr" = some libFoo ∧
    ResolveFor (sampleEnv sampleDirs)
      (scanLibraries (sampleEnv sampleDirs) NewCppResolver [libWiFi101Examples, libWiFi101])
      "WiFi101.h" "avr" = some libWiFi101 :=
  ⟨resolveFor_exact_match (sampleEnv sampleDirs) _ "Foo.h" "avr" [libFooMaster] [] libFoo
      (by decide) (by decide)
      (by
        intro M hM
        simp only [List.append_nil, List.mem_singleton] at hM
        subst hM
        decide),
    resolveFor_exact_match (sampleEnv sampleDirs) _ "WiFi101.h" "avr" [libWiFi101Examples] []
      libWiFi101 (by decide) (by decide)
      (by
        intro M hM
        simp only [List.append_nil, List.mem_singleton] at hM
        subst hM
        decide)⟩

open librariesresolver libraries ResolverSpec in
/-- C13: when the scan of exactly one of the scanned libraries records the
header, and records it once, `ResolveFor` returns that library for every
architecture. -/
theorem resolveFor_single_provider (env : Env) (pre post : List Library) (L : Library)
    (H arch : String) (hL : (headerNames env L).count H = 1)
    (hothers : ∀ M ∈ pre ++ post, H ∉ headerNames env M) :
    ResolveFor env (scanLibraries env NewCppResolver (pre ++ L :: post)) H arch = some L := by
  have hheaders : (scanLibraries env NewCppResolver (pre ++ L :: post)).headers H = [L] := by
    rw [headers_scanLibraries]
    simp only [NewCppResolver, List.nil_append, List.flatMap_append, List.flatMap_cons]
    rw [flatMap_replicate_of_not_mem env pre H (fun M hM => hothers M (List.mem_append_left _ hM)),
      flatMap_replicate_of_not_mem env post H
        (fun M hM => hothers M (List.mem_append_right _ hM)), hL]
    rfl
  unfold ResolveFor
  rw [hheaders]
  rfl

open librariesresolver libraries ResolverSpec in
/-- C13 at the header `WiFi101.h`, which only `WiFi101` provides among the
libraries `Foo`, `WiFi101` and `X1`. -/
theorem resolveFor_single_provider_witness :
    ResolveFor (sampleEnv sampleDirs)
      (scanLibraries (sampleEnv sampleDirs) NewCppResolver ([libFoo] ++ libWiFi101 :: [libX1]))
      "WiFi101.h" "avr" = some libWiFi101 :=
  resolveFor_single_provider (sampleEnv sampleDirs) [libFoo] [libX1] libWiFi101 "WiFi101.h"
    "avr" (by decide)
    (by
      intro M hM
      simp only [List.singleton_append, List.mem_cons, List.mem_singleton, List.not_mem_nil,
        or_false] at hM
      rcases hM with rfl | rfl <;> decide)

open librariesresolver libraries ResolverSpec in
/-- C14, the code at the failing input: the libraries `X1` and `Y2` both
provide `Foo.h` and tie on the score; no name shares two characters with the
header, the tie-break names no library, and `ResolveFor` returns nil although
two libraries are indexed for the header. -/
theorem resolveFor_nil_with_providers :
    (scanLibraries (sampleEnv sampleDirs) NewCppResolver [libX1, libY2]).headers "Foo.h" =
      [libX1, libY2] ∧
    computePriority (sampleEnv sampleDirs) libX1 "Foo.h" "avr" =
      computePriority (sampleEnv sampleDirs) libY2 "Foo.h" "avr" ∧
    (sampleEnv sampleDirs).closest ["x1", "y2"] "Foo.h" = "" ∧
    ResolveFor (sampleEnv sampleDirs)
      (scanLibraries (sampleEnv sampleDirs) NewCppResolver [libX1, libY2]) "Foo.h" "avr" =
      none := by
  refine ⟨?_, ?_, ?_, ?_⟩ <;> decide

/-! ### Lemmas on the releases of a platform -/

namespace cores

theorem highestRelease_eq_none {V : Type} [LinearOrder V] (l : List (PlatformRelease V)) :
    highestRelease l = none ↔ l = [] := by
  cases l with
  | nil => simp [highestRelease]
  | cons r rest =>
    simp only [highestRelease]
    cases highestRelease rest with
    | none => simp
    | some m =>
      simp only
      split <;> simp

/-- The latest release is a release of the platform, and no release has a
higher version. -/
theorem highestRelease_some {V : Type} [LinearOrder V] (l : List (PlatformRelease V))
    (m : PlatformRelease V) (h : highestRelease l = some m) :
    m ∈ l ∧ ∀ r ∈ l, r.Version ≤ m.Version := by
  induction l generalizing m with
  | nil => simp [highestRelease] at h
  | cons r rest ih =>
    simp only [highestRelease] at h
    cases hrest : highestRelease rest with
    | none =>
      rw [hrest] at h
      simp only [Option.some.injEq] at h
      subst h
      have hnil := (highestRelease_eq_none rest).1 hrest
      subst hnil
      exact ⟨List.mem_cons_self _ _, by simp⟩
    | some m' =>
      rw [hrest] at h
      simp only at h
      obtain ⟨hm', hall⟩ := ih m' hrest
      by_cases hlt : m'.Version < r.Version
      · rw [if_pos hlt] at h
        simp only [Option.some.injEq] at h
        subst h
        refine ⟨List.mem_cons_self _ _, ?_⟩
        intro x hx
        rcases List.mem_cons.1 hx with e | hx'
        · rw [e]
        · exact le_trans (hall x hx') (le_of_lt hlt)
      · rw [if_neg hlt] at h
        simp only [Option.some.injEq] at h
        subst h
        refine ⟨List.mem_cons_of_mem _ hm', ?_⟩
        intro x hx
        rcases List.mem_cons.1 hx with e | hx'
        · rw [e]
          exact not_lt.1 hlt
        · exact hall x hx'

theorem findReleaseWithVersion_eq_none {V : Type} [DecidableEq V] (platform : Platform V)
    (version : V) :
    platform.FindReleaseWithVersion version = none ↔
      ∀ r ∈ platform.Releases, r.Version ≠ version := by
  unfold Platform.FindReleaseWithVersion
  simp [List.find?_eq_none]

theorem findReleaseWithVersion_some {V : Type} [DecidableEq V] (platform : Platform V)
    (version : V) (release : PlatformRelease V)
    (h : platform.FindReleaseWithVersion version = some release) :
    release ∈ platform.Releases ∧ release.Version = version := by
  unfold Platform.FindReleaseWithVersion at h
  exact ⟨List.mem_of_find?_eq_some h, by simpa using List.find?_some h⟩

end cores

/-! ### The lookup of a platform release: the claim -/

open cores packagemanager PackageManagerSpec in
/-- C17: `FindPlatformReleaseDependencies` fails exactly when the package is
unknown, or the architecture is unknown in the package, or a version is given
that no release of the platform has, or no version is given and the platform
has no releases, or the tool dependencies of the release found cannot be
resolved; otherwise it returns a release of the platform, with the requested
version when one is given and with a version no release exceeds when none is
given, together with the tools resolved for it. -/
theorem findPlatformReleaseDependencies_spec {V : Type} [LinearOrder V]
    (pm : PackageManager V) (item : PlatformReference V) :
    ((∃ e, pm.FindPlatformReleaseDependencies item = .error e) ↔
      pm.Packages item.Package = none ∨
      (∃ pkg, pm.Packages item.Package = some pkg ∧
        pkg.Platforms item.PlatformArchitecture = none) ∨
      (∃ platform version, platformOf pm item = some platform ∧
        item.PlatformVersion = some version ∧ ∀ r ∈ platform.Releases, r.Version ≠ version) ∨
      (∃ platform, platformOf pm item = some platform ∧ item.PlatformVersion = none ∧
        platform.Releases = []) ∨
      (∃ platform release err, platformOf pm item = some platform ∧
        (∀ v, item.PlatformVersion = some v →
          platform.FindReleaseWithVersion v = some release) ∧
        (item.PlatformVersion = none → platform.GetLatestRelease = some release) ∧
        pm.GetDepsOfPlatformRelease release = .error err)) ∧
    (∀ release tools, pm.FindPlatformReleaseDependencies item = .ok (release, tools) →
      ∃ platform, platformOf pm item = some platform ∧ release ∈ platform.Releases ∧
        (∀ v, item.PlatformVersion = some v → release.Version = v) ∧
        (item.PlatformVersion = none → ∀ r ∈ platform.Releases, r.Version ≤ release.Version) ∧
        pm.GetDepsOfPlatformRelease release = .ok tools) := by
  cases hP : pm.Packages item.Package with
  | none =>
    have hF : pm.FindPlatformReleaseDependencies item = .error (.packageNotFound item.Package) := by
      simp only [PackageManager.FindPlatformReleaseDependencies, hP]
    rw [hF]
    exact ⟨⟨fun _ => Or.inl rfl, fun _ => ⟨_, rfl⟩⟩, fun _ _ h => by cases h⟩
  | some pkg =>
    cases hA : pkg.Platforms item.PlatformArchitecture with
    | none =>
      have hF : pm.FindPlatformReleaseDependencies item =
          .error (.platformNotFound item.PlatformArchitecture pkg.Name) := by
        simp only [PackageManager.FindPlatformReleaseDependencies, hP, hA]
      rw [hF]
      exact ⟨⟨fun _ => Or.inr (Or.inl ⟨pkg, rfl, hA⟩), fun _ => ⟨_, rfl⟩⟩,
        fun _ _ h => by cases h⟩
    | some platform =>
      have hplat : platformOf pm item = some platform := by
        simp only [platformOf, hP, hA]
      have hnot1 : ¬ (none : Option (Package V)) = some pkg := by simp
      cases hv : item.PlatformVersion with
      | some version =>
        cases hr : platform.FindReleaseWithVersion version with
        | none =>
          have hF : pm.FindPlatformReleaseDependencies item =
              .error (.versionNotFound version platform.Architecture) := by
            simp only [PackageManager.FindPlatformReleaseDependencies, hP, hA, hv, hr]
          rw [hF]
          refine ⟨⟨fun _ => ?_, fun _ => ⟨_, rfl⟩⟩, fun _ _ h => by cases h⟩
          exact Or.inr (Or.inr (Or.inl ⟨platform, version, hplat, rfl,
            (findReleaseWithVersion_eq_none platform version).1 hr⟩))
        | some release =>
          obtain ⟨hmem, hver⟩ := findReleaseWithVersion_some platform version release hr
          cases hd : pm.GetDepsOfPlatformRelease release with
          | error err =>
            have hF : pm.FindPlatformReleaseDependencies item =
                .error (.toolDependencies release err) := by
              simp only [PackageManager.FindPlatformReleaseDependencies, hP, hA, hv, hr, hd]
            rw [hF]
            refine ⟨⟨fun _ => ?_, fun _ => ⟨_, rfl⟩⟩, fun _ _ h => by cases h⟩
            refine Or.inr (Or.inr (Or.inr (Or.inr ⟨platform, release, err, hplat, ?_, ?_, hd⟩)))
            · intro v hv'
              cases hv'
              exact hr
            · intro hn
              cases hn
          | ok toolDeps =>
            have hF : pm.FindPlatformReleaseDependencies item = .ok (release, toolDeps) := by
              simp only [PackageManager.FindPlatformReleaseDependencies, hP, hA, hv, hr, hd]
            rw [hF]
            refine ⟨⟨fun h => ?_, fun h => ?_⟩, ?_⟩
            · obtain ⟨e, he⟩ := h
              cases he
            · exfalso
              rcases h with h | ⟨p, hp, ha⟩ | ⟨pl, v, hpl, hv', hall⟩ | ⟨pl, hpl, hv', _⟩ |
                ⟨pl, rel, err, hpl, hfind, _, hdeps⟩
              · cases h
              · cases hp
                rw [hA] at ha
                cases ha
              · rw [hplat] at hpl
                cases hpl
                cases hv'
                exact hall release hmem hver
              · cases hv'
              · rw [hplat] at hpl
                cases hpl
                have := hfind version rfl
                rw [hr] at this
                cases this
                rw [hd] at hdeps
                cases hdeps
            · intro rel tools h
              simp only [Except.ok.injEq, Prod.mk.injEq] at h
              obtain ⟨h1, h2⟩ := h
              subst h1 h2
              refine ⟨platform, hplat, hmem, ?_, ?_, hd⟩
              · intro v hv'
                cases hv'
                exact hver
              · intro hn
                cases hn
      | none =>
        cases hr : platform.GetLatestRelease with
        | none =>
          have hF : pm.FindPlatformReleaseDependencies item =
              .error (.noReleases platform.Architecture) := by
            simp only [PackageManager.FindPlatformReleaseDependencies, hP, hA, hv, hr]
          rw [hF]
          refine ⟨⟨fun _ => ?_, fun _ => ⟨_, rfl⟩⟩, fun _ _ h => by cases h⟩
          exact Or.inr (Or.inr (Or.inr (Or.inl ⟨platform, hplat, rfl,
            (highestRelease_eq_none platform.Releases).1 hr⟩)))
        | some release =>
          obtain ⟨hmem, hmax⟩ := highestRelease_some platform.Releases release hr
          cases hd : pm.GetDepsOfPlatformRelease release with
          | error err =>
            have hF : pm.FindPlatformReleaseDependencies item =
                .error (.toolDependencies release err) := by
              simp only [PackageManager.FindPlatformReleaseDependencies, hP, hA, hv, hr, hd]
            rw [hF]
            refine ⟨⟨fun _ => ?_, fun _ => ⟨_, rfl⟩⟩, fun _ _ h => by cases h⟩
            refine Or.inr (Or.inr (Or.inr (Or.inr ⟨platform, release, err, hplat, ?_, ?_, hd⟩)))
            · intro v hv'
              cases hv'
            · intro _
              exact hr
          | ok toolDeps =>
            have hF : pm.FindPlatformReleaseDependencies item = .ok (release, toolDeps) := by
              simp only [PackageManager.FindPlatformReleaseDependencies, hP, hA, hv, hr, hd]
            rw [hF]
            refine ⟨⟨fun h => ?_, fun h => ?_⟩, ?_⟩
            · obtain ⟨e, he⟩ := h
              cases he
            · exfalso
              rcases h with h | ⟨p, hp, ha⟩ | ⟨pl, v, hpl, hv', hall⟩ | ⟨pl, hpl, hv', hnil⟩ |
                ⟨pl, rel, err, hpl, _, hlatest, hdeps⟩
              · cases h
              · cases hp
                rw [hA] at ha
                cases ha
              · cases hv'
              · rw [hplat] at hpl
                cases hpl
                rw [hnil] at hmem
                cases hmem
              · rw [hplat] at hpl
                cases hpl
                have := hlatest rfl
                rw [hr] at this
                cases this
                rw [hd] at hdeps
                cases hdeps
            · intro rel tools h
              simp only [Except.ok.injEq, Prod.mk.injEq] at h
              obtain ⟨h1, h2⟩ := h
              subst h1 h2
              refine ⟨platform, hplat, hmem, ?_, ?_, hd⟩
              · intro v hv'
                cases hv'
              · intro _
                exact hmax

open cores packagemanager PackageManagerSpec in
/-- The lookup on the sample package manager: the latest release of
`arduino:avr` is release 3; release 2 fails on its tools; release 4 and the
package `esp` are not found. -/
theorem findPlatformReleaseDependencies_sample :
    samplePackageManager.FindPlatformReleaseDependencies ⟨"arduino", "avr", none⟩ =
      .ok (⟨3, ["gcc"]⟩, [⟨"gcc", "7.3.0"⟩]) ∧
    samplePackageManager.FindPlatformReleaseDependencies ⟨"arduino", "avr", some 2⟩ =
      .error (.toolDependencies ⟨2, ["gcc"]⟩ "tool gcc not found") ∧
    samplePackageManager.FindPlatformReleaseDependencies ⟨"arduino", "avr", some 4⟩ =
      .error (.versionNotFound 4 "avr") ∧
    samplePackageManager.FindPlatformReleaseDependencies ⟨"esp", "avr", none⟩ =
      .error (.packageNotFound "esp") :=
  ⟨rfl, rfl, rfl, rfl⟩

/-! ### Lemmas on `Download` after a failed integrity check -/

namespace resources.DownloadResource

open ResourceSpec

/-- A checksum string that declares no digest makes the checksum test fail. -/
theorem testLocalArchiveChecksum_error_of_not_declares (w : World) (r : DownloadResource)
    (downloadDir : String) (hbad : ¬ ∃ algo digest, declares r algo digest) :
    ∃ e, TestLocalArchiveChecksum w r downloadDir = .error e := by
  unfold TestLocalArchiveChecksum
  split
  · rename_i algoToken hexDigits hs
    obtain ⟨hc, _, _⟩ := strings.splitN2_pair _ _ _ _ hs
    split
    · exact ⟨_, rfl⟩
    · rename_i digest hx
      simp only
      split
      · exact ⟨_, rfl⟩
      · rename_i algo ha
        exfalso
        apply hbad
        have hat := (switch_eq_some_iff algoToken algo).1 ha
        refine ⟨algo, digest, hexDigits, ?_, hx⟩
        rw [hc, hat]
  · exact ⟨_, rfl⟩

/-- `Download` once the integrity check has answered false and the archive
path is resolved. -/
theorem download_of_not_intact (w : World) (r : DownloadResource) (downloadDir path : String)
    (hint : TestLocalArchiveIntegrity w r downloadDir = .ok false)
    (hp : ArchivePath w r downloadDir = .ok path) :
    Download w r downloadDir =
      (match w.stat path with
        | .notExist _ => requestTransfer w r path []
        | .info stats =>
          if stats.Size > r.Size then
            match w.remove path with
            | some err =>
              { downloader := none, err := some (.removingCorruptedArchiveFile err),
                effects := [] }
            | none => requestTransfer w r path [.removed path]
          else requestTransfer w r path []
        | .failed err =>
          { downloader := none, err := some (.gettingArchiveFileInfo err), effects := [] }) := by
  unfold Download
  rw [hint]
  simp only [hp]

theorem requestTransfer_effects (w : World) (r : DownloadResource) (path : String)
    (effects : List Effect) :
    (requestTransfer w r path effects).effects = effects ++ [.transferRequested path r.URL] := by
  unfold requestTransfer
  cases w.startDownload path r.URL <;> rfl

end resources.DownloadResource

/-! ### `Download` after a failed integrity check: the claims -/

open resources resources.DownloadResource ResourceSpec in
/-- C18: when the integrity check answers false, `Download` removes the local
archive exactly when it exists and is strictly larger than the expected size
(if the removal fails the error is returned and no transfer is asked for); a
missing file, and a file that is not larger than expected, is left in place
and the transfer is asked for on its path; a stat error other than not-exist
makes `Download` fail without asking for a transfer. -/
theorem download_removes_iff_larger (w : World) (r : DownloadResource)
    (downloadDir path : String)
    (hint : TestLocalArchiveIntegrity w r downloadDir = .ok false)
    (hp : ArchivePath w r downloadDir = .ok path) :
    (Effect.removed path ∈ (Download w r downloadDir).effects ↔
      (∃ fi, w.stat path = .info fi ∧ fi.Size > r.Size) ∧ w.remove path = none) ∧
    (∀ fi, w.stat path = .info fi → fi.Size > r.Size → w.remove path = none →
      Download w r downloadDir = requestTransfer w r path [.removed path]) ∧
    (∀ fi e, w.stat path = .info fi → fi.Size > r.Size → w.remove path = some e →
      Download w r downloadDir =
        { downloader := none, err := some (.removingCorruptedArchiveFile e), effects := [] }) ∧
    (∀ fi, w.stat path = .info fi → ¬ fi.Size > r.Size →
      Download w r downloadDir = requestTransfer w r path []) ∧
    (∀ e, w.stat path = .notExist e → Download w r downloadDir = requestTransfer w r path []) ∧
    (∀ e, w.stat path = .failed e →
      Download w r downloadDir =
        { downloader := none, err := some (.gettingArchiveFileInfo e), effects := [] }) ∧
    (∀ effects, (requestTransfer w r path effects).effects =
      effects ++ [.transferRequested path r.URL]) := by
  have hD := download_of_not_intact w r downloadDir path hint hp
  refine ⟨?_, ?_, ?_, ?_, ?_, ?_, requestTransfer_effects w r path⟩
  · rw [hD]
    cases hst : w.stat path with
    | notExist e =>
      simp only [requestTransfer_effects]
      constructor
      · intro h
        simp at h
      · rintro ⟨⟨fi, hfi, _⟩, _⟩
        cases hfi
    | failed e =>
      simp only
      constructor
      · intro h
        cases h
      · rintro ⟨⟨fi, hfi, _⟩, _⟩
        cases hfi
    | info stats =>
      simp only
      by_cases hgt : stats.Size > r.Size
      · rw [if_pos hgt]
        cases hrm : w.remove path with
        | some err =>
          simp only
          constructor
          · intro h
            cases h
          · rintro ⟨_, h⟩
            cases h
        | none =>
          simp only [requestTransfer_effects]
          exact ⟨fun _ => ⟨⟨stats, rfl, hgt⟩, trivial⟩, fun _ => by simp⟩
      · rw [if_neg hgt]
        simp only [requestTransfer_effects]
        constructor
        · intro h
          simp at h
        · rintro ⟨⟨fi, hfi, hfgt⟩, _⟩
          cases hfi
          exact absurd hfgt hgt
  · intro fi hst hgt hrm
    rw [hD]
    simp only [hst, if_pos hgt, hrm]
  · intro fi e hst hgt hrm
    rw [hD]
    simp only [hst, if_pos hgt, hrm]
  · intro fi hst hgt
    rw [hD]
    simp only [hst, if_neg hgt]
  · intro e hst
    rw [hD]
    simp only [hst]
  · intro e hst
    rw [hD]
    simp only [hst]

open resources resources.DownloadResource ResourceSpec in
/-- C18 at the sample archive of three bytes, with two bytes expected: the
archive is removed and the transfer asked for. -/
theorem download_removes_iff_larger_witness :
    TestLocalArchiveIntegrity sampleWorld { sampleResource with Size := 2 } "/dl" = .ok false ∧
    Download sampleWorld { sampleResource with Size := 2 } "/dl" =
      requestTransfer sampleWorld { sampleResource with Size := 2 } "/dl/pkg/a.zip"
        [.removed "/dl/pkg/a.zip"] :=
  ⟨rfl, (download_removes_iff_larger sampleWorld { sampleResource with Size := 2 } "/dl"
    "/dl/pkg/a.zip" rfl rfl).2.1 ⟨3, 10⟩ rfl (by decide) rfl⟩

open resources resources.DownloadResource ResourceSpec in
/-- C19, refuted as stated: with the checksum string `SHA-999:abcd` and no
cached archive, `TestLocalArchiveIntegrity` answers false without error and
`Download` starts the transfer without error; the same with a cached archive
of another size than expected. -/
theorem integrity_no_error_counterexample :
    (TestLocalArchiveIntegrity sampleWorld
        { sampleResource with Checksum := "SHA-999:abcd", ArchiveFileName := "b.zip" } "/dl" =
        .ok false ∧
      Download sampleWorld
        { sampleResource with Checksum := "SHA-999:abcd", ArchiveFileName := "b.zip" } "/dl" =
        { downloader := some ⟨"/dl/pkg/b.zip", "http://example.com/a.zip"⟩, err := none,
          effects := [.transferRequested "/dl/pkg/b.zip" "http://example.com/a.zip"] }) ∧
    (TestLocalArchiveIntegrity sampleWorld
        { sampleResource with Checksum := "SHA-999:abcd", Size := 5 } "/dl" = .ok false ∧
      (Download sampleWorld
        { sampleResource with Checksum := "SHA-999:abcd", Size := 5 } "/dl").err = none) :=
  ⟨⟨rfl, rfl⟩, ⟨rfl, rfl⟩⟩

open resources resources.DownloadResource ResourceSpec in
/-- C19, amended: for a resource whose checksum string is not `ALGO:HEX` with
a supported `ALGO` and a decodable `HEX`, `TestLocalArchiveChecksum` returns
an error whatever the state of the cached archive; `TestLocalArchiveIntegrity`
and `Download` return an error, and `Download` asks for no transfer, when the
cached archive exists with the expected size; when the archive is absent or of
another size, `TestLocalArchiveIntegrity` answers false without error. -/
theorem integrity_fails_on_bad_checksum (w : World) (r : DownloadResource)
    (downloadDir : String) (hbad : ¬ ∃ algo digest, declares r algo digest) :
    (∃ e, TestLocalArchiveChecksum w r downloadDir = .error e) ∧
    (∀ path fi, ArchivePath w r downloadDir = .ok path → w.stat path = .info fi →
      fi.Size = r.Size →
      (∃ e, TestLocalArchiveIntegrity w r downloadDir = .error e) ∧
      (∃ e, Download w r downloadDir = { downloader := none, err := some e, effects := [] })) ∧
    (∀ path, ArchivePath w r downloadDir = .ok path →
      ((∀ fi, w.stat path ≠ .info fi) ∨ ∃ fi, w.stat path = .info fi ∧ fi.Size ≠ r.Size) →
      TestLocalArchiveIntegrity w r downloadDir = .ok false) := by
  obtain ⟨e, he⟩ := testLocalArchiveChecksum_error_of_not_declares w r downloadDir hbad
  refine ⟨⟨e, he⟩, ?_, ?_⟩
  · intro path fi hp hst hsz
    have h1 : IsCached w r downloadDir = .ok true := by
      rw [isCached_eq w r downloadDir path hp]
      simp only [Exist, hst]
    have h2 : TestLocalArchiveSize w r downloadDir = .ok true := by
      simp only [TestLocalArchiveSize, hp, hst, hsz, decide_True]
    have hI : TestLocalArchiveIntegrity w r downloadDir = .error (.testingArchiveChecksum e) := by
      unfold TestLocalArchiveIntegrity
      rw [h1]
      simp only
      rw [h2]
      simp only
      rw [he]
    refine ⟨⟨_, hI⟩, ⟨.testingLocalArchiveIntegrity (.testingArchiveChecksum e), ?_⟩⟩
    unfold Download
    rw [hI]
  · intro path hp hstate
    rcases hstate with hno | ⟨fi, hst, hsz⟩
    · have hex : Exist w path = false := by
        unfold Exist
        split
        · rename_i fi hfi
          exact absurd hfi (hno fi)
        · rfl
      unfold TestLocalArchiveIntegrity
      rw [isCached_eq w r downloadDir path hp, hex]
    · have hex : Exist w path = true := by
        simp only [Exist, hst]
      have h2 : TestLocalArchiveSize w r downloadDir = .ok false := by
        simp only [TestLocalArchiveSize, hp, hst, hsz, decide_False]
      unfold TestLocalArchiveIntegrity
      rw [isCached_eq w r downloadDir path hp, hex]
      simp only
      rw [h2]

open resources resources.DownloadResource ResourceSpec in
/-- C19 amended, at the sample archive with the checksum string
`SHA-999:abcd`. -/
theorem integrity_fails_on_bad_checksum_witness :
    ∃ e, TestLocalArchiveChecksum sampleWorld
      { sampleResource with Checksum := "SHA-999:abcd" } "/dl" = .error e :=
  (integrity_fails_on_bad_checksum sampleWorld
    { sampleResource with Checksum := "SHA-999:abcd" } "/dl"
    (by
      rintro ⟨algo, digest, hexDigits, hc, _⟩
      have h1 := congrArg (fun s => strings.firstField s ':') hc
      simp only at h1
      have h2 := strings.firstField_append algo.token hexDigits ':' (token_no_colon algo)
      rw [show algo.token ++ ":" ++ hexDigits = algo.token ++ String.mk [':'] ++ hexDigits
        from rfl, h2] at h1
      cases algo <;> revert h1 <;> decide)).1


/-! ### Lemmas on the directory checksum -/

namespace resources

open DirChecksumSpec

/-- For a file whose path is its directory joined with its name, and a root in
clean form, the test of `computeDirChecksum` for the manifest holds exactly of
the manifest. -/
theorem manifest_test (w : DirWorld) (root : String) (e : WalkEntry)
    (hjoin : e.Path = w.join e.Dir e.Name)
    (hroot : e.Path = w.join root packageFileName → e.Name = packageFileName ∧ e.Dir = root) :
    (e.Name == packageFileName && e.Dir == root) = isManifest w root e := by
  unfold isManifest
  rw [Bool.eq_iff_iff]
  simp only [Bool.and_eq_true, beq_iff_eq]
  constructor
  · rintro ⟨h1, h2⟩
    rw [hjoin, h1, h2]
  · exact hroot

/-- Without a read error the walk hashes the contents of the hashed files, in
walk order. -/
theorem walkHash_ok (w : DirWorld) (root : String) (entries : List WalkEntry)
    (hman : ∀ e ∈ entries, e.IsDir = false →
      (e.Name == packageFileName && e.Dir == root) = isManifest w root e)
    (hcopy : ∀ e ∈ entries, isHashed w root e = true → e.copyErr = none) :
    walkHash root entries = .ok (hashedContents w root entries) := by
  induction entries with
  | nil => rfl
  | cons e rest ih =>
    have ihr := ih (fun x hx => hman x (List.mem_cons_of_mem _ hx))
      (fun x hx => hcopy x (List.mem_cons_of_mem _ hx))
    unfold walkHash
    cases hd : e.IsDir with
    | true =>
      have hn : isHashed w root e = false := by
        unfold isHashed
        simp [hd]
      simp only [Bool.or_true, Bool.true_or, if_true, ihr]
      simp only [hashedContents, List.filter_cons, hn, Bool.false_eq_true, if_false]
    | false =>
      have hm := hman e (List.mem_cons_self _ _) hd
      rw [hm]
      by_cases hskip : (e.walkErr.isSome || false || isManifest w root e) = true
      · rw [if_pos hskip, ihr]
        have hn : isHashed w root e = false := by
          unfold isHashed
          simp only [Bool.or_false, Bool.or_eq_true] at hskip
          rcases hskip with h | h
          · simp [h]
          · simp [h]
        simp only [hashedContents, List.filter_cons, hn, Bool.false_eq_true, if_false]
      · rw [if_neg hskip]
        have hskip' : (e.walkErr.isSome || false || isManifest w root e) = false := by
          simpa using hskip
        simp only [Bool.or_false, Bool.or_eq_false_iff] at hskip'
        cases ho : e.openErr with
        | some err =>
          simp only
          rw [ihr]
          have hn : isHashed w root e = false := by
            unfold isHashed
            simp [ho]
          simp only [hashedContents, List.filter_cons, hn, Bool.false_eq_true, if_false]
        | none =>
          have hh : isHashed w root e = true := by
            unfold isHashed
            simp [hskip'.1, hskip'.2, ho, hd]
          have hc := hcopy e (List.mem_cons_self _ _) hh
          simp only [hc, ihr]
          simp only [hashedContents, List.filter_cons, hh, if_true, List.flatMap_cons]

/-- The walk does not read the modification times. -/
theorem walkHash_modTime (root : String) (f : WalkEntry → Nat) (entries : List WalkEntry) :
    walkHash root (entries.map fun e => { e with ModTime := f e }) = walkHash root entries := by
  induction entries with
  | nil => rfl
  | cons e rest ih =>
    simp only [List.map_cons]
    unfold walkHash
    simp only [ih]

/-- The test for the manifest, for the files of a walk whose paths are joined
and whose root is in clean form. -/
theorem manifest_test_of_clean (w : DirWorld) (root : String)
    (hjoin : pathsAreJoined w root) (hclean : rootIsClean w root) :
    ∀ e ∈ w.walk root, e.IsDir = false →
      (e.Name == packageFileName && e.Dir == root) = isManifest w root e :=
  fun e he hd => manifest_test w root e (hjoin e he hd) (hclean e he)

/-- `CheckDirChecksum` with the manifest read and without a read error during
the walk. -/
theorem checkDirChecksum_eq (w : DirWorld) (root : String) (packageJSON : List Nat)
    (hman : ∀ e ∈ w.walk root, e.IsDir = false →
      (e.Name == packageFileName && e.Dir == root) = isManifest w root e)
    (hread : w.readFile (w.join root packageFileName) = .ok packageJSON)
    (hcopy : ∀ e ∈ w.walk root, isHashed w root e = true → e.copyErr = none) :
    CheckDirChecksum w root =
      .ok (decide (w.jsonChecksum packageJSON =
        hexDigest w (hashedContents w root (w.walk root)))) := by
  unfold CheckDirChecksum computeDirChecksum
  rw [hread]
  simp only [walkHash_ok w root (w.walk root) hman hcopy]
  rfl

theorem isHashed_content (w : DirWorld) (root : String) (e : WalkEntry) (content : List Nat) :
    isHashed w root { e with Content := content } = isHashed w root e := rfl

theorem hashedContents_split (w : DirWorld) (root : String) (pre post : List WalkEntry)
    (e : WalkEntry) (h : isHashed w root e = true) :
    hashedContents w root (pre ++ e :: post) =
      hashedContents w root pre ++ (e.Content ++ hashedContents w root post) := by
  simp only [hashedContents, List.filter_append, List.filter_cons, h, if_true,
    List.flatMap_append, List.flatMap_cons]

end resources

/-! ### The directory checksum: the claims -/

open resources DirChecksumSpec in
/-- C20, refuted as stated: under `pkg` the file `b.txt` cannot be opened and
is left out of the hash; the manifest holds the digest of `a.txt` alone, which
is not the digest of the contents of all the files, and `CheckDirChecksum`
returns true; with other bytes in `b.txt` it returns true as well. And for the
root written `pkg/` the test `filepath.Dir(path) == root` fails for the
manifest, the manifest is hashed with the files, and `CheckDirChecksum`
returns false although the manifest holds the digest of the contents of all
the other files; written `pkg`, the same root gives true. -/
theorem checkDirChecksum_locked_file_counterexample :
    CheckDirChecksum (lockedFileWorld [2]) "pkg" = .ok true ∧
    (lockedFileWorld [2]).jsonChecksum [9] ≠
      hexDigest (lockedFileWorld [2])
        (allContents (lockedFileWorld [2]) "pkg" ((lockedFileWorld [2]).walk "pkg")) ∧
    CheckDirChecksum (lockedFileWorld [3]) "pkg" = .ok true ∧
    slashRootWorld.jsonChecksum [9] =
      hexDigest slashRootWorld (allContents slashRootWorld "pkg/" (slashRootWorld.walk "pkg/")) ∧
    CheckDirChecksum slashRootWorld "pkg/" = .ok false ∧
    CheckDirChecksum slashRootWorld "pkg" = .ok true ∧
    pathsAreJoined slashRootWorld "pkg/" ∧ ¬ rootIsClean slashRootWorld "pkg/" :=
  ⟨rfl, by decide, rfl, by decide, rfl, rfl, by unfold pathsAreJoined; decide,
    by unfold rootIsClean; decide⟩

open resources DirChecksumSpec in
/-- C20, amended: for a root in clean form, with a readable manifest and no
read error during the walk, `CheckDirChecksum(root)` returns true exactly when
the `checksum` field of the manifest is string-equal to the lower-case
hexadecimal SHA-256 of the concatenation, in walk order, of the contents of
every file under the root that the walk reaches without error and that can be
opened, except the manifest (the file `package.json` directly under the
root); the result does not depend on modification times; changing the bytes
of one such file changes the concatenation, and flips a true result to false
whenever the digest of the new concatenation differs from the old digest. -/
theorem checkDirChecksum_spec (w : DirWorld) (root : String) (packageJSON : List Nat)
    (hjoin : pathsAreJoined w root) (hclean : rootIsClean w root)
    (hread : w.readFile (w.join root packageFileName) = .ok packageJSON)
    (hcopy : ∀ e ∈ w.walk root, isHashed w root e = true → e.copyErr = none) :
    (CheckDirChecksum w root = .ok true ↔
      w.jsonChecksum packageJSON = hexDigest w (hashedContents w root (w.walk root))) ∧
    (∀ f, CheckDirChecksum (withModTimes f w) root = CheckDirChecksum w root) ∧
    (∀ pre post e content, w.walk root = pre ++ e :: post → isHashed w root e = true →
      content ≠ e.Content →
      hashedContents w root (pre ++ { e with Content := content } :: post) ≠
        hashedContents w root (w.walk root) ∧
      (CheckDirChecksum w root = .ok true →
        hexDigest w (hashedContents w root (pre ++ { e with Content := content } :: post)) ≠
          hexDigest w (hashedContents w root (w.walk root)) →
        CheckDirChecksum (withEntries (pre ++ { e with Content := content } :: post) w) root =
          .ok false)) := by
  have hman := manifest_test_of_clean w root hjoin hclean
  have hE := checkDirChecksum_eq w root packageJSON hman hread hcopy
  refine ⟨?_, ?_, ?_⟩
  · rw [hE]
    simp
  · intro f
    unfold CheckDirChecksum computeDirChecksum withModTimes
    simp only [walkHash_modTime]
  · intro pre post e content hwalk hh hne
    have hh' : isHashed w root { e with Content := content } = true := by
      rw [isHashed_content]
      exact hh
    refine ⟨?_, ?_⟩
    · rw [hwalk, hashedContents_split w root pre post _ hh',
        hashedContents_split w root pre post e hh]
      intro heq
      have h1 := List.append_cancel_left heq
      have h2 := List.append_cancel_right h1
      exact hne h2
    · intro htrue hdiff
      let w' := withEntries (pre ++ { e with Content := content } :: post) w
      have hmem : ∀ x ∈ w'.walk root, ∃ y ∈ w.walk root, x.IsDir = y.IsDir ∧
          x.Name = y.Name ∧ x.Dir = y.Dir ∧ x.Path = y.Path ∧ x.copyErr = y.copyErr ∧
          isHashed w root x = isHashed w root y := by
        intro x hx
        simp only [w', withEntries, List.mem_append, List.mem_cons] at hx
        rcases hx with hx | hx | hx
        · exact ⟨x, by rw [hwalk]; exact List.mem_append_left _ hx, rfl, rfl, rfl, rfl, rfl, rfl⟩
        · subst hx
          exact ⟨e, by rw [hwalk]; simp, rfl, rfl, rfl, rfl, rfl, rfl⟩
        · exact ⟨x, by rw [hwalk]; exact List.mem_append_right _ (List.mem_cons_of_mem _ hx),
            rfl, rfl, rfl, rfl, rfl, rfl⟩
      have hman' : ∀ x ∈ w'.walk root, x.IsDir = false →
          (x.Name == packageFileName && x.Dir == root) = isManifest w' root x := by
        intro x hx hd
        obtain ⟨y, hy, h1, h2, h3, h4, _, _⟩ := hmem x hx
        have := hman y hy (by rw [← h1]; exact hd)
        rw [h2, h3, this]
        unfold isManifest
        rw [h4]
        rfl
      have hcopy' : ∀ x ∈ w'.walk root, isHashed w' root x = true → x.copyErr = none := by
        intro x hx hxh
        obtain ⟨y, hy, _, _, _, _, h5, h6⟩ := hmem x hx
        rw [h5]
        apply hcopy y hy
        rw [← h6]
        exact hxh
      have hE' := checkDirChecksum_eq w' root packageJSON hman' hread hcopy'
      rw [hE']
      rw [hE] at htrue
      simp only [Except.ok.injEq, decide_eq_true_eq] at htrue
      congr 1
      rw [decide_eq_false_iff_not]
      intro hc
      apply hdiff
      have : hexDigest w' = hexDigest w := rfl
      rw [← htrue, ← this]
      exact hc.symm

open resources DirChecksumSpec in
/-- C20 amended, at the directory of `lockedFileWorld`, whose root `pkg` is in
clean form. -/
theorem checkDirChecksum_spec_witness :
    pathsAreJoined (lockedFileWorld [2]) "pkg" ∧ rootIsClean (lockedFileWorld [2]) "pkg" ∧
    (CheckDirChecksum (lockedFileWorld [2]) "pkg" = .ok true ↔
      (lockedFileWorld [2]).jsonChecksum [9] =
        hexDigest (lockedFileWorld [2])
          (hashedContents (lockedFileWorld [2]) "pkg" ((lockedFileWorld [2]).walk "pkg"))) :=
  have hj : pathsAreJoined (lockedFileWorld [2]) "pkg" := by
    intro e he _
    simp only [lockedFileWorld, List.mem_cons, List.mem_singleton, List.not_mem_nil,
      or_false] at he
    rcases he with rfl | rfl | rfl | rfl <;> first | rfl | contradiction
  have hc : rootIsClean (lockedFileWorld [2]) "pkg" := by
    intro e he hp
    simp only [lockedFileWorld, List.mem_cons, List.mem_singleton, List.not_mem_nil,
      or_false] at he
    rcases he with rfl | rfl | rfl | rfl
    · exact absurd hp (by decide)
    · exact absurd hp (by decide)
    · exact absurd hp (by decide)
    · exact ⟨rfl, rfl⟩
  ⟨hj, hc,
    (checkDirChecksum_spec (lockedFileWorld [2]) "pkg" [9] hj hc rfl
      (by
        intro e he _
        simp only [lockedFileWorld, List.mem_cons, List.mem_singleton, List.not_mem_nil,
          or_false] at he
        rcases he with rfl | rfl | rfl | rfl <;> rfl)).1⟩

/-! ### The default of an option without values -/

open properties cores BoardSpec in
/-- C29, the code at the failing input: a board whose properties hold the key
`menu.cpu` declares the option `cpu` with an empty subtree; with the empty
config no value is supplied for it, `optionMenu.FirstLevelKeys()` is the empty
list and indexing its first element stops `GetBuildProperties` in a run-time
panic instead of a map or an error. -/
theorem getBuildProperties_panics_on_option_without_values :
    optionsOf ⟨"uno", [("name", "Arduino Uno"), ("menu.cpu", "Processor")]⟩ = ["cpu"] ∧
    ((menuOf ⟨"uno", [("name", "Arduino Uno"), ("menu.cpu", "Processor")]⟩).SubTree
      "cpu").FirstLevelKeys = [] ∧
    Board.GetBuildProperties ⟨"uno", [("name", "Arduino Uno"), ("menu.cpu", "Processor")]⟩ [] =
      .panic := by
  refine ⟨?_, ?_, ?_⟩ <;> decide

/-! ### Lemmas on a worker pool without workers -/

namespace builder_utils

/-- Without workers, and with a source pending and no error recorded, a step
leaves the queue open and the source pending. -/
theorem step_no_workers (job : String → Except Error String × List Event) (s s' : PoolState)
    (st : PoolStep) (hw : s.workers = []) (hc : s.closed = false) (hp : s.pending ≠ [])
    (he : s.errors = []) (h : s.step job st = some s') :
    s'.workers = [] ∧ s'.closed = false ∧ s'.pending ≠ [] ∧ s'.errors = [] := by
  cases st with
  | feeder =>
    simp only [PoolState.step, hc, Bool.false_or] at h
    cases hf : s.feederChecked with
    | true => simp [hf] at h
    | false =>
      rw [hf] at h
      cases hpe : s.pending with
      | nil => exact absurd hpe hp
      | cons x rest =>
        simp only [hpe, he, List.length_nil, gt_iff_lt, lt_self_iff_false, if_false,
          Bool.false_eq_true, Option.some.injEq] at h
        subst h
        exact ⟨hw, rfl, by simp, rfl⟩
  | receive i =>
    simp only [PoolState.step, hw] at h
    cases hf : s.feederChecked with
    | false => simp [hf] at h
    | true =>
      rw [hf] at h
      cases hpe : s.pending <;> simp [hpe] at h
  | finish i =>
    simp [PoolState.step, hw] at h

/-- Without workers no run ever closes the queue. -/
theorem run_no_workers (job : String → Except Error String × List Event)
    (schedule : List PoolStep) (s s' : PoolState)
    (hw : s.workers = []) (hc : s.closed = false) (hp : s.pending ≠ [])
    (he : s.errors = []) (h : PoolState.run job s schedule = some s') :
    s'.closed = false := by
  induction schedule generalizing s with
  | nil =>
    simp only [PoolState.run, Option.some.injEq] at h
    subst h
    exact hc
  | cons st rest ih =>
    simp only [PoolState.run] at h
    cases hs : s.step job st with
    | none => simp [hs] at h
    | some s1 =>
      rw [hs] at h
      obtain ⟨h1, h2, h3, h4⟩ := step_no_workers job s s1 st hw hc hp he hs
      exact ih s1 h1 h2 h3 h4 h

/-- With a negative `ctx.Jobs` and a source to compile, no schedule is a
complete run of `compileFilesWithRecipe`: the call does not return. -/
theorem compileFilesWithRecipe_no_workers (env : Env) (ctx : Context) (sourcePath : String)
    (sources : List String) (buildPath : String) (buildProperties : properties.Map)
    (includes : List String) (recipe : String) (schedule : List PoolStep)
    (hj : ctx.Jobs < 0) (hne : sources ≠ []) :
    workerCount env ctx = 0 ∧
    compileFilesWithRecipe env ctx sourcePath sources buildPath buildProperties includes recipe
      schedule = none := by
  have hw : workerCount env ctx = 0 := by
    unfold workerCount
    have h0 : ctx.Jobs ≠ 0 := by omega
    simp only [if_neg h0]
    omega
  refine ⟨hw, ?_⟩
  have hl : sources.length ≠ 0 := by
    intro h
    exact hne (List.length_eq_zero.mp h)
  rw [compileFilesWithRecipe_eq_run env ctx sourcePath sources buildPath buildProperties includes
    recipe schedule hl]
  cases hr : PoolState.run (compileJob env ctx sourcePath buildPath buildProperties includes
      recipe) (poolStart env ctx sources) schedule with
  | none => rfl
  | some s =>
    have hc := run_no_workers _ schedule (poolStart env ctx sources) s
      (by simp [poolStart, hw]) rfl hne rfl hr
    simp [PoolState.finished, hc]

end builder_utils

/-! ### The number of workers: the claim -/

open builder_utils BuilderSpec in
/-- C30, the code at the failing input: with `ctx.Jobs = -1` the spawn loop
`for i := 0; i < jobs; i++` starts no worker; for a source list of one file
the feeder blocks in its send on the unbuffered queue, the queue is never
closed, and under no schedule of the goroutines does `compileFilesWithRecipe`
return. -/
theorem compileFilesWithRecipe_negative_jobs_never_returns :
    workerCount compileEnv ⟨-1, "none"⟩ = 0 ∧
    ∀ schedule : List PoolStep,
      compileFilesWithRecipe compileEnv ⟨-1, "none"⟩ "src" ["src/a.c"] "build"
        compileRecipeProperties [] "recipe.c.o.pattern" schedule = none :=
  ⟨(compileFilesWithRecipe_no_workers compileEnv ⟨-1, "none"⟩ "src" ["src/a.c"] "build"
      compileRecipeProperties [] "recipe.c.o.pattern" [] (by decide) (by simp)).1,
    fun schedule =>
      (compileFilesWithRecipe_no_workers compileEnv ⟨-1, "none"⟩ "src" ["src/a.c"] "build"
        compileRecipeProperties [] "recipe.c.o.pattern" schedule (by decide) (by simp)).2⟩

/-! ### Lemmas on the index after scanning distinct libraries -/

namespace librariesresolver

open libraries ResolverSpec

/-- Distinct libraries whose directories name no header twice are recorded at
most once each. -/
theorem flatMap_replicate_nodup (env : Env) (libs : List Library) (H : String)
    (hlibs : libs.Nodup) (hdir : ∀ lib ∈ libs, (headerNames env lib).Nodup) :
    (libs.flatMap fun lib => List.replicate ((headerNames env lib).count H) lib).Nodup := by
  induction libs with
  | nil => simp
  | cons M rest ih =>
    simp only [List.flatMap_cons]
    rw [List.nodup_cons] at hlibs
    rw [List.nodup_append]
    refine ⟨?_, ih hlibs.2 (fun lib hl => hdir lib (List.mem_cons_of_mem _ hl)), ?_⟩
    · rw [List.nodup_replicate]
      exact List.nodup_iff_count_le_one.mp (hdir M (List.mem_cons_self _ _)) H
    · intro a ha hb
      have haM : a = M := List.eq_of_mem_replicate ha
      rw [List.mem_flatMap] at hb
      obtain ⟨lib, hlib, hal⟩ := hb
      have hal2 : a = lib := List.eq_of_mem_replicate hal
      apply hlibs.1
      rw [← haM, hal2]
      exact hlib

end librariesresolver

/-! ### The header index: the claim -/

open librariesresolver libraries ResolverSpec in
/-- C23, refuted as stated: the library `Foo` scanned twice is recorded twice
for its header `Foo.h`, because `List.Add` appends without looking for the
library in the list. -/
theorem scanLibrary_twice_counterexample :
    (ScanLibrary (sampleEnv sampleDirs)
        (ScanLibrary (sampleEnv sampleDirs) NewCppResolver libFoo).1 libFoo).1.headers "Foo.h" =
      [libFoo, libFoo] ∧
    (scanLibraries (sampleEnv sampleDirs) NewCppResolver [libFoo, libFoo]).headers "Foo.h" =
      [libFoo, libFoo] ∧
    ¬ ((scanLibraries (sampleEnv sampleDirs) NewCppResolver [libFoo, libFoo]).headers
      "Foo.h").Nodup := by
  refine ⟨?_, ?_, ?_⟩ <;> decide

open librariesresolver libraries ResolverSpec in
/-- C23, amended: after a new resolver scanned pairwise distinct libraries,
each once, whose source directories name no header file twice, the list of
every header contains no library twice; the list holds, in scan order, the
scanned libraries whose directory names the header. -/
theorem scanLibraries_nodup (env : Env) (libs : List Library) (H : String)
    (hlibs : libs.Nodup) (hdir : ∀ lib ∈ libs, (headerNames env lib).Nodup) :
    ((scanLibraries env NewCppResolver libs).headers H).Nodup ∧
    (scanLibraries env NewCppResolver libs).headers H =
      libs.filter (fun lib => decide (H ∈ headerNames env lib)) := by
  have hh := headers_scanLibraries env NewCppResolver libs H
  simp only [NewCppResolver, List.nil_append] at hh
  have hh2 : (scanLibraries env NewCppResolver libs).headers H =
      libs.flatMap fun lib => List.replicate ((headerNames env lib).count H) lib := hh
  refine ⟨?_, ?_⟩
  · rw [hh2]
    exact flatMap_replicate_nodup env libs H hlibs hdir
  · rw [hh2]
    clear hh hh2 hlibs
    induction libs with
    | nil => rfl
    | cons M rest ih =>
      simp only [List.flatMap_cons]
      rw [ih (fun lib hl => hdir lib (List.mem_cons_of_mem _ hl))]
      by_cases hm : H ∈ headerNames env M
      · have hc : (headerNames env M).count H = 1 :=
          List.count_eq_one_of_mem (hdir M (List.mem_cons_self _ _)) hm
        rw [hc, List.filter_cons_of_pos (by simpa using hm)]
        rfl
      · rw [List.count_eq_zero_of_not_mem hm, List.filter_cons_of_neg (by simpa using hm)]
        rfl

open librariesresolver libraries ResolverSpec in
/-- C23 amended, at the libraries `Foo` and `Foo-master`, which both provide
`Foo.h`. -/
theorem scanLibraries_nodup_witness :
    [libFoo, libFooMaster].Nodup ∧
    ((scanLibraries (sampleEnv sampleDirs) NewCppResolver [libFoo, libFooMaster]).headers
      "Foo.h").Nodup ∧
    (scanLibraries (sampleEnv sampleDirs) NewCppResolver [libFoo, libFooMaster]).headers "Foo.h" =
      [libFoo, libFooMaster].filter
        (fun lib => decide ("Foo.h" ∈ headerNames (sampleEnv sampleDirs) lib)) :=
  ⟨by decide,
    scanLibraries_nodup (sampleEnv sampleDirs) [libFoo, libFooMaster] "Foo.h" (by decide)
      (by
        intro lib hl
        simp only [List.mem_cons, List.mem_singleton, List.not_mem_nil, or_false] at hl
        rcases hl with rfl | rfl <;> decide)⟩

/-! ### The missing recipe pattern: the claim -/

open builder_utils properties in
/-- C26: `PrepareCommandForRecipe` returns the pattern-missing error that
names the recipe (and so no command) exactly when the build properties hold no
value, or the empty value, for the recipe key; and then `ExecRecipe` returns
that error and executes nothing. -/
theorem prepareCommandForRecipe_patternMissing_iff (env : Env) (buildProperties : Map)
    (recipe : String) (removeUnsetProperties : Bool) :
    (PrepareCommandForRecipe env buildProperties recipe removeUnsetProperties =
        .error (.patternMissing recipe) ↔
      (buildProperties.GetOk recipe = none ∨ buildProperties.GetOk recipe = some "")) ∧
    ((buildProperties.GetOk recipe = none ∨ buildProperties.GetOk recipe = some "") →
      ExecRecipe env buildProperties recipe removeUnsetProperties =
        (some (.patternMissing recipe), [])) := by
  have hget : buildProperties.Get recipe = "" ↔
      (buildProperties.GetOk recipe = none ∨ buildProperties.GetOk recipe = some "") := by
    unfold Map.Get
    cases buildProperties.GetOk recipe with
    | none => simp
    | some v => simp
  have hprep : PrepareCommandForRecipe env buildProperties recipe removeUnsetProperties =
        .error (.patternMissing recipe) ↔ buildProperties.Get recipe = "" := by
    unfold PrepareCommandForRecipe
    by_cases hp : buildProperties.Get recipe = ""
    · simp only [hp, if_true]
    · simp only [hp, if_false, iff_false]
      cases env.prepareCommand _ _ with
      | error err =>
        intro h
        cases h
      | ok command =>
        intro h
        cases h
  refine ⟨hprep.trans hget, ?_⟩
  intro h
  unfold ExecRecipe
  rw [hprep.mpr (hget.mpr h)]

open builder_utils properties BuilderSpec in
/-- C26 at build properties without the recipe key and at build properties
with an empty pattern. -/
theorem prepareCommandForRecipe_patternMissing_iff_witness :
    ExecRecipe compileEnv [("build.path", "build")] "recipe.ar.pattern" false =
        (some (.patternMissing "recipe.ar.pattern"), []) ∧
    ExecRecipe compileEnv [("recipe.ar.pattern", "")] "recipe.ar.pattern" true =
        (some (.patternMissing "recipe.ar.pattern"), []) :=
  ⟨(prepareCommandForRecipe_patternMissing_iff compileEnv [("build.path", "build")]
      "recipe.ar.pattern" false).2 (Or.inl (by decide)),
    (prepareCommandForRecipe_patternMissing_iff compileEnv [("recipe.ar.pattern", "")]
      "recipe.ar.pattern" true).2 (Or.inr (by decide))⟩

/-! ### The error writer: the claim -/

open feedback in
/-- C27, the code at the failing input: `ErrorWriter` returns the field `out`;
for the default feedback, built by `New(os.Stdout, os.Stderr, Text)`, it
returns the standard output, while `Error` and `Errorf` write to the standard
error. The same holds for every `New(out, err, format)`: `ErrorWriter` returns
`out`, the writer `OutputWriter` returns, and `Error` writes to `err`. -/
theorem errorWriter_returns_out :
    DefaultFeedback.ErrorWriter = os.File.Stdout ∧
    DefaultFeedback.ErrorWriter ≠ os.File.Stderr ∧
    (DefaultFeedback.Error "message").1 = os.File.Stderr ∧
    (DefaultFeedback.Errorf "message").1 = os.File.Stderr ∧
    ∀ (W : Type) (out err : W) (format : OutputFormat),
      (New out err format).ErrorWriter = out ∧
      (New out err format).OutputWriter = out ∧
      ∀ line, ((New out err format).Error line).1 = err := by
  refine ⟨rfl, by decide, rfl, rfl, ?_⟩
  intro W out err format
  exact ⟨rfl, rfl, fun _ => rfl⟩

/-! ### Lemmas on the name of the cached core archive -/

namespace strings

/-- Replacing a one-character string by a one-character string maps the
characters one by one. -/
theorem replaceChars_single (a b : Char) (n : Nat) (s : List Char) (h : s.length ≤ n) :
    replaceChars [a] [b] n s = s.map fun c => if c = a then b else c := by
  induction n generalizing s with
  | zero =>
    cases s with
    | nil => rfl
    | cons c cs => simp at h
  | succ n ih =>
    cases s with
    | nil => rfl
    | cons c cs =>
      have hl : cs.length ≤ n := by simpa using h
      simp only [replaceChars, List.isPrefixOf, List.length_singleton, List.drop_succ_cons,
        List.drop_zero, List.map_cons, Bool.and_true, beq_iff_eq]
      by_cases hc : a = c
      · subst hc
        simp [ih cs hl]
      · have hc2 : ¬ c = a := fun e => hc e.symm
        simp [hc, hc2, ih cs hl]

theorem replace_single (s : String) (a b : Char) :
    Replace s (String.singleton a) (String.singleton b) =
      String.mk (s.data.map fun c => if c = a then b else c) := by
  unfold Replace
  rw [show (String.singleton a).data = [a] from rfl, show (String.singleton b).data = [b] from rfl,
    replaceChars_single a b _ _ (le_refl _)]

theorem len_append (a b : String) : len (a ++ b) = len a + len b := by
  simp [len, String.data_append]

theorem length_le_len (s : String) : s.data.length ≤ len s := by
  unfold len
  induction s.data with
  | nil => simp
  | cons c cs ih =>
    simp only [List.length_cons, List.map_cons, List.sum_cons]
    have h1 : 1 ≤ utf8Size c := by
      unfold utf8Size
      split_ifs <;> omega
    omega

end strings

namespace CacheNameSpec

theorem hexDigit_props (c : Char) (h : c ∈ "0123456789abcdef".data) :
    strings.utf8Size c = 1 ∧ c ≠ ':' ∧ c ≠ '=' := by
  simp only [List.mem_cons, List.not_mem_nil, or_false] at h
  rcases h with rfl | rfl | rfl | rfl | rfl | rfl | rfl | rfl | rfl | rfl | rfl | rfl | rfl |
    rfl | rfl | rfl <;> decide

theorem len_of_isMD5Hex (s : String) (h : isMD5Hex s) : strings.len s = 32 := by
  obtain ⟨hl, hc⟩ := h
  unfold strings.len
  have : ∀ l : List Char, (∀ c ∈ l, c ∈ "0123456789abcdef".data) →
      (l.map strings.utf8Size).sum = l.length := by
    intro l
    induction l with
    | nil => intro _; rfl
    | cons c cs ih =>
      intro hc
      simp only [List.map_cons, List.sum_cons, List.length_cons]
      rw [ih (fun x hx => hc x (List.mem_cons_of_mem _ hx)),
        (hexDigit_props c (hc c (List.mem_cons_self _ _))).1]
      omega
  rw [this s.data hc, hl]

theorem underscored_eq (fqbn : String) :
    strings.Replace (strings.Replace fqbn ":" "_") "=" "_" = underscored fqbn := by
  rw [show (":" : String) = String.singleton ':' from rfl,
    show ("_" : String) = String.singleton '_' from rfl,
    show ("=" : String) = String.singleton '=' from rfl,
    strings.replace_single, strings.replace_single]
  unfold underscored
  simp only [List.map_map]
  congr 1
  apply List.map_congr_left
  intro c _
  simp only [Function.comp]
  by_cases h1 : c = ':'
  · subst h1
    decide
  · by_cases h2 : c = '='
    · subst h2
      decide
    · simp [h1, h2]

theorem not_mem_underscored (fqbn : String) :
    ':' ∉ (underscored fqbn).data ∧ '=' ∉ (underscored fqbn).data := by
  unfold underscored
  simp only [List.mem_map, not_exists, not_and]
  constructor
  · intro c _
    by_cases h : c = ':' ∨ c = '='
    · rw [if_pos h]
      decide
    · rw [if_neg h]
      intro e
      exact h (Or.inl e)
  · intro c _
    by_cases h : c = ':' ∨ c = '='
    · rw [if_pos h]
      decide
    · rw [if_neg h]
      intro e
      exact h (Or.inr e)

/-- The function in the words of the spec, with the length in bytes. -/
theorem getCachedCoreArchiveFileName_eq (md5Sum : String → String)
    (abs : String → Except String String) (fqbn coreFolder : String) :
    builder_utils.GetCachedCoreArchiveFileName md5Sum abs fqbn coreFolder =
      if strings.len (fullName md5Sum abs fqbn coreFolder) > 100 then
        hashedName md5Sum abs fqbn coreFolder
      else fullName md5Sum abs fqbn coreFolder := by
  unfold builder_utils.GetCachedCoreArchiveFileName fullName hashedName hashedFolder
  simp only [underscored_eq]

end CacheNameSpec

namespace CacheNameSpec

theorem digit_mem (n : Nat) (h : n < 16) : hex.digit n ∈ "0123456789abcdef".data := by
  interval_cases n <;> decide

theorem sampleMD5Sum_isMD5Hex (s : String) : isMD5Hex (sampleMD5Sum s) := by
  unfold isMD5Hex sampleMD5Sum
  refine ⟨by simp, ?_⟩
  intro c hc
  simp only [List.mem_map, List.mem_range] at hc
  obtain ⟨i, _, rfl⟩ := hc
  exact digit_mem _ (Nat.mod_lt _ (by omega))

theorem fullName_eq_iff (md5Sum : String → String) (abs : String → Except String String)
    (fqbn1 fqbn2 coreFolder : String) :
    fullName md5Sum abs fqbn1 coreFolder = fullName md5Sum abs fqbn2 coreFolder ↔
      underscored fqbn1 = underscored fqbn2 := by
  constructor
  · intro h
    unfold fullName at h
    have hd := congrArg String.data h
    simp only [String.data_append, List.append_assoc] at hd
    have h2 := List.append_cancel_left hd
    have h3 := List.append_cancel_right h2
    exact String.ext h3
  · intro h
    unfold fullName
    rw [h]

theorem hashedName_eq_iff (md5Sum : String → String) (abs : String → Except String String)
    (fqbn1 fqbn2 coreFolder : String) :
    hashedName md5Sum abs fqbn1 coreFolder = hashedName md5Sum abs fqbn2 coreFolder ↔
      md5Sum (underscored fqbn1 ++ "_" ++ md5Sum (hashedFolder abs coreFolder)) =
        md5Sum (underscored fqbn2 ++ "_" ++ md5Sum (hashedFolder abs coreFolder)) := by
  constructor
  · intro h
    unfold hashedName at h
    have hd := congrArg String.data h
    simp only [String.data_append, List.append_assoc] at hd
    have h2 := List.append_cancel_left hd
    have h3 := List.append_cancel_right h2
    exact String.ext h3
  · intro h
    unfold hashedName
    rw [h]

theorem fullName_ne_hashedName (md5Sum : String → String) (abs : String → Except String String)
    (fqbn1 fqbn2 coreFolder : String) (hmd5 : ∀ s, isMD5Hex (md5Sum s)) :
    fullName md5Sum abs fqbn1 coreFolder ≠ hashedName md5Sum abs fqbn2 coreFolder := by
  intro h
  have hl := congrArg (fun s => s.data.length) h
  simp only [fullName, hashedName, String.data_append, List.length_append, (hmd5 _).1] at hl
  have h1 : ("core_" : String).data.length = 5 := rfl
  have h2 : ("_" : String).data.length = 1 := rfl
  have h3 : (".a" : String).data.length = 2 := rfl
  rw [h1, h2, h3] at hl
  omega

theorem hashedName_props (md5Sum : String → String) (abs : String → Except String String)
    (fqbn coreFolder : String) (hmd5 : ∀ s, isMD5Hex (md5Sum s)) :
    strings.len (hashedName md5Sum abs fqbn coreFolder) = 39 ∧
    ':' ∉ (hashedName md5Sum abs fqbn coreFolder).data ∧
    '=' ∉ (hashedName md5Sum abs fqbn coreFolder).data := by
  unfold hashedName
  refine ⟨?_, ?_, ?_⟩
  · rw [strings.len_append, strings.len_append, len_of_isMD5Hex _ (hmd5 _)]
    rfl
  · simp only [String.data_append, List.mem_append, not_or]
    exact ⟨⟨by decide, fun hc => (hexDigit_props _ ((hmd5 _).2 _ hc)).2.1 rfl⟩, by decide⟩
  · simp only [String.data_append, List.mem_append, not_or]
    exact ⟨⟨by decide, fun hc => (hexDigit_props _ ((hmd5 _).2 _ hc)).2.2 rfl⟩, by decide⟩

theorem fullName_props (md5Sum : String → String) (abs : String → Except String String)
    (fqbn coreFolder : String) (hmd5 : ∀ s, isMD5Hex (md5Sum s)) :
    ':' ∉ (fullName md5Sum abs fqbn coreFolder).data ∧
    '=' ∉ (fullName md5Sum abs fqbn coreFolder).data := by
  unfold fullName
  refine ⟨?_, ?_⟩
  · simp only [String.data_append, List.mem_append, not_or]
    exact ⟨⟨⟨⟨by decide, (not_mem_underscored fqbn).1⟩, by decide⟩,
      fun hc => (hexDigit_props _ ((hmd5 _).2 _ hc)).2.1 rfl⟩, by decide⟩
  · simp only [String.data_append, List.mem_append, not_or]
    exact ⟨⟨⟨⟨by decide, (not_mem_underscored fqbn).2⟩, by decide⟩,
      fun hc => (hexDigit_props _ ((hmd5 _).2 _ hc)).2.2 rfl⟩, by decide⟩

end CacheNameSpec

/-! ### The name of the cached core archive: the claims -/

set_option maxRecDepth 100000 in
open builder_utils CacheNameSpec in
/-- C21, refuted as stated: for an FQBN of 16 four-byte characters the full
name has 56 characters, which is no more than 100, but 104 bytes; the function
compares `len(realName)`, the number of bytes, with 100 and returns the
re-hashed name, not the full name. -/
theorem getCachedCoreArchiveFileName_characters_counterexample :
    (fullName sampleMD5Sum sampleAbs (String.mk (List.replicate 16 (Char.ofNat 128512)))
      "/hw/avr").length = 56 ∧
    strings.len (fullName sampleMD5Sum sampleAbs (String.mk (List.replicate 16 (Char.ofNat 128512)))
      "/hw/avr") = 104 ∧
    GetCachedCoreArchiveFileName sampleMD5Sum sampleAbs
        (String.mk (List.replicate 16 (Char.ofNat 128512))) "/hw/avr" ≠
      fullName sampleMD5Sum sampleAbs (String.mk (List.replicate 16 (Char.ofNat 128512)))
        "/hw/avr" ∧
    GetCachedCoreArchiveFileName sampleMD5Sum sampleAbs
        (String.mk (List.replicate 16 (Char.ofNat 128512))) "/hw/avr" =
      hashedName sampleMD5Sum sampleAbs (String.mk (List.replicate 16 (Char.ofNat 128512)))
        "/hw/avr" := by
  refine ⟨?_, ?_, ?_, ?_⟩ <;> decide

open builder_utils CacheNameSpec in
/-- C21, amended: with F the FQBN in which every `:` and `=` is replaced by
`_` and H the MD5 digest of the absolute core folder path (of the path as
given when it cannot be made absolute), `GetCachedCoreArchiveFileName` returns
`core_` + F + `_` + H + `.a` whenever that string is at most 100 bytes long,
and `core_` + MD5hex(F + `_` + H) + `.a` otherwise. Digests being 32
hexadecimal digits, the returned name is never longer than 100 bytes, hence
never longer than 100 characters, and contains no `:` and no `=`. -/
theorem getCachedCoreArchiveFileName_spec (md5Sum : String → String)
    (abs : String → Except String String) (fqbn coreFolder : String) :
    (strings.len (fullName md5Sum abs fqbn coreFolder) ≤ 100 →
      GetCachedCoreArchiveFileName md5Sum abs fqbn coreFolder =
        fullName md5Sum abs fqbn coreFolder) ∧
    (100 < strings.len (fullName md5Sum abs fqbn coreFolder) →
      GetCachedCoreArchiveFileName md5Sum abs fqbn coreFolder =
        hashedName md5Sum abs fqbn coreFolder) ∧
    ((∀ s, isMD5Hex (md5Sum s)) →
      strings.len (GetCachedCoreArchiveFileName md5Sum abs fqbn coreFolder) ≤ 100 ∧
      (GetCachedCoreArchiveFileName md5Sum abs fqbn coreFolder).length ≤ 100 ∧
      ':' ∉ (GetCachedCoreArchiveFileName md5Sum abs fqbn coreFolder).data ∧
      '=' ∉ (GetCachedCoreArchiveFileName md5Sum abs fqbn coreFolder).data) := by
  rw [getCachedCoreArchiveFileName_eq]
  refine ⟨?_, ?_, ?_⟩
  · intro h
    rw [if_neg (by omega)]
  · intro h
    rw [if_pos h]
  · intro hmd5
    have hlen : ∀ s : String, strings.len s ≤ 100 → s.length ≤ 100 := by
      intro s hs
      exact le_trans (strings.length_le_len s) hs
    by_cases h : strings.len (fullName md5Sum abs fqbn coreFolder) > 100
    · rw [if_pos h]
      have hp := hashedName_props md5Sum abs fqbn coreFolder hmd5
      have h39 : strings.len (hashedName md5Sum abs fqbn coreFolder) ≤ 100 := by
        rw [hp.1]
        omega
      exact ⟨h39, hlen _ h39, hp.2.1, hp.2.2⟩
    · rw [if_neg h]
      have hp := fullName_props md5Sum abs fqbn coreFolder hmd5
      have h100 : strings.len (fullName md5Sum abs fqbn coreFolder) ≤ 100 := by omega
      exact ⟨h100, hlen _ h100, hp.1, hp.2⟩

open builder_utils CacheNameSpec in
/-- C21 amended, at the FQBN `arduino:avr:uno:cpu=atmega328` and at an FQBN of
100 characters. -/
theorem getCachedCoreArchiveFileName_spec_witness :
    GetCachedCoreArchiveFileName sampleMD5Sum sampleAbs "arduino:avr:uno:cpu=atmega328" "/hw/avr" =
      "core_arduino_avr_uno_cpu_atmega328_" ++ sampleMD5Sum "/hw/avr" ++ ".a" ∧
    GetCachedCoreArchiveFileName sampleMD5Sum sampleAbs (String.mk (List.replicate 100 'a'))
        "/hw/avr" =
      hashedName sampleMD5Sum sampleAbs (String.mk (List.replicate 100 'a')) "/hw/avr" :=
  ⟨(getCachedCoreArchiveFileName_spec sampleMD5Sum sampleAbs "arduino:avr:uno:cpu=atmega328"
      "/hw/avr").1 (by decide),
    (getCachedCoreArchiveFileName_spec sampleMD5Sum sampleAbs (String.mk (List.replicate 100 'a'))
      "/hw/avr").2.1 (by decide)⟩

open builder_utils CacheNameSpec in
/-- C22, refuted as stated: the FQBNs `p:a:b:c=d` and `p:a:b_c_d` differ, but
both become `p_a_b_c_d` when `:` and `=` are replaced by `_`, and for one core
folder they yield the same name. -/
theorem getCachedCoreArchiveFileName_collision_counterexample :
    "p:a:b:c=d" ≠ "p:a:b_c_d" ∧
    strings.Replace (strings.Replace "p:a:b:c=d" ":" "_") "=" "_" = "p_a_b_c_d" ∧
    strings.Replace (strings.Replace "p:a:b_c_d" ":" "_") "=" "_" = "p_a_b_c_d" ∧
    GetCachedCoreArchiveFileName sampleMD5Sum sampleAbs "p:a:b:c=d" "/hw/avr" =
      GetCachedCoreArchiveFileName sampleMD5Sum sampleAbs "p:a:b_c_d" "/hw/avr" := by
  refine ⟨?_, ?_, ?_, ?_⟩ <;> decide

open builder_utils CacheNameSpec in
/-- C22, amended: for one core folder, two FQBNs that agree once `:` and `=`
are replaced by `_` (the same FQBN in particular) yield the same name; and,
digests being 32 hexadecimal digits, two FQBNs yield the same name only if they
agree after the replacement or both names are re-hashed and the two digests
collide. -/
theorem getCachedCoreArchiveFileName_same_name_iff (md5Sum : String → String)
    (abs : String → Except String String) (fqbn1 fqbn2 coreFolder : String)
    (hmd5 : ∀ s, isMD5Hex (md5Sum s)) :
    (underscored fqbn1 = underscored fqbn2 →
      GetCachedCoreArchiveFileName md5Sum abs fqbn1 coreFolder =
        GetCachedCoreArchiveFileName md5Sum abs fqbn2 coreFolder) ∧
    (GetCachedCoreArchiveFileName md5Sum abs fqbn1 coreFolder =
        GetCachedCoreArchiveFileName md5Sum abs fqbn2 coreFolder ↔
      underscored fqbn1 = underscored fqbn2 ∨
        (100 < strings.len (fullName md5Sum abs fqbn1 coreFolder) ∧
          100 < strings.len (fullName md5Sum abs fqbn2 coreFolder) ∧
          md5Sum (underscored fqbn1 ++ "_" ++ md5Sum (hashedFolder abs coreFolder)) =
            md5Sum (underscored fqbn2 ++ "_" ++ md5Sum (hashedFolder abs coreFolder)))) := by
  have hsame : underscored fqbn1 = underscored fqbn2 →
      GetCachedCoreArchiveFileName md5Sum abs fqbn1 coreFolder =
        GetCachedCoreArchiveFileName md5Sum abs fqbn2 coreFolder := by
    intro h
    rw [getCachedCoreArchiveFileName_eq, getCachedCoreArchiveFileName_eq]
    unfold fullName hashedName
    rw [h]
  refine ⟨hsame, ?_⟩
  constructor
  · intro h
    rw [getCachedCoreArchiveFileName_eq, getCachedCoreArchiveFileName_eq] at h
    by_cases h1 : strings.len (fullName md5Sum abs fqbn1 coreFolder) > 100
    · by_cases h2 : strings.len (fullName md5Sum abs fqbn2 coreFolder) > 100
      · rw [if_pos h1, if_pos h2] at h
        exact Or.inr ⟨h1, h2, (hashedName_eq_iff md5Sum abs fqbn1 fqbn2 coreFolder).mp h⟩
      · rw [if_pos h1, if_neg h2] at h
        exact absurd h.symm (fullName_ne_hashedName md5Sum abs fqbn2 fqbn1 coreFolder hmd5)
    · by_cases h2 : strings.len (fullName md5Sum abs fqbn2 coreFolder) > 100
      · rw [if_neg h1, if_pos h2] at h
        exact absurd h (fullName_ne_hashedName md5Sum abs fqbn1 fqbn2 coreFolder hmd5)
      · rw [if_neg h1, if_neg h2] at h
        exact Or.inl ((fullName_eq_iff md5Sum abs fqbn1 fqbn2 coreFolder).mp h)
  · intro h
    rcases h with h | ⟨h1, h2, h3⟩
    · exact hsame h
    · rw [getCachedCoreArchiveFileName_eq, getCachedCoreArchiveFileName_eq, if_pos h1, if_pos h2]
      exact (hashedName_eq_iff md5Sum abs fqbn1 fqbn2 coreFolder).mpr h3

open builder_utils CacheNameSpec in
/-- C22 amended, at the FQBNs `p:a:b:c=d` and `p:a:b:c=e`, which differ after
the replacement and yield different names. -/
theorem getCachedCoreArchiveFileName_same_name_iff_witness :
    (∀ s, isMD5Hex (sampleMD5Sum s)) ∧
    GetCachedCoreArchiveFileName sampleMD5Sum sampleAbs "p:a:b:c=d" "/hw/avr" ≠
      GetCachedCoreArchiveFileName sampleMD5Sum sampleAbs "p:a:b:c=e" "/hw/avr" :=
  ⟨sampleMD5Sum_isMD5Hex, fun h =>
    absurd ((getCachedCoreArchiveFileName_same_name_iff sampleMD5Sum sampleAbs "p:a:b:c=d"
      "p:a:b:c=e" "/hw/avr" sampleMD5Sum_isMD5Hex).2.mp h) (by decide)⟩

/-! ### Lemmas on merging the same source again -/

namespace properties.Map

open MergeSpec

theorem remove_eq_filter (m : Map) (k : String) (h : WF m) :
    Remove m k = m.filter (fun p => decide (p.1 ≠ k)) := by
  induction m with
  | nil => rfl
  | cons p rest ih =>
    obtain ⟨a, v⟩ := p
    have hnd : a ∉ rest.map Prod.fst ∧ (rest.map Prod.fst).Nodup := by
      simpa [WF] using h
    by_cases hak : a = k
    · subst hak
      simp only [Remove, if_true, ne_eq, decide_not, List.filter_cons, decide_True, Bool.not_true,
        Bool.false_eq_true, if_false]
      symm
      rw [List.filter_eq_self]
      intro q hq
      have : q.1 ≠ a := by
        intro e
        apply hnd.1
        rw [← e]
        exact List.mem_map_of_mem _ hq
      simpa using this
    · simp only [Remove, if_neg hak, ne_eq, decide_not, List.filter_cons, hak, decide_False,
        Bool.not_false, if_true]
      rw [ih hnd.2]
      simp

theorem set_eq_filter (m : Map) (k v : String) (h : WF m) :
    Set m k v = m.filter (fun p => decide (p.1 ≠ k)) ++ [(k, v)] := by
  unfold Set
  by_cases hc : ContainsKey m k = true
  · rw [if_pos hc, remove_eq_filter m k h]
  · rw [if_neg hc]
    have hk : k ∉ Keys m := fun hm => hc ((containsKey_iff_mem_keys m k).mpr hm)
    congr 1
    symm
    rw [List.filter_eq_self]
    intro q hq
    have : q.1 ≠ k := by
      intro e
      apply hk
      rw [← e]
      exact List.mem_map_of_mem _ hq
    simpa using this

theorem wf_set (m : Map) (k v : String) (h : WF m) : WF (Set m k v) := by
  rw [set_eq_filter m k v h]
  unfold WF at *
  rw [List.map_append, List.nodup_append]
  refine ⟨(List.Nodup.sublist (List.Sublist.map _ (List.filter_sublist _)) h), by simp, ?_⟩
  intro a ha hb
  simp only [List.map_cons, List.map_nil, List.mem_singleton] at hb
  subst hb
  simp only [List.mem_map, List.mem_filter] at ha
  obtain ⟨q, ⟨_, hq⟩, rfl⟩ := ha
  simp at hq

theorem wf_merge (src m : Map) (h : WF m) : WF (Merge m src) := by
  unfold Merge
  induction src generalizing m with
  | nil => exact h
  | cons p rest ih =>
    simp only [List.foldl_cons]
    exact ih _ (wf_set m p.1 p.2 h)

theorem wf_clone (m : Map) : WF (Clone m) :=
  wf_merge m NewMap (by simp [WF, NewMap])

theorem merge_append (m a b : Map) : Merge m (a ++ b) = Merge (Merge m a) b := by
  unfold Merge
  rw [List.foldl_append]

theorem keys_lastSet_subset (src : Map) (k : String) (h : k ∈ Keys (lastSet src)) :
    k ∈ Keys src := by
  induction src with
  | nil => simp [lastSet, Keys] at h
  | cons p rest ih =>
    obtain ⟨a, v⟩ := p
    simp only [lastSet] at h
    by_cases ha : a ∈ Keys rest
    · rw [if_pos ha] at h
      simp only [Keys, List.map_cons, List.mem_cons]
      exact Or.inr (ih h)
    · rw [if_neg ha] at h
      simp only [Keys, List.map_cons, List.mem_cons] at h ⊢
      rcases h with h | h
      · exact Or.inl h
      · exact Or.inr (ih h)

/-- A merge keeps the pairs of the map whose key the source does not set, in
their order, and puts behind them the last pair of every key of the source. -/
theorem merge_eq (src m : Map) (h : WF m) :
    Merge m src = m.filter (fun p => decide (p.1 ∉ Keys src)) ++ lastSet src := by
  induction src generalizing m with
  | nil =>
    simp [Merge, lastSet, Keys]
  | cons p rest ih =>
    obtain ⟨k, v⟩ := p
    have hstep : Merge m ((k, v) :: rest) = Merge (Set m k v) rest := rfl
    rw [hstep, ih _ (wf_set m k v h), set_eq_filter m k v h, List.filter_append,
      List.filter_filter]
    have hf : List.filter (fun a => decide (a.1 ∉ Keys rest) && decide (a.1 ≠ k)) m =
        List.filter (fun p => decide (p.1 ∉ Keys ((k, v) :: rest))) m := by
      apply List.filter_congr
      intro q _
      simp only [Keys, List.map_cons, List.mem_cons, not_or]
      by_cases h1 : q.1 = k <;> by_cases h2 : q.1 ∈ List.map Prod.fst rest <;> simp [h1, h2]
    rw [hf, List.append_assoc]
    congr 1
    by_cases hk : k ∈ Keys rest
    · simp [lastSet, hk]
    · simp [lastSet, hk]

/-- Merging the same source a second time changes nothing. -/
theorem merge_merge (src m : Map) (h : WF m) : Merge (Merge m src) src = Merge m src := by
  rw [merge_eq src (Merge m src) (wf_merge src m h), merge_eq src m h, List.filter_append,
    List.filter_filter]
  have h1 : List.filter (fun p => decide (p.1 ∉ Keys src)) (lastSet src) = [] := by
    rw [List.filter_eq_nil_iff]
    intro q hq
    have : q.1 ∈ Keys src := keys_lastSet_subset src q.1 (List.mem_map_of_mem _ hq)
    simpa using this
  rw [h1, List.append_nil]
  congr 1
  apply List.filter_congr
  intro q _
  simp

end properties.Map

namespace cores.Board

open properties BoardSpec

/-- The merges of the chosen subtrees, option by option, are one merge of
their concatenation. -/
theorem foldl_mergeChosen (b : Board) (cfg : Map) (opts : List String) (acc : Map) :
    opts.foldl (mergeChosen b cfg) acc = acc.Merge (opts.flatMap (chosenSubtree b cfg)) := by
  induction opts generalizing acc with
  | nil => rfl
  | cons o rest ih =>
    simp only [List.foldl_cons, List.flatMap_cons]
    rw [ih, Map.merge_append]
    congr 1
    unfold mergeChosen chosenSubtree
    cases chosenValue b cfg o with
    | none => rfl
    | some v => rfl

/-- A successful `GetBuildProperties` returns the resolved properties. -/
theorem getBuildProperties_ok_resolved (b : Board) (cfg res : Map) (hwf : cfg.WF)
    (h : b.GetBuildProperties cfg = .ok res) : res = resolved b cfg := by
  cases hl : Board.optionsLoop (menuOf b) (optionsOf b) cfg.Clone b.Properties.Clone with
  | ok r =>
    obtain ⟨uc, bp⟩ := r
    have hk := (Board.getBuildProperties_of_loop_ok b cfg hwf uc bp hl).1
    rw [h] at hk
    cases hu : unrecognizedKeys b cfg with
    | nil =>
      rw [hu] at hk
      simpa using hk
    | cons k ks =>
      rw [hu] at hk
      simp only at hk
      split at hk <;> cases hk
  | error e =>
    rw [Board.getBuildProperties_of_loop_error b cfg e hl] at h
    cases h
  | panic =>
    rw [Board.getBuildProperties_of_loop_panic b cfg hl] at h
    cases h

end cores.Board

/-! ### Merging the chosen subtrees again: the claim -/

open properties cores BoardSpec in
/-- C24: when `GetBuildProperties` succeeds on a (well-formed) user config
with the result R, merging into R once more, in the declaration order of the
options, the subtrees of the same chosen values leaves R unchanged: the same
keys with the same values in the same order. -/
theorem getBuildProperties_remerge (b : Board) (userConfig res : Map)
    (hwf : userConfig.WF) (h : b.GetBuildProperties userConfig = .ok res) :
    (optionsOf b).foldl (mergeChosen b userConfig) res = res := by
  have hres := Board.getBuildProperties_ok_resolved b userConfig res hwf h
  rw [hres]
  unfold resolved
  rw [Board.foldl_mergeChosen, Board.foldl_mergeChosen]
  exact Map.merge_merge _ _ (Map.wf_clone _)

open properties cores BoardSpec in
/-- C24 at Scenario A with the config `cpu=8MHz`. -/
theorem getBuildProperties_remerge_witness :
    Map.WF [("cpu", "8MHz")] ∧
    uno.GetBuildProperties [("cpu", "8MHz")] =
      .ok (uno.Properties ++ [("build.f_cpu", "8000000L")]) ∧
    (optionsOf uno).foldl (mergeChosen uno [("cpu", "8MHz")])
        (uno.Properties ++ [("build.f_cpu", "8000000L")]) =
      uno.Properties ++ [("build.f_cpu", "8000000L")] :=
  ⟨by decide, by decide,
    getBuildProperties_remerge uno [("cpu", "8MHz")] _ (by decide) (by decide)⟩

/-! ### Lemmas on the change checks of a core folder -/

namespace builder_utils

/-- A rule file that changed is a file that changed. -/
theorem coreChangedLoop_of_txtChangedLoop (env : CoreEnv) (targetModTime : Nat)
    (files : List String) (h : txtChangedLoop env targetModTime files = true) :
    coreChangedLoop env targetModTime files = true := by
  induction files with
  | nil => simp [txtChangedLoop] at h
  | cons file rest ih =>
    simp only [txtChangedLoop] at h
    simp only [coreChangedLoop]
    cases hs : env.stat file with
    | info fileStat =>
      simp only [hs] at h ⊢
      by_cases hm : fileStat.ModTime > targetModTime
      · simp [hm]
      · simp only [hm, if_false] at h ⊢
        by_cases he : (filepath.Ext file != ".txt") = true
        · rw [if_pos he] at h
          exact ih h
        · rw [if_neg he] at h
          exact ih h
    | notExist err => rfl
    | failed err => rfl

/-- Without a referenced core, the rule-file check is a restriction of the
full check. -/
theorem core_changed_of_txt_changed_nil (env : CoreEnv) (fuel : Nat)
    (corePath targetFile : String)
    (h : TXTBuildRulesHaveChanged env fuel corePath none targetFile = some true) :
    CoreOrReferencedCoreHasChanged env fuel corePath none targetFile = some true := by
  cases fuel with
  | zero => simp [TXTBuildRulesHaveChanged] at h
  | succ fuel =>
    simp only [TXTBuildRulesHaveChanged] at h
    simp only [CoreOrReferencedCoreHasChanged]
    cases hs : env.stat targetFile with
    | info targetFileStat =>
      simp only [hs] at h ⊢
      cases hf : findAllFilesInFolder env fuel corePath true with
      | none => simp [hf] at h
      | some r =>
        cases r with
        | error err => rfl
        | ok files =>
          simp only [hf] at h ⊢
          by_cases ht : txtChangedLoop env targetFileStat.ModTime files = true
          · rw [if_pos (coreChangedLoop_of_txtChangedLoop env _ files ht)]
          · rw [if_neg ht] at h
            simp at h
    | notExist err => rfl
    | failed err => rfl

/-- The rule-file check is a restriction of the full check whenever the two
comparisons of the core path with the referenced core path agree: when
`EqualsTo` tells the paths apart, `strings.EqualFold` does too. -/
theorem core_changed_of_txt_changed (env : CoreEnv) (fuel : Nat)
    (corePath : String) (targetCorePath : Option String) (targetFile : String)
    (hcmp : ∀ t, targetCorePath = some t → env.equalsTo corePath t = false →
      env.equalFold corePath t = false)
    (h : TXTBuildRulesHaveChanged env fuel corePath targetCorePath targetFile = some true) :
    CoreOrReferencedCoreHasChanged env fuel corePath targetCorePath targetFile = some true := by
  cases fuel with
  | zero => simp [TXTBuildRulesHaveChanged] at h
  | succ fuel =>
    simp only [TXTBuildRulesHaveChanged] at h
    simp only [CoreOrReferencedCoreHasChanged]
    cases hs : env.stat targetFile with
    | info targetFileStat =>
      simp only [hs] at h ⊢
      cases hf : findAllFilesInFolder env fuel corePath true with
      | none => simp [hf] at h
      | some r =>
        cases r with
        | error err => rfl
        | ok files =>
          simp only [hf] at h ⊢
          by_cases ht : txtChangedLoop env targetFileStat.ModTime files = true
          · rw [if_pos (coreChangedLoop_of_txtChangedLoop env _ files ht)]
          · rw [if_neg ht] at h
            by_cases hc : coreChangedLoop env targetFileStat.ModTime files = true
            · rw [if_pos hc]
            · rw [if_neg hc]
              cases targetCorePath with
              | none => simp at h
              | some t =>
                simp only at h ⊢
                cases he : env.equalsTo corePath t with
                | true => simp [he] at h
                | false =>
                  rw [he] at h
                  rw [hcmp t rfl he]
                  simp only [Bool.not_false, if_true] at h ⊢
                  exact core_changed_of_txt_changed_nil env fuel t targetFile h
    | notExist err => rfl
    | failed err => rfl

end builder_utils

/-! ### The change checks of a core folder: the claim -/

open builder_utils BuilderSpec in
/-- C28, the code at the failing input: the core path `/hw/AVR` and the
referenced core path `/hw/avr` differ in case only. `TXTBuildRulesHaveChanged`
compares them with `EqualsTo`, goes on to the referenced core and reports true
for its rule file `platform.txt`, which is newer than the target;
`CoreOrReferencedCoreHasChanged` compares them with `strings.EqualFold`, takes
them for the same folder, does not look at the referenced core and reports
false on the same file system. -/
theorem txtBuildRulesHaveChanged_not_restriction :
    findAllFilesInFolder caseEnv 2 "/hw/AVR" true = some (.ok ["/hw/AVR/boards.txt"]) ∧
    findAllFilesInFolder caseEnv 1 "/hw/avr" true = some (.ok ["/hw/avr/platform.txt"]) ∧
    caseEnv.equalsTo "/hw/AVR" "/hw/avr" = false ∧
    caseEnv.equalFold "/hw/AVR" "/hw/avr" = true ∧
    TXTBuildRulesHaveChanged caseEnv 3 "/hw/AVR" (some "/hw/avr") "/build/core.a" = some true ∧
    CoreOrReferencedCoreHasChanged caseEnv 3 "/hw/AVR" (some "/hw/avr") "/build/core.a" =
      some false := by
  refine ⟨?_, ?_, ?_, ?_, ?_, ?_⟩ <;> rfl

/-! ### Lemmas on the passes of `unescapeDep` -/

namespace strings

theorem replaceChars_nil (old new : List Char) (fuel : Nat) :
    replaceChars old new fuel [] = [] := by
  cases fuel <;> rfl

end strings

namespace DepSpec

theorem replacePair_cons_ne (a b n x : Char) (l : List Char) (h : x ≠ a) :
    replacePair a b n (x :: l) = x :: replacePair a b n l := by
  cases l with
  | nil => rfl
  | cons y rest => simp [replacePair, h]

theorem replacePair_cons_cons_ne (a b n x y : Char) (l : List Char) (h : y ≠ b) :
    replacePair a b n (x :: y :: l) = x :: replacePair a b n (y :: l) := by
  simp [replacePair, h]

theorem replacePair_match (a b n : Char) (l : List Char) :
    replacePair a b n (a :: b :: l) = n :: replacePair a b n l := by
  simp [replacePair]

theorem replacePair_append (a b n : Char) (t R : List Char) (h : a ∉ t) :
    replacePair a b n (t ++ R) = t ++ replacePair a b n R := by
  induction t with
  | nil => rfl
  | cons c t ih =>
    have hc : c ≠ a := fun e => h (e ▸ List.mem_cons_self _ _)
    rw [List.cons_append, replacePair_cons_ne a b n c _ hc,
      ih (fun hm => h (List.mem_cons_of_mem _ hm))]
    rfl

/-- The scan of `strings.Replace` for a pair of characters is `replacePair`. -/
theorem replaceChars_pair (a b n : Char) (fuel : Nat) (s : List Char) (h : s.length ≤ fuel) :
    strings.replaceChars [a, b] [n] fuel s = replacePair a b n s := by
  induction fuel generalizing s with
  | zero =>
    cases s with
    | nil => rfl
    | cons c cs => simp at h
  | succ fuel ih =>
    cases s with
    | nil => rfl
    | cons x t =>
      cases t with
      | nil =>
        simp [strings.replaceChars, List.isPrefixOf, replacePair, strings.replaceChars_nil]
      | cons y rest =>
        have hl1 : (y :: rest).length ≤ fuel := by simpa using h
        have hl2 : rest.length ≤ fuel := by
          simp only [List.length_cons] at hl1
          omega
        simp only [strings.replaceChars, List.isPrefixOf, Bool.and_true, List.length_cons,
          List.length_nil, List.drop_succ_cons, List.drop_zero, replacePair]
        by_cases hx : x = a
        · by_cases hy : y = b
          · subst hx hy
            simp [ih rest hl2]
          · have hy2 : ¬ b = y := fun e => hy e.symm
            simp [hx, hy, hy2, ih _ hl1]
        · have hx2 : ¬ a = x := fun e => hx e.symm
          simp [hx, hx2, ih _ hl1]

theorem replace_pair (s : String) (a b n : Char) :
    strings.Replace s (String.mk [a, b]) (String.mk [n]) =
      String.mk (replacePair a b n s.data) := by
  unfold strings.Replace
  rw [replaceChars_pair a b n _ _ (le_refl _)]

theorem render_nil (last : Nat) : render [] last = List.replicate last '\\' := rfl

theorem render_cons (p : Nat × List Char) (runs : List (Nat × List Char)) (last : Nat) :
    render (p :: runs) last = List.replicate p.1 '\\' ++ p.2 ++ render runs last := by
  simp [render]

/-! The pass for backslash + `x`. -/

theorem replacePair_run_special (x : Char) (hx : x ≠ '\\') (m : Nat) (t R : List Char)
    (ht : '\\' ∉ t) :
    replacePair '\\' x x (List.replicate (m + 1) '\\' ++ (x :: t) ++ R) =
      List.replicate m '\\' ++ (x :: t) ++ replacePair '\\' x x R := by
  induction m with
  | zero =>
    simp only [List.replicate_succ, List.replicate_zero, List.cons_append, List.nil_append,
      List.append_assoc]
    rw [replacePair_match, replacePair_append _ _ _ _ _ ht]
  | succ m ih =>
    rw [List.replicate_succ, List.replicate_succ]
    simp only [List.cons_append]
    rw [replacePair_cons_cons_ne _ _ _ _ _ _ (fun e => hx e.symm)]
    have := ih
    rw [List.replicate_succ] at this
    simp only [List.cons_append] at this
    rw [this]

theorem replacePair_run_other (x : Char) (m : Nat) (c : Char) (t R : List Char)
    (hx : x ≠ '\\') (hc : c ≠ x) (hc2 : c ≠ '\\') (ht : '\\' ∉ t) :
    replacePair '\\' x x (List.replicate m '\\' ++ (c :: t) ++ R) =
      List.replicate m '\\' ++ (c :: t) ++ replacePair '\\' x x R := by
  induction m with
  | zero =>
    simp only [List.replicate_zero, List.nil_append]
    apply replacePair_append
    intro hm
    rcases List.mem_cons.mp hm with e | e
    · exact hc2 e.symm
    · exact ht e
  | succ m ih =>
    cases m with
    | zero =>
      simp only [List.replicate_succ, List.replicate_zero, List.cons_append, List.nil_append]
      rw [replacePair_cons_cons_ne _ _ _ _ _ _ hc]
      simp only [List.replicate_zero, List.nil_append, List.cons_append] at ih
      rw [ih]
    | succ m =>
      rw [List.replicate_succ, List.replicate_succ]
      simp only [List.cons_append]
      rw [replacePair_cons_cons_ne _ _ _ _ _ _ (fun e => hx e.symm)]
      rw [List.replicate_succ] at ih
      simp only [List.cons_append] at ih
      rw [ih]

theorem replacePair_last_special (x : Char) (hx : x ≠ '\\') (k : Nat) :
    replacePair '\\' x x (List.replicate k '\\') = List.replicate k '\\' := by
  induction k with
  | zero => rfl
  | succ k ih =>
    cases k with
    | zero => rfl
    | succ k =>
      rw [List.replicate_succ, List.replicate_succ,
        replacePair_cons_cons_ne _ _ _ _ _ _ (fun e => hx e.symm)]
      rw [List.replicate_succ] at ih
      rw [ih]

theorem replacePair_run_dropBefore (x : Char) (hx : x ≠ '\\') (p : Nat × List Char)
    (R : List Char) (hp : p.2 ≠ [] ∧ '\\' ∉ p.2) :
    replacePair '\\' x x (List.replicate p.1 '\\' ++ p.2 ++ R) =
      List.replicate (dropBefore x p).1 '\\' ++ (dropBefore x p).2 ++ replacePair '\\' x x R := by
  obtain ⟨m, t⟩ := p
  obtain ⟨hne, hb⟩ := hp
  cases t with
  | nil => exact absurd rfl hne
  | cons c t =>
    have hc2 : c ≠ '\\' := fun e => hb (e ▸ List.mem_cons_self _ _)
    have ht : '\\' ∉ t := fun hm => hb (List.mem_cons_of_mem _ hm)
    by_cases hc : c = x
    · subst hc
      have hd : dropBefore c (m, c :: t) = (m - 1, c :: t) := by simp [dropBefore]
      rw [hd]
      cases m with
      | zero =>
        simp only [List.replicate_zero, List.nil_append, Nat.zero_sub]
        exact replacePair_append _ _ _ _ _ hb
      | succ m =>
        simp only [Nat.add_sub_cancel]
        exact replacePair_run_special c hx m t R ht
    · have hd : dropBefore x (m, c :: t) = (m, c :: t) := by simp [dropBefore, hc]
      rw [hd]
      exact replacePair_run_other x m c t R hx hc hc2 ht

theorem replacePair_render_special (x : Char) (hx : x ≠ '\\') (runs : List (Nat × List Char))
    (last : Nat) (h : ∀ p ∈ runs, p.2 ≠ [] ∧ '\\' ∉ p.2) :
    replacePair '\\' x x (render runs last) = render (runs.map (dropBefore x)) last := by
  induction runs with
  | nil => exact replacePair_last_special x hx last
  | cons p runs ih =>
    rw [List.map_cons, render_cons, render_cons,
      replacePair_run_dropBefore x hx p _ (h p (List.mem_cons_self _ _)),
      ih (fun q hq => h q (List.mem_cons_of_mem _ hq))]

/-! The pass for two dollar signs. -/

theorem not_mem_replicate_backslash (c : Char) (hc : c ≠ '\\') (m : Nat) :
    c ∉ List.replicate m '\\' := by
  intro h
  exact hc (List.eq_of_mem_replicate h)

theorem replacePair_render_dollars (runs : List (Nat × List Char)) (last : Nat)
    (h : ∀ p ∈ runs, p.2 = ['$', '$'] ∨ '$' ∉ p.2) :
    replacePair '$' '$' '$' (render runs last) = render (runs.map halveDollars) last := by
  induction runs with
  | nil =>
    have := replacePair_append '$' '$' '$' (List.replicate last '\\') []
      (not_mem_replicate_backslash '$' (by decide) last)
    simpa [render_nil, replacePair] using this
  | cons p runs ih =>
    rw [List.map_cons, render_cons, render_cons, List.append_assoc,
      replacePair_append _ _ _ _ _ (not_mem_replicate_backslash '$' (by decide) p.1)]
    have ih2 := ih (fun q hq => h q (List.mem_cons_of_mem _ hq))
    by_cases hp : p.2 = ['$', '$']
    · have hd : halveDollars p = (p.1, ['$']) := by simp [halveDollars, hp]
      rw [hd, hp]
      simp only [List.cons_append, List.nil_append, List.append_assoc]
      rw [replacePair_match, ih2]
    · have hd : halveDollars p = p := by simp [halveDollars, hp]
      have hn : '$' ∉ p.2 := by
        rcases h p (List.mem_cons_self _ _) with e | e
        · exact absurd e hp
        · exact e
      rw [hd, replacePair_append _ _ _ _ _ hn, ih2, List.append_assoc]

/-! The pass for two backslashes. -/

theorem replacePair_run_backslashes (m : Nat) (c : Char) (t R : List Char)
    (hc : c ≠ '\\') (ht : '\\' ∉ t) :
    (replacePair '\\' '\\' '\\' (List.replicate m '\\' ++ (c :: t) ++ R) =
      List.replicate ((m + 1) / 2) '\\' ++ (c :: t) ++ replacePair '\\' '\\' '\\' R) ∧
    (replacePair '\\' '\\' '\\' (List.replicate (m + 1) '\\' ++ (c :: t) ++ R) =
      List.replicate ((m + 2) / 2) '\\' ++ (c :: t) ++ replacePair '\\' '\\' '\\' R) := by
  have hct : '\\' ∉ c :: t := by
    intro hm
    rcases List.mem_cons.mp hm with e | e
    · exact hc e.symm
    · exact ht e
  induction m with
  | zero =>
    constructor
    · simp only [List.replicate_zero, List.nil_append, Nat.zero_add, Nat.reduceDiv]
      exact replacePair_append _ _ _ _ _ hct
    · simp only [Nat.zero_add, List.replicate_succ, List.replicate_zero, List.cons_append,
        List.nil_append, Nat.reduceDiv]
      rw [replacePair_cons_cons_ne _ _ _ _ _ _ hc]
      have := replacePair_append '\\' '\\' '\\' (c :: t) R hct
      simp only [List.cons_append] at this
      rw [this]
  | succ m ih =>
    refine ⟨ih.2, ?_⟩
    rw [List.replicate_succ, List.replicate_succ]
    simp only [List.cons_append]
    rw [replacePair_match]
    have h1 := ih.1
    simp only [List.cons_append, List.append_assoc] at h1 ⊢
    rw [h1]
    have hm : (m + 1 + 2) / 2 = (m + 1) / 2 + 1 := by omega
    rw [hm, List.replicate_succ]
    simp

theorem replacePair_last_backslashes (k : Nat) :
    (replacePair '\\' '\\' '\\' (List.replicate k '\\') = List.replicate ((k + 1) / 2) '\\') ∧
    (replacePair '\\' '\\' '\\' (List.replicate (k + 1) '\\') =
      List.replicate ((k + 2) / 2) '\\') := by
  induction k with
  | zero => exact ⟨rfl, rfl⟩
  | succ k ih =>
    refine ⟨ih.2, ?_⟩
    rw [List.replicate_succ, List.replicate_succ, replacePair_match, ih.1]
    have hm : (k + 1 + 2) / 2 = (k + 1) / 2 + 1 := by omega
    rw [hm, List.replicate_succ]

theorem replacePair_render_backslashes (runs : List (Nat × List Char)) (last : Nat)
    (h : ∀ p ∈ runs, p.2 ≠ [] ∧ '\\' ∉ p.2) :
    replacePair '\\' '\\' '\\' (render runs last) =
      render (runs.map halveBackslashes) ((last + 1) / 2) := by
  induction runs with
  | nil => exact (replacePair_last_backslashes last).1
  | cons p runs ih =>
    obtain ⟨m, t⟩ := p
    obtain ⟨hne, hb⟩ := h (m, t) (List.mem_cons_self _ _)
    cases t with
    | nil => exact absurd rfl hne
    | cons c t =>
      have hc : c ≠ '\\' := fun e => hb (e ▸ List.mem_cons_self _ _)
      have ht : '\\' ∉ t := fun hm => hb (List.mem_cons_of_mem _ hm)
      rw [List.map_cons, render_cons, render_cons]
      simp only [halveBackslashes]
      rw [(replacePair_run_backslashes m c t _ hc ht).1,
        ih (fun q hq => h q (List.mem_cons_of_mem _ hq))]

end DepSpec

namespace DepSpec

theorem dropBefore_snd (x : Char) (p : Nat × List Char) : (dropBefore x p).2 = p.2 := by
  unfold dropBefore
  split <;> rfl

theorem dropBefore_ne (x c : Char) (m : Nat) (t : List Char) (h : c ≠ x) :
    dropBefore x (m, c :: t) = (m, c :: t) := by
  simp [dropBefore, h]

theorem dropBefore_eq (x : Char) (m : Nat) (t : List Char) :
    dropBefore x (m, x :: t) = (m - 1, x :: t) := by
  simp [dropBefore]

theorem halveDollars_single (c : Char) (m : Nat) : halveDollars (m, [c]) = (m, [c]) := by
  simp [halveDollars]

/-- The five passes of `unescapeDep` on a row of runs. -/
theorem passes_render (runs : List (Nat × List Char)) (last : Nat)
    (h : ∀ p ∈ runs, p.2 ≠ [] ∧ '\\' ∉ p.2 ∧ (p.2 = ['$', '$'] ∨ '$' ∉ p.2)) :
    replacePair '\\' '\\' '\\' (replacePair '$' '$' '$' (replacePair '\\' '#' '#'
      (replacePair '\\' '\t' '\t' (replacePair '\\' ' ' ' ' (render runs last))))) =
    render (runs.map fun p => halveBackslashes (halveDollars
      (dropBefore '#' (dropBefore '\t' (dropBefore ' ' p))))) ((last + 1) / 2) := by
  have h1 : ∀ p ∈ runs, p.2 ≠ [] ∧ '\\' ∉ p.2 := fun p hp => ⟨(h p hp).1, (h p hp).2.1⟩
  rw [replacePair_render_special ' ' (by decide) runs last h1]
  have h2 : ∀ p ∈ runs.map (dropBefore ' '), p.2 ≠ [] ∧ '\\' ∉ p.2 := by
    intro p hp
    obtain ⟨q, hq, rfl⟩ := List.mem_map.mp hp
    rw [dropBefore_snd]
    exact h1 q hq
  rw [replacePair_render_special '\t' (by decide) _ last h2]
  have h3 : ∀ p ∈ (runs.map (dropBefore ' ')).map (dropBefore '\t'), p.2 ≠ [] ∧ '\\' ∉ p.2 := by
    intro p hp
    obtain ⟨q, hq, rfl⟩ := List.mem_map.mp hp
    rw [dropBefore_snd]
    exact h2 q hq
  rw [replacePair_render_special '#' (by decide) _ last h3]
  have h4 : ∀ p ∈ ((runs.map (dropBefore ' ')).map (dropBefore '\t')).map (dropBefore '#'),
      p.2 = ['$', '$'] ∨ '$' ∉ p.2 := by
    intro p hp
    simp only [List.map_map, List.mem_map, Function.comp] at hp
    obtain ⟨q, hq, rfl⟩ := hp
    rw [dropBefore_snd, dropBefore_snd, dropBefore_snd]
    exact (h q hq).2.2
  rw [replacePair_render_dollars _ last h4]
  have h5 : ∀ p ∈ (((runs.map (dropBefore ' ')).map (dropBefore '\t')).map
      (dropBefore '#')).map halveDollars, p.2 ≠ [] ∧ '\\' ∉ p.2 := by
    intro p hp
    simp only [List.map_map, List.mem_map, Function.comp] at hp
    obtain ⟨q, hq, rfl⟩ := hp
    have hq2 := h1 q hq
    unfold halveDollars
    split
    · exact ⟨by simp, by simp⟩
    · rw [dropBefore_snd, dropBefore_snd, dropBefore_snd]
      exact hq2
  rw [replacePair_render_backslashes _ last h5]
  simp only [List.map_map]
  rfl

/-- `unescapeDep` on a row of runs. -/
theorem unescapeDep_render (runs : List (Nat × List Char)) (last : Nat)
    (h : ∀ p ∈ runs, p.2 ≠ [] ∧ '\\' ∉ p.2 ∧ (p.2 = ['$', '$'] ∨ '$' ∉ p.2)) :
    builder_utils.unescapeDep (String.mk (render runs last)) =
      String.mk (render (runs.map fun p => halveBackslashes (halveDollars
        (dropBefore '#' (dropBefore '\t' (dropBefore ' ' p))))) ((last + 1) / 2)) := by
  unfold builder_utils.unescapeDep
  simp only []
  rw [show ("\\ " : String) = String.mk ['\\', ' '] from rfl,
    show (" " : String) = String.mk [' '] from rfl,
    show ("\\\t" : String) = String.mk ['\\', '\t'] from rfl,
    show ("\t" : String) = String.mk ['\t'] from rfl,
    show ("\\#" : String) = String.mk ['\\', '#'] from rfl,
    show ("#" : String) = String.mk ['#'] from rfl,
    show ("$$" : String) = String.mk ['$', '$'] from rfl,
    show ("$" : String) = String.mk ['$'] from rfl,
    show ("\\\\" : String) = String.mk ['\\', '\\'] from rfl,
    show ("\\" : String) = String.mk ['\\'] from rfl]
  simp only [replace_pair]
  rw [passes_render runs last h]

theorem item_good (it : Item) (h : it.valid) :
    it.escaped.2 ≠ [] ∧ '\\' ∉ it.escaped.2 ∧
      (it.escaped.2 = ['$', '$'] ∨ '$' ∉ it.escaped.2) := by
  cases it with
  | special n c =>
    simp only [Item.escaped]
    rcases h with rfl | rfl | rfl <;> exact ⟨by simp, by decide, Or.inr (by decide)⟩
  | plain k c =>
    obtain ⟨h1, h2, _⟩ := h
    simp only [Item.escaped]
    refine ⟨by simp, ?_, Or.inr ?_⟩
    · simp only [List.mem_singleton]
      exact fun e => h1 e.symm
    · simp only [List.mem_singleton]
      exact fun e => h2 e.symm
  | dollars k =>
    exact ⟨by simp [Item.escaped], by simp [Item.escaped], Or.inl rfl⟩

theorem item_passes (it : Item) (h : it.valid) :
    halveBackslashes (halveDollars (dropBefore '#' (dropBefore '\t' (dropBefore ' '
      it.escaped)))) = it.unescaped := by
  cases it with
  | special n c =>
    have hn : (n - 1 + 1) / 2 = n / 2 := by omega
    rcases h with rfl | rfl | rfl
    · simp only [Item.escaped, Item.unescaped]
      rw [dropBefore_eq, dropBefore_ne _ _ _ _ (by decide), dropBefore_ne _ _ _ _ (by decide),
        halveDollars_single]
      simp only [halveBackslashes, hn]
    · simp only [Item.escaped, Item.unescaped]
      rw [dropBefore_ne _ _ _ _ (by decide), dropBefore_eq, dropBefore_ne _ _ _ _ (by decide),
        halveDollars_single]
      simp only [halveBackslashes, hn]
    · simp only [Item.escaped, Item.unescaped]
      rw [dropBefore_ne _ _ _ _ (by decide), dropBefore_ne _ _ _ _ (by decide), dropBefore_eq,
        halveDollars_single]
      simp only [halveBackslashes, hn]
  | plain k c =>
    obtain ⟨_, _, h3, h4, h5⟩ := h
    have hk : (2 * k + 1) / 2 = k := by omega
    simp only [Item.escaped, Item.unescaped]
    rw [dropBefore_ne _ _ _ _ h3, dropBefore_ne _ _ _ _ h4, dropBefore_ne _ _ _ _ h5,
      halveDollars_single]
    simp only [halveBackslashes, hk]
  | dollars k =>
    have hk : (2 * k + 1) / 2 = k := by omega
    have e4 : halveDollars (2 * k, ['$', '$']) = (2 * k, ['$']) := by simp [halveDollars]
    simp only [Item.escaped, Item.unescaped]
    rw [dropBefore_ne _ _ _ _ (by decide), dropBefore_ne _ _ _ _ (by decide),
      dropBefore_ne _ _ _ _ (by decide), e4]
    simp only [halveBackslashes, hk]

theorem prepend_escaped (t : Token) (g : List Item × Nat) :
    t.escaped ++ render (g.1.map Item.escaped) (2 * g.2) =
      render ((prepend t g).1.map Item.escaped) (2 * (prepend t g).2) := by
  obtain ⟨items, k⟩ := g
  cases t with
  | plain c =>
    by_cases hc : c = ' ' ∨ c = '\t' ∨ c = '#'
    · simp [prepend, hc, render_cons, Item.escaped, Token.escaped]
    · simp [prepend, hc, render_cons, Item.escaped, Token.escaped]
  | escSpace => simp [prepend, render_cons, Item.escaped, Token.escaped, List.replicate_succ]
  | escTab => simp [prepend, render_cons, Item.escaped, Token.escaped, List.replicate_succ]
  | escHash => simp [prepend, render_cons, Item.escaped, Token.escaped, List.replicate_succ]
  | dollar => simp [prepend, render_cons, Item.escaped, Token.escaped]
  | backslash =>
    cases items with
    | nil =>
      have hk : 2 * (k + 1) = 2 * k + 1 + 1 := by omega
      simp [prepend, render_nil, Token.escaped, hk, List.replicate_succ]
    | cons it rest =>
      cases it with
      | special n c =>
        simp [prepend, render_cons, Item.escaped, Token.escaped, List.replicate_succ]
      | plain j c =>
        have hj : 2 * (j + 1) = 2 * j + 1 + 1 := by omega
        simp [prepend, render_cons, Item.escaped, Token.escaped, hj, List.replicate_succ]
      | dollars j =>
        have hj : 2 * (j + 1) = 2 * j + 1 + 1 := by omega
        simp [prepend, render_cons, Item.escaped, Token.escaped, hj, List.replicate_succ]

theorem prepend_unescaped (t : Token) (g : List Item × Nat) :
    t.unescaped ++ render (g.1.map Item.unescaped) g.2 =
      render ((prepend t g).1.map Item.unescaped) (prepend t g).2 := by
  obtain ⟨items, k⟩ := g
  cases t with
  | plain c =>
    by_cases hc : c = ' ' ∨ c = '\t' ∨ c = '#'
    · simp [prepend, hc, render_cons, Item.unescaped, Token.unescaped]
    · simp [prepend, hc, render_cons, Item.unescaped, Token.unescaped]
  | escSpace => simp [prepend, render_cons, Item.unescaped, Token.unescaped]
  | escTab => simp [prepend, render_cons, Item.unescaped, Token.unescaped]
  | escHash => simp [prepend, render_cons, Item.unescaped, Token.unescaped]
  | dollar => simp [prepend, render_cons, Item.unescaped, Token.unescaped]
  | backslash =>
    cases items with
    | nil => simp [prepend, render_nil, Token.unescaped, List.replicate_succ]
    | cons it rest =>
      cases it with
      | special n c =>
        have hn : (n + 2) / 2 = n / 2 + 1 := by omega
        simp [prepend, render_cons, Item.unescaped, Token.unescaped, hn, List.replicate_succ]
      | plain j c =>
        simp [prepend, render_cons, Item.unescaped, Token.unescaped, List.replicate_succ]
      | dollars j =>
        simp [prepend, render_cons, Item.unescaped, Token.unescaped, List.replicate_succ]

theorem prepend_valid (t : Token) (ht : t.valid) (g : List Item × Nat)
    (hg : ∀ it ∈ g.1, it.valid) : ∀ it ∈ (prepend t g).1, it.valid := by
  obtain ⟨items, k⟩ := g
  cases t with
  | plain c =>
    obtain ⟨h1, h2⟩ := ht
    by_cases hc : c = ' ' ∨ c = '\t' ∨ c = '#'
    · simp only [prepend, if_pos hc, List.mem_cons]
      rintro it (rfl | hit)
      · exact hc
      · exact hg it hit
    · simp only [prepend, if_neg hc, List.mem_cons]
      rintro it (rfl | hit)
      · simp only [not_or] at hc
        exact ⟨h1, h2, hc.1, hc.2.1, hc.2.2⟩
      · exact hg it hit
  | escSpace =>
    simp only [prepend, List.mem_cons]
    rintro it (rfl | hit)
    · exact Or.inl rfl
    · exact hg it hit
  | escTab =>
    simp only [prepend, List.mem_cons]
    rintro it (rfl | hit)
    · exact Or.inr (Or.inl rfl)
    · exact hg it hit
  | escHash =>
    simp only [prepend, List.mem_cons]
    rintro it (rfl | hit)
    · exact Or.inr (Or.inr rfl)
    · exact hg it hit
  | dollar =>
    simp only [prepend, List.mem_cons]
    rintro it (rfl | hit)
    · trivial
    · exact hg it hit
  | backslash =>
    cases items with
    | nil => simp [prepend]
    | cons i rest =>
      have hi : i.valid := hg i (List.mem_cons_self _ _)
      have hr : ∀ it ∈ rest, it.valid := fun it hit => hg it (List.mem_cons_of_mem _ hit)
      cases i with
      | special n c =>
        simp only [prepend, List.mem_cons]
        rintro it (rfl | hit)
        · exact hi
        · exact hr it hit
      | plain j c =>
        simp only [prepend, List.mem_cons]
        rintro it (rfl | hit)
        · exact hi
        · exact hr it hit
      | dollars j =>
        simp only [prepend, List.mem_cons]
        rintro it (rfl | hit)
        · exact hi
        · exact hr it hit

/-- The grouping of a row renders the row, and what it stands for. -/
theorem group_spec (tokens : List Token) (h : ∀ t ∈ tokens, t.valid) :
    tokens.flatMap Token.escaped =
      render ((group tokens).1.map Item.escaped) (2 * (group tokens).2) ∧
    tokens.flatMap Token.unescaped =
      render ((group tokens).1.map Item.unescaped) (group tokens).2 ∧
    ∀ it ∈ (group tokens).1, it.valid := by
  induction tokens with
  | nil => exact ⟨rfl, rfl, by simp [group]⟩
  | cons t rest ih =>
    obtain ⟨h1, h2, h3⟩ := ih (fun x hx => h x (List.mem_cons_of_mem _ hx))
    have hg : group (t :: rest) = prepend t (group rest) := rfl
    rw [hg]
    refine ⟨?_, ?_, prepend_valid t (h t (List.mem_cons_self _ _)) _ h3⟩
    · rw [List.flatMap_cons, h1, prepend_escaped]
    · rw [List.flatMap_cons, h2, prepend_unescaped]

end DepSpec

/-! ### The escapes of a dependency row: the claim -/

open builder_utils DepSpec in
/-- C25, refuted as stated: in `a\tb`, written with a backslash and the letter
`t`, nothing is replaced; the second pass of `unescapeDep` looks for a
backslash followed by a tab character, which it replaces by the tab
character. -/
theorem unescapeDep_backslash_t_counterexample :
    unescapeDep (String.mk ['a', '\\', 't', 'b']) = String.mk ['a', '\\', 't', 'b'] ∧
    unescapeDep (String.mk ['a', '\\', 't', 'b']) ≠ String.mk ['a', '\t', 'b'] ∧
    unescapeDep (String.mk ['a', '\\', '\t', 'b']) = String.mk ['a', '\t', 'b'] := by
  refine ⟨?_, ?_, ?_⟩ <;> decide

open builder_utils DepSpec in
/-- C25, amended: in a row made of the sequences backslash + space, backslash
+ tab character, backslash + `#`, `$$` and two backslashes and of characters
that are no backslash and no `$`, `unescapeDep` replaces every such sequence
by a space, a tab character, `#`, `$` and one backslash and leaves every other
character as it is. -/
theorem unescapeDep_tokens (tokens : List Token) (h : ∀ t ∈ tokens, t.valid) :
    unescapeDep (escaped tokens) = unescaped tokens := by
  obtain ⟨h1, h2, h3⟩ := group_spec tokens h
  unfold escaped unescaped
  rw [h1, h2, unescapeDep_render]
  · have hk : (2 * (group tokens).2 + 1) / 2 = (group tokens).2 := by omega
    rw [hk, List.map_map]
    congr 2
    apply List.map_congr_left
    intro it hit
    exact item_passes it (h3 it hit)
  · intro p hp
    obtain ⟨it, hit, rfl⟩ := List.mem_map.mp hp
    exact item_good it (h3 it hit)

open builder_utils DepSpec in
/-- C25 amended, at the row `a\ b\\ c` followed by backslash + tab character,
`\#`, `$$`, `d`, four backslashes and `e`. -/
theorem unescapeDep_tokens_witness :
    (∀ t ∈ [Token.plain 'a', .escSpace, .plain 'b', .backslash, .plain ' ', .plain 'c', .escTab,
      .escHash, .dollar, .plain 'd', .backslash, .backslash, .plain 'e'], t.valid) ∧
    escaped [.plain 'a', .escSpace, .plain 'b', .backslash, .plain ' ', .plain 'c', .escTab,
      .escHash, .dollar, .plain 'd', .backslash, .backslash, .plain 'e'] =
      "a\\ b\\\\ c\\\t\\#$$d\\\\\\\\e" ∧
    unescapeDep "a\\ b\\\\ c\\\t\\#$$d\\\\\\\\e" = "a b\\ c\t#$d\\\\e" :=
  ⟨by decide, by decide,
    unescapeDep_tokens [.plain 'a', .escSpace, .plain 'b', .backslash, .plain ' ', .plain 'c',
      .escTab, .escHash, .dollar, .plain 'd', .backslash, .backslash, .plain 'e'] (by decide)⟩
